import Mathlib

/-! Project Euler solutions: verification development.

Shallow embedding of `p96/solution.cpp` (the backtracking Sudoku solver), of
`p92/solution.cpp` (the chains of digit-square sums) and of `p93/solution.cpp`
(the arithmetic expressions over four digits), and proofs of their contracts.

Modelling conventions, problem 96.
* `int grid[81]` is a `List Int`; a read or write at an index outside the list
  is undefined behaviour in the source and is `none` / `Outcome.undefined` here.
* `std::vector<int> emptyCells` is a `List Nat` in vector order: `back()` is the
  last element, `pop_back` is `dropLast`, `push_back c` appends `[c]`. Cell
  indices are natural numbers (`loadSudoku` pushes `i * 9 + j` only); the values
  of the cells are integers.
* `bool usedMoves[10]` is a `List Bool` of length 10; indexing it with a value
  outside `0..9` is undefined behaviour.
* The recursion of `solve` is modelled with a bound on the nesting depth of the
  calls (`solveFuel`); `solve` supplies one more than the number of empty cells.
  That bound is never hit, and every larger bound gives the same result
  (`solveFuel_ne_outOfFuel`, `solveFuel_eq_solve`).
* `main` is modelled on the list of the puzzles that `loadSudoku` has read.

Modelling conventions, problem 92.
* `int* log = new int[10000000]` is a function `Nat → Int` together with the
  number of entries `logSize`; a read or write at an index that is not below
  `logSize` is undefined behaviour in the source and `EvalResult.undefined` here.
* The numbers involved stay below `2^31`, so `int` arithmetic is exact.
* The recursion of `eval` is modelled with a bound on the nesting depth.

Modelling conventions, problem 93.
* A value of type `double` is the rational number it stands for. Every operation on
  doubles gives the exact result rounded to the nearest number of 53 significant bits,
  ties to even (`round64`): IEEE 754 binary64 in its default rounding mode. The
  exponent range of binary64 is not modelled: three operations on `int` operands
  cannot reach it (on digits the values are 0 or between `2 ^ (-50)` and 6561).
* The conversions of `int` to `double` are exact, and the cast `(int)val` is
  truncation toward zero.
* A division by 0 makes `operate` throw; the exception is `none`, caught by
  `compute`, which then returns 0.
* `bool canExpress[3025]` is a `List Bool`; an index outside the list is
  undefined behaviour in the source and `none` / `Run.undefined` here.
* The two loops of `trial` are modelled with a bound on the number of iterations.
* Exact rational arithmetic is the specification side: `Expr.value` is the exact
  value of an expression and `Expr.rounded` its value in `double` arithmetic, both
  instances of `Expr.eval`.
-/

namespace P96

/-- The source's `struct Sudoku`. -/
structure Sudoku where
  grid : List Int
  emptyCells : List Nat
deriving DecidableEq

/-- Result of running `solve`: it returns a boolean and leaves a state behind, or
it performs an out-of-range array access, or the depth bound of the model is hit. -/
inductive Outcome where
  | done (result : Bool) (s : Sudoku)
  | undefined
  | outOfFuel
deriving DecidableEq

/-- The statement `usedMoves[v] = true` on the table `bool usedMoves[10]`. -/
def markUsed (usedMoves : List Bool) (v : Int) : Option (List Bool) :=
  if 0 ≤ v ∧ v < 10 then some (usedMoves.set v.toNat true) else none

/-- A loop whose body is `usedMoves[sudoku.grid[i]] = true`, run over the
indices `idxs` in order. -/
def scanCells (grid : List Int) : List Nat → List Bool → Option (List Bool)
  | [], usedMoves => some usedMoves
  | i :: rest, usedMoves =>
    match grid[i]? with
    | none => none
    | some v =>
      match markUsed usedMoves v with
      | none => none
      | some usedMoves1 => scanCells grid rest usedMoves1

/-- Indices visited by `for (int i = row * 9; i < (row + 1) * 9; i++)`. -/
def rowIndices (row : Nat) : List Nat :=
  List.range' (row * 9) ((row + 1) * 9 - row * 9)

/-- Indices visited by `for (int i = col % 9; i < 81; i += 9)`: the loop starts at `col % 9`
and runs `(81 - col % 9)` divided by 9, rounded up, times. -/
def colIndices (col : Nat) : List Nat :=
  List.range' (col % 9) ((81 - col % 9 + 8) / 9) 9

/-- Indices `x = topLeft + i * 9 + j` visited by the nested loops
`for i < 3`, `for j < 3`. -/
def boxIndices (topLeft : Nat) : List Nat :=
  (List.range 3).flatMap (fun i => (List.range 3).map (fun j => topLeft + i * 9 + j))

/-- The final loop `for (int i = 1; i <= 9; i++) if (!usedMoves[i]) push_back(i)`. -/
def remainingMoves (usedMoves : List Bool) : List Int :=
  ((List.range' 1 9).filter (fun i => !(usedMoves.getD i false))).map Int.ofNat

/-- The source's `getLegalMoves(cell, sudoku)`. The puzzle is passed by reference, so the
state after the call is returned next to the vector of moves. -/
def getLegalMoves (cell : Nat) (sudoku : Sudoku) : Option (List Int × Sudoku) :=
  let usedMoves := List.replicate 10 false
  let row := cell / 9
  match scanCells sudoku.grid (rowIndices row) usedMoves with
  | none => none
  | some usedMoves1 =>
    let col := cell % 9
    match scanCells sudoku.grid (colIndices col) usedMoves1 with
    | none => none
    | some usedMoves2 =>
      let topLeft := (row / 3) * 27 + (col / 3) * 3
      match scanCells sudoku.grid (boxIndices topLeft) usedMoves2 with
      | none => none
      | some usedMoves3 => some (remainingMoves usedMoves3, sudoku)

/-- The statement `s.grid[cell] = v`. Where `solve` executes it, `getLegalMoves cell` has
returned, so its row scan has read `grid[cell]` and the index is in range
(`cell_lt_length_of_getLegalMoves`). -/
def setCell (s : Sudoku) (cell : Nat) (v : Int) : Sudoku :=
  { s with grid := s.grid.set cell v }

/-- The loop `for (int m : moves) { s.grid[cell] = m; if (solve(s)) return true; }`
of `solve`, with the recursive call passed as `rec`. `done false` means that the loop ran to
its end without returning. -/
def tryMoves (rec : Sudoku → Outcome) (cell : Nat) : List Int → Sudoku → Outcome
  | [], s => Outcome.done false s
  | m :: rest, s =>
    match rec (setCell s cell m) with
    | Outcome.done false s1 => tryMoves rec cell rest s1
    | r => r

/-- The source's `solve`, with at most `fuel` nested activations. -/
def solveFuel : Nat → Sudoku → Outcome
  | 0, _ => Outcome.outOfFuel
  | fuel + 1, s =>
    match s.emptyCells.getLast? with
    | none => Outcome.done true s
    | some cell =>
      let s1 : Sudoku := { s with emptyCells := s.emptyCells.dropLast }
      match getLegalMoves cell s1 with
      | none => Outcome.undefined
      | some (moves, s2) =>
        match tryMoves (fun t => solveFuel fuel t) cell moves s2 with
        | Outcome.done false s3 =>
          Outcome.done false { grid := s3.grid.set cell 0, emptyCells := s3.emptyCells ++ [cell] }
        | r => r

/-- The source's `solve`. -/
def solve (s : Sudoku) : Outcome :=
  solveFuel (s.emptyCells.length + 1) s

/-- The loop `tryMoves` together with the record of the calls of `solve` it makes. -/
def tryMovesTrace (rec : Sudoku → Outcome × List (Nat × Sudoku)) (cell : Nat) :
    List Int → Sudoku → Outcome × List (Nat × Sudoku)
  | [], s => (Outcome.done false s, [])
  | m :: rest, s =>
    match rec (setCell s cell m) with
    | (Outcome.done false s1, tr) =>
      ((tryMovesTrace rec cell rest s1).1, tr ++ (tryMovesTrace rec cell rest s1).2)
    | r => r

/-- The function `solveFuel` instrumented with a record of the activations of `solve`: each
activation that starts running is recorded, in the order of entry, with its nesting depth
(`depth` for the outermost one) and the state at its entry. -/
def solveTrace : Nat → Nat → Sudoku → Outcome × List (Nat × Sudoku)
  | 0, _, _ => (Outcome.outOfFuel, [])
  | fuel + 1, depth, s =>
    match s.emptyCells.getLast? with
    | none => (Outcome.done true s, [(depth, s)])
    | some cell =>
      let s1 : Sudoku := { s with emptyCells := s.emptyCells.dropLast }
      match getLegalMoves cell s1 with
      | none => (Outcome.undefined, [(depth, s)])
      | some (moves, s2) =>
        match tryMovesTrace (fun t => solveTrace fuel (depth + 1) t) cell moves s2 with
        | (Outcome.done false s3, tr) =>
          (Outcome.done false { grid := s3.grid.set cell 0, emptyCells := s3.emptyCells ++ [cell] },
            (depth, s) :: tr)
        | (r, tr) => (r, (depth, s) :: tr)


/-- The driver's loop `for (i = 1; i <= 50; i++) { s = loadSudoku(file); solve(s);
sum += s.grid[0]*100 + s.grid[1]*10 + s.grid[2]; }`, over the puzzles that the successive
calls of `loadSudoku` return. The result is the final value of `sum`; `none` stands for
undefined behaviour in `solve`. -/
def mainLoop : List Sudoku → Int → Option Int
  | [], sum => some sum
  | s :: rest, sum =>
    match solve s with
    | Outcome.done _ t =>
      match t.grid[0]?, t.grid[1]?, t.grid[2]? with
      | some x0, some x1, some x2 => mainLoop rest (sum + (x0 * 100 + x1 * 10 + x2))
      | _, _, _ => none
    | _ => none

/-- The answer printed by the source's `main`: `int sum = 1;` followed by the loop. -/
def main (puzzles : List Sudoku) : Option Int := mainLoop puzzles 1

/-- The 3-digit number `100 * grid[0] + 10 * grid[1] + grid[2]` read from the grid that
`solve` leaves for the puzzle `s`. -/
def leadingNumber (s : Sudoku) : Option Int :=
  match solve s with
  | Outcome.done _ t =>
    match t.grid[0]?, t.grid[1]?, t.grid[2]? with
    | some x0, some x1, some x2 => some (100 * x0 + 10 * x1 + x2)
    | _, _, _ => none
  | _ => none

/-- The sum over the batch of the 3-digit numbers of its puzzles. -/
def batchSum : List Sudoku → Option Int
  | [] => some 0
  | s :: rest =>
    match leadingNumber s, batchSum rest with
    | some x, some total => some (x + total)
    | _, _ => none

/-- The grid `534678912672195348198342567859761423426853791713924856961537284287419635345286179`
of the spec's concrete scenario. -/
def exampleSolved : List Int :=
  [5,3,4,6,7,8,9,1,2, 6,7,2,1,9,5,3,4,8, 1,9,8,3,4,2,5,6,7,
   8,5,9,7,6,1,4,2,3, 4,2,6,8,5,3,7,9,1, 7,1,3,9,2,4,8,5,6,
   9,6,1,5,3,7,2,8,4, 2,8,7,4,1,9,6,3,5, 3,4,5,2,8,6,1,7,9]

/-- The spec's concrete scenario: `exampleSolved` with cell 0 blanked and listed. -/
def scenarioPuzzle : Sudoku := ⟨exampleSolved.set 0 0, [0]⟩

/-- The cells 3, 4, 30 and 31 of `exampleSolved` blanked. They hold 6 7 / 7 6 in two rows, two
columns and two boxes, so the puzzle has two valid completions. -/
def twoSolutionPuzzle : Sudoku :=
  ⟨(((exampleSolved.set 3 0).set 4 0).set 30 0).set 31 0, [3, 4, 30, 31]⟩

/-- The cells 0 and 40 of `exampleSolved` blanked. -/
def twoBlankPuzzle : Sudoku := ⟨(exampleSolved.set 0 0).set 40 0, [0, 40]⟩

/-- A well-formed puzzle without completion: cell 0 sees 1..8 in its row and 9 in its
column. Cell 0 is at the end of the list. -/
def stuckPuzzle : Sudoku :=
  ⟨[0, 1, 2, 3, 4, 5, 6, 7, 8, 9] ++ List.replicate 71 0, List.range' 10 71 ++ [0]⟩

/-- The grid `exampleSolved` with the 5 of cell 0 written into cell 1 as well. -/
def duplicateRowGrid : List Int := exampleSolved.set 1 5

/-- The state `scenarioPuzzle` with the 5 that cell 0 needs written into cell 1. -/
def blockedPuzzle : Sudoku := ⟨(exampleSolved.set 0 0).set 1 5, [0]⟩

/-- A batch of 50 copies of the scenario puzzle. -/
def scenarioBatch : List Sudoku := List.replicate 50 scenarioPuzzle

/-- The grid of 81 cells that all hold 12, with an empty list. -/
def twelvesPuzzle : Sudoku := ⟨List.replicate 81 12, []⟩

/-! ## Vocabulary of the specification -/

/-- Cells `p` and `c` lie in the same row of the 9x9 grid (index `row * 9 + col`). -/
def sameRow (p c : Nat) : Prop := p / 9 = c / 9

/-- Cells `p` and `c` lie in the same column. -/
def sameCol (p c : Nat) : Prop := p % 9 = c % 9

/-- Cells `p` and `c` lie in the same 3x3 box. -/
def sameBox (p c : Nat) : Prop := p / 27 = c / 27 ∧ p % 9 / 3 = c % 9 / 3

/-- Cells `p` and `c` share a row, a column or a box. -/
def Peer (p c : Nat) : Prop := sameRow p c ∨ sameCol p c ∨ sameBox p c

instance (p c : Nat) : Decidable (sameRow p c) := by unfold sameRow; infer_instance
instance (p c : Nat) : Decidable (sameCol p c) := by unfold sameCol; infer_instance
instance (p c : Nat) : Decidable (sameBox p c) := by unfold sameBox; infer_instance
instance (p c : Nat) : Decidable (Peer p c) := by unfold Peer; infer_instance

/-- All the grid indices read by `getLegalMoves cell`, in the order of the three scans. -/
def peerIndices (cell : Nat) : List Nat :=
  rowIndices (cell / 9) ++ colIndices (cell % 9)
    ++ boxIndices ((cell / 9 / 3) * 27 + (cell % 9 / 3) * 3)

/-- A value `0..9` in every cell. -/
def ValuesInRange (g : List Int) : Prop := ∀ v ∈ g, 0 ≤ v ∧ v ≤ 9

/-- No two filled cells that share a row, column or box hold the same value. -/
def NoConflict (g : List Int) : Prop :=
  ∀ p, p < 81 → ∀ q, q < 81 → p ≠ q → Peer p q → g[p]? ≠ some 0 → g[p]? ≠ g[q]?

/-- A well-formed puzzle: 81 values in `0..9`, `emptyCells` lists each zero-valued index
exactly once (and nothing else), and no two filled cells of a row, column or box are equal. -/
structure WellFormed (s : Sudoku) : Prop where
  len : s.grid.length = 81
  vals : ValuesInRange s.grid
  bound : ∀ c ∈ s.emptyCells, c < 81
  empties : ∀ i, i < 81 → (i ∈ s.emptyCells ↔ s.grid[i]? = some 0)
  nodup : s.emptyCells.Nodup
  consistent : NoConflict s.grid

/-- Every row, every column and every 3x3 box of `g` contains each digit `1..9` exactly
once. Rows and columns are numbered `0..8`; box `b` is the box in box-row `b / 3` and
box-column `b % 3`. -/
def Solved (g : List Int) : Prop :=
  ∀ d : Int, 1 ≤ d → d ≤ 9 → ∀ k, k < 9 →
    (∃! p, p < 81 ∧ p / 9 = k ∧ g[p]? = some d) ∧
    (∃! p, p < 81 ∧ p % 9 = k ∧ g[p]? = some d) ∧
    (∃! p, p < 81 ∧ (p / 27 = k / 3 ∧ p % 9 / 3 = k % 3) ∧ g[p]? = some d)

/-- The grid `g` is a valid completion of the puzzle `s`: 81 digits `1..9`, equal to the
puzzle on its filled cells, and solved. -/
structure ValidCompletion (s : Sudoku) (g : List Int) : Prop where
  len : g.length = 81
  digits : ∀ v ∈ g, 1 ≤ v ∧ v ≤ 9
  givens : ∀ i, i < 81 → s.grid[i]? ≠ some 0 → g[i]? = s.grid[i]?
  solved : Solved g

/-- The values that `g` holds in the cells of `cells`, read from the end of the list to its
front: the order in which `solve` decides the cells of `emptyCells`. -/
def searchKey (cells : List Nat) (g : List Int) : List Int :=
  cells.reverse.map (fun c => g.getD c 0)

/-- The grid `g` is a valid solved grid except that two cells `p`, `q` of one row hold the
same digit `d`. -/
def DuplicateInRow (g : List Int) : Prop :=
  ∃ (sol : List Int) (p q : Nat) (d : Int),
    sol.length = 81 ∧ (∀ v ∈ sol, 1 ≤ v ∧ v ≤ 9) ∧ Solved sol ∧
    p < 81 ∧ q < 81 ∧ p ≠ q ∧ sameRow p q ∧ 1 ≤ d ∧ d ≤ 9 ∧ g = (sol.set p d).set q d

/-- The list `emptyCells` holds exactly the indices of the zero-valued cells. -/
def ListsZeroCells (s : Sudoku) : Prop := ∀ i, i ∈ s.emptyCells ↔ s.grid[i]? = some 0

/-! ## Proof vocabulary -/

/-- How the state `t` after a failed call relates to the state `s` at its entry, whatever
the state: the list and the size of the
grid are the same, and a cell either has its entry value or is listed and
holds 0. -/
def Restored (s t : Sudoku) : Prop :=
  t.emptyCells = s.emptyCells ∧ t.grid.length = s.grid.length ∧
  ∀ i, t.grid[i]? = s.grid[i]? ∨ (i ∈ s.emptyCells ∧ t.grid[i]? = some 0)

/-- The states in which the loop of the activation entered at `⟨g, cells ++ [c]⟩` can be
between two iterations: the list is `cells`, and a cell has its entry value, or is `c`, or is
listed and holds 0. -/
def LoopState (g : List Int) (cells : List Nat) (c : Nat) (t : Sudoku) : Prop :=
  t.emptyCells = cells ∧ t.grid.length = g.length ∧
  ∀ i, t.grid[i]? = g[i]? ∨ i = c ∨ (i ∈ cells ∧ t.grid[i]? = some 0)


/-- Condition under which no array access of `solve` is out of range: 81 values in `0..9`
and listed indices below 81. -/
def InRange (s : Sudoku) : Prop :=
  s.grid.length = 81 ∧ ValuesInRange s.grid ∧ ∀ c ∈ s.emptyCells, c < 81

/-- Entry condition of the search: 81 values in `0..9`, and the listed cells are distinct
and hold 0. -/
structure Inv (s : Sudoku) : Prop where
  len : s.grid.length = 81
  vals : ValuesInRange s.grid
  nodup : s.emptyCells.Nodup
  zero : ∀ c ∈ s.emptyCells, s.grid[c]? = some 0

/-- The grid `g` arises from the state `s` by writing into every listed cell a digit `1..9`
that differs from the value of every other cell of its row, column and box. -/
structure Fills (s : Sudoku) (g : List Int) : Prop where
  len : g.length = 81
  frame : ∀ i, i ∉ s.emptyCells → g[i]? = s.grid[i]?
  digit : ∀ c ∈ s.emptyCells, ∃ d, g[c]? = some d ∧ 1 ≤ d ∧ d ≤ 9
  distinct : ∀ c ∈ s.emptyCells, ∀ p, p < 81 → p ≠ c → Peer p c → g[p]? ≠ g[c]?

/-- The grid `g` is the first filling of `s` in the search order: it is a filling, and every
other filling has a larger `searchKey`. -/
def Found (s : Sudoku) (g : List Int) : Prop :=
  Fills s g ∧ ∀ g1, Fills s g1 →
    g1 = g ∨ List.Lex (· < ·) (searchKey s.emptyCells g) (searchKey s.emptyCells g1)

/-- What a call of `solve` entered in state `s` does: without a filling it returns false in
the entry state; otherwise it returns true with the first filling and an empty list. -/
def SearchPost (s : Sudoku) (out : Outcome) : Prop :=
  (out = Outcome.done false s ∧ ∀ g, ¬ Fills s g) ∨
  (∃ g, out = Outcome.done true ⟨g, []⟩ ∧ Found s g)

/-- No two cells that share a row, column or box hold the same value. -/
def AllDistinct (g : List Int) : Prop :=
  ∀ p, p < 81 → ∀ q, q < 81 → p ≠ q → Peer p q → g[p]? ≠ g[q]?

/-- All the fillings of a state, enumerated along the search tree. The first argument is the
list of empty cells read from its end to its front. -/
def fillings : List Nat → List Int → List (List Int)
  | [], g => [g]
  | c :: rest, g =>
    match getLegalMoves c ⟨g, rest.reverse⟩ with
    | none => []
    | some (moves, _) => moves.flatMap (fun m => fillings rest (g.set c m))

end P96

/-! ## Problem 92: the chain of digit-square sums -/

namespace P92

/-- Number of entries of the table allocated by `main`: `new int[10000000]`. -/
def logSize : Nat := 10000000

/-- The loop `while (m > 0) { next += (m % 10) * (m % 10); m /= 10; }` of `eval`, run for at
most `fuel` iterations; the result is the final value of `next`. -/
def digitLoop : Nat → Nat → Nat → Nat
  | 0, _, next => next
  | fuel + 1, m, next =>
    if m > 0 then digitLoop fuel (m / 10) (next + (m % 10) * (m % 10)) else next

/-- The value of `next` that `eval(n, log)` computes: `next = 0; m = n;` followed by the
loop, which ends after at most `n` iterations. -/
def nextValue (n : Nat) : Nat := digitLoop n n 0

/-- Result of running `eval`: the value returned and the table left behind, or an access to
`log` at an index outside the allocated table, or the depth bound of the model hit. -/
inductive EvalResult where
  | done (value : Int) (log : Nat → Int)
  | undefined
  | outOfFuel

/-- The source's `eval(n, log)`, with at most `fuel` nested activations. The table `log` is a
function from indices to values; the indices `eval` uses must be below `logSize`. -/
def eval : Nat → Nat → (Nat → Int) → EvalResult
  | 0, _, _ => EvalResult.outOfFuel
  | fuel + 1, n, log =>
    if logSize ≤ n then EvalResult.undefined
    else if log n ≠ 0 then EvalResult.done (log n) log
    else
      match eval fuel (nextValue n) log with
      | EvalResult.done v log1 =>
        EvalResult.done (Function.update log1 n v n) (Function.update log1 n v)
      | r => r

/-- The table after `log[1] = 1; log[89] = 89;` in `main`, all other entries being 0. -/
def initLog : Nat → Int := fun k => if k = 1 then 1 else if k = 89 then 89 else 0

/-- The tables that `main` passes to `eval`: the initial table, and every table left by a call
`eval(n, log)`, `1 <= n < 10000000`, on such a table. -/
inductive Reachable : (Nat → Int) → Prop where
  | init : Reachable initLog
  | step (log log1 : Nat → Int) (fuel n : Nat) (v : Int) :
      Reachable log → 1 ≤ n → n < logSize → eval fuel n log = EvalResult.done v log1 →
      Reachable log1

/-- Specification side: sum of the squares of the decimal digits of `n`. -/
def digitSquareSum (n : Nat) : Nat := ((Nat.digits 10 n).map (fun d => d * d)).sum

/-- Specification side: the number `v` is the first of 1 and 89 reached from `n` by
repeatedly replacing the number by the sum of the squares of its decimal digits. -/
def FirstReached (n v : Nat) : Prop :=
  ∃ k, digitSquareSum^[k] n = v ∧ (v = 1 ∨ v = 89) ∧
    ∀ j, j < k → digitSquareSum^[j] n ≠ 1 ∧ digitSquareSum^[j] n ≠ 89

/-- The chain from `n`, followed for at most `fuel` steps, until it meets 1 or 89. -/
def terminal : Nat → Nat → Option Nat
  | fuel, n =>
    if n = 1 then some 1 else if n = 89 then some 89 else
      match fuel with
      | 0 => none
      | fuel + 1 => terminal fuel (nextValue n)

/-- Invariant of the tables: `log[1] = 1`, `log[89] = 89`, and every non-zero entry `log[k]`
is the first of 1 and 89 reached from `k`. -/
def Cached (log : Nat → Int) : Prop :=
  log 1 = 1 ∧ log 89 = 89 ∧ ∀ k, log k ≠ 0 → ∃ v : Nat, log k = (v : Int) ∧ FirstReached k v

end P92

/-! ## Problem 93: arithmetic expressions over four digits -/

namespace P93

/-- The source's `enum Op`. -/
inductive Op where
  | PLUS
  | MINUS
  | TIMES
  | DIVIDE
deriving DecidableEq, Repr

/-- The source's `enum Prec`: the five arrangements of parentheses. -/
inductive Prec where
  | A
  | B
  | C
  | D
  | E
deriving DecidableEq, Repr

/-- Rounding of a rational to the nearest integer, a tie going to the even one. -/
def roundEven (x : ℚ) : Int :=
  if x - ⌊x⌋ < 1 / 2 then ⌊x⌋
  else if 1 / 2 < x - ⌊x⌋ then ⌊x⌋ + 1
  else if ⌊x⌋ % 2 = 0 then ⌊x⌋ else ⌊x⌋ + 1

/-- Rounding of a positive rational `q` to 53 significant bits: with
`2 ^ e <= q < 2 ^ (e + 1)` the doubles around `q` are the multiples of `2 ^ (e - 52)`, and
`q` goes to the nearest of them, a tie going to the one with an even multiplier. -/
def roundPos (q : ℚ) : ℚ :=
  (roundEven (q / 2 ^ (Int.log 2 q - 52)) : ℚ) * 2 ^ (Int.log 2 q - 52)

/-- The result of an arithmetic operation on the type `double`, IEEE 754 binary64 in the
default rounding mode: the exact result `q` rounded to the nearest double, ties to even. -/
def round64 (q : ℚ) : ℚ :=
  if q = 0 then 0 else if 0 < q then roundPos q else -roundPos (-q)

/-- The source's `operate(l, r, op)`: the operation on two doubles; `none` is the exception
thrown on a division by 0. -/
def operate (l r : ℚ) (op : Op) : Option ℚ :=
  match op with
  | Op.PLUS => some (round64 (l + r))
  | Op.MINUS => some (round64 (l - r))
  | Op.TIMES => some (round64 (l * r))
  | Op.DIVIDE => if r ≠ 0 then some (round64 (l / r)) else none

/-- The `try` block of `compute`: the final value of `val`, or `none` when `operate`
throws. The `int` arguments are converted to `double`, which is exact. -/
def tryBlock (nums : Fin 4 → Int) (ops : Fin 3 → Op) (p : Prec) : Option ℚ :=
  match p with
  | Prec.A =>
    (operate (nums 0) (nums 1) (ops 0)).bind fun left =>
      (operate (nums 2) (nums 3) (ops 2)).bind fun right =>
        operate left right (ops 1)
  | Prec.B =>
    (operate (nums 1) (nums 2) (ops 1)).bind fun val1 =>
      (operate val1 (nums 3) (ops 2)).bind fun val2 =>
        operate (nums 0) val2 (ops 0)
  | Prec.C =>
    (operate (nums 1) (nums 2) (ops 1)).bind fun val1 =>
      (operate (nums 0) val1 (ops 0)).bind fun val2 =>
        operate val2 (nums 3) (ops 2)
  | Prec.D =>
    (operate (nums 0) (nums 1) (ops 0)).bind fun val1 =>
      (operate val1 (nums 2) (ops 1)).bind fun val2 =>
        operate val2 (nums 3) (ops 2)
  | Prec.E =>
    (operate (nums 2) (nums 3) (ops 2)).bind fun val1 =>
      (operate (nums 1) val1 (ops 1)).bind fun val2 =>
        operate (nums 0) val2 (ops 0)

/-- The conversion `(int)val`: truncation toward zero. -/
def truncate (val : ℚ) : Int := if 0 ≤ val then ⌊val⌋ else ⌈val⌉

/-- The source's `compute(nums, ops, p)`. -/
def compute (nums : Fin 4 → Int) (ops : Fin 3 → Op) (p : Prec) : Int :=
  match tryBlock nums ops p with
  | none => 0
  | some val => if val = (truncate val : ℚ) ∧ val > 0 then truncate val else 0

/-- The effect of `std::next_permutation(perms, perms + 4)` of the C++ standard library on
the array `perms`: the flag returned and the new contents. With `i` the last position whose
element is smaller than its successor and `j` the last position whose element is larger
than that of `i`, the two are swapped and the part after `i` is reversed; without such an
`i` the array is reversed and the flag is false. -/
def nextPermutation (perms : List Int) : Bool × List Int :=
  match ((List.range (perms.length - 1)).reverse).find?
      (fun i => decide (perms.getD i 0 < perms.getD (i + 1) 0)) with
  | none => (false, perms.reverse)
  | some i =>
    match ((List.range perms.length).reverse).find?
        (fun j => decide (perms.getD i 0 < perms.getD j 0)) with
    | none => (false, perms.reverse)
    | some j =>
      let swapped := (perms.set i (perms.getD j 0)).set j (perms.getD i 0)
      (true, swapped.take (i + 1) ++ (swapped.drop (i + 1)).reverse)

/-- The successive contents of `perms` in the `do ... while (std::next_permutation(...))`
loop of `trial`, for at most `fuel` iterations. -/
def permSeq : Nat → List Int → Option (List (List Int))
  | 0, _ => none
  | fuel + 1, perms =>
    match nextPermutation perms with
    | (true, perms1) => (permSeq fuel perms1).map (fun seq => perms :: seq)
    | (false, _) => some [perms]

/-- Outcome of a run of `trial` or of one of its loops: a result, or an access outside the
table `canExpress`, or the iteration bound of the model hit. -/
inductive Run (α : Type) where
  | done (a : α)
  | undefined
  | outOfFuel
deriving Repr

/-- The cast `(Op)i`. -/
def opOfInt (i : Nat) : Op :=
  match i with
  | 0 => Op.PLUS
  | 1 => Op.MINUS
  | 2 => Op.TIMES
  | _ => Op.DIVIDE

/-- The cast `(Prec)t`. -/
def precOfInt (t : Nat) : Prec :=
  match t with
  | 0 => Prec.A
  | 1 => Prec.B
  | 2 => Prec.C
  | 3 => Prec.D
  | _ => Prec.E

/-- The array `int perms[4]`, passed to `compute` as `nums`. -/
def toArray (perms : List Int) : Fin 4 → Int := fun i => perms.getD i.val 0

/-- The array `Op ops[3] = {(Op)i, (Op)j, (Op)k}`. -/
def opsArray (i j k : Nat) : Fin 3 → Op := ![opOfInt i, opOfInt j, opOfInt k]

/-- The statement `canExpress[val] = true` on the table `bool canExpress[3025]`; `none` when
the index is outside the table. -/
def markValue (canExpress : List Bool) (val : Int) : Option (List Bool) :=
  if 0 ≤ val ∧ val < 3025 then some (canExpress.set val.toNat true) else none

/-- A loop `for (int i = 0; i < n; i++) body`, run over the values `idxs` of `i`; the body
may fail. -/
def forEach (body : Nat → List Bool → Option (List Bool)) :
    List Nat → List Bool → Option (List Bool)
  | [], tbl => some tbl
  | i :: rest, tbl => (body i tbl).bind (forEach body rest)

/-- The body of the `do` loop of `trial`: the four nested `for` loops over the operations
and the arrangements, each pass running `val = compute(perms, ops, prec);
canExpress[val] = true;`. -/
def trialBody (perms : List Int) : List Bool → Option (List Bool) :=
  forEach (fun i => forEach (fun j => forEach (fun k => forEach (fun t tbl =>
    markValue tbl (compute (toArray perms) (opsArray i j k) (precOfInt t)))
    (List.range 5)) (List.range 4)) (List.range 4)) (List.range 4)

/-- The loop `do { ... } while (std::next_permutation(perms, perms + 4));` of `trial`, for at
most `fuel` iterations. -/
def permLoop : Nat → List Int → List Bool → Run (List Bool)
  | 0, _, _ => Run.outOfFuel
  | fuel + 1, perms, tbl =>
    match trialBody perms tbl with
    | none => Run.undefined
    | some tbl1 =>
      match nextPermutation perms with
      | (true, perms1) => permLoop fuel perms1 tbl1
      | (false, _) => Run.done tbl1

/-- The loop `while (canExpress[++n]);` of `trial`, for at most `fuel` iterations: the
result is the final value of `n`. -/
def scanLoop : Nat → List Bool → Nat → Run Nat
  | 0, _, _ => Run.outOfFuel
  | fuel + 1, tbl, n =>
    match tbl[n + 1]? with
    | none => Run.undefined
    | some true => scanLoop fuel tbl (n + 1)
    | some false => Run.done (n + 1)

/-- The source's `trial(a, b, c, d)`. Four elements have at most 24 permutations and the
table has 3025 entries, which bounds the iterations of the two loops. -/
def trial (a b c d : Int) : Run Int :=
  match permLoop 24 [a, b, c, d] (List.replicate 3025 false) with
  | Run.done tbl =>
    match scanLoop 3025 tbl 0 with
    | Run.done n => Run.done ((n : Int) - 1)
    | Run.undefined => Run.undefined
    | Run.outOfFuel => Run.outOfFuel
  | Run.undefined => Run.undefined
  | Run.outOfFuel => Run.outOfFuel

/-- Specification side: arithmetic expressions over rational constants. -/
inductive Expr where
  | num (x : ℚ)
  | bin (op : Op) (l r : Expr)

/-- Specification side: one operation of an expression, its exact result passed through
`rnd`; `none` is a division by 0. With `rnd = id` this is exact rational arithmetic. -/
def applyOp (rnd : ℚ → ℚ) (op : Op) (x y : ℚ) : Option ℚ :=
  match op with
  | Op.PLUS => some (rnd (x + y))
  | Op.MINUS => some (rnd (x - y))
  | Op.TIMES => some (rnd (x * y))
  | Op.DIVIDE => if y = 0 then none else some (rnd (x / y))

/-- Specification side: the value of an expression when the result of every operation is
passed through `rnd`; `none` when a division by 0 occurs. -/
def Expr.eval (rnd : ℚ → ℚ) : Expr → Option ℚ
  | Expr.num x => some x
  | Expr.bin op l r =>
    match l.eval rnd, r.eval rnd with
    | some x, some y => applyOp rnd op x y
    | _, _ => none

/-- Specification side: the numerical value of an expression over exact rational
arithmetic; `none` when a division by 0 occurs in it. -/
def Expr.value (e : Expr) : Option ℚ := e.eval id

/-- Specification side: the value of an expression in `double` arithmetic, every operation
rounded to the nearest double; `none` when a division by 0 occurs in that computation. -/
def Expr.rounded (e : Expr) : Option ℚ := e.eval round64

/-- Specification side: the parenthesised expression `a o0 b o1 c o2 d` for each arrangement,
as the comments of `enum Prec` give them: `A` is `(a + b) + (c + d)`, `B` is
`a + ((b + c) + d)`, `C` is `(a + (b + c)) + d`, `D` is `((a + b) + c) + d` and `E` is
`a + (b + (c + d))`. -/
def exprOf (nums : Fin 4 → Int) (ops : Fin 3 → Op) : Prec → Expr
  | Prec.A => Expr.bin (ops 1) (Expr.bin (ops 0) (Expr.num (nums 0)) (Expr.num (nums 1)))
      (Expr.bin (ops 2) (Expr.num (nums 2)) (Expr.num (nums 3)))
  | Prec.B => Expr.bin (ops 0) (Expr.num (nums 0))
      (Expr.bin (ops 2) (Expr.bin (ops 1) (Expr.num (nums 1)) (Expr.num (nums 2)))
        (Expr.num (nums 3)))
  | Prec.C => Expr.bin (ops 2)
      (Expr.bin (ops 0) (Expr.num (nums 0))
        (Expr.bin (ops 1) (Expr.num (nums 1)) (Expr.num (nums 2))))
      (Expr.num (nums 3))
  | Prec.D => Expr.bin (ops 2)
      (Expr.bin (ops 1) (Expr.bin (ops 0) (Expr.num (nums 0)) (Expr.num (nums 1)))
        (Expr.num (nums 2)))
      (Expr.num (nums 3))
  | Prec.E => Expr.bin (ops 0) (Expr.num (nums 0))
      (Expr.bin (ops 1) (Expr.num (nums 1))
        (Expr.bin (ops 2) (Expr.num (nums 2)) (Expr.num (nums 3))))

/-- The rational `q` is an integer. -/
def IsIntegral (q : ℚ) : Prop := ∃ z : Int, q = (z : ℚ)

/-- Specification side: the exact value of every sub-expression, where it is defined, is an
integer. -/
def Expr.IntegralSteps : Expr → Prop
  | Expr.num x => IsIntegral x
  | Expr.bin op l r =>
    l.IntegralSteps ∧ r.IntegralSteps ∧ ∀ v, (Expr.bin op l r).value = some v → IsIntegral v

/-- Specification side: no operation of the expression is a division. -/
def Expr.NoDivide : Expr → Prop
  | Expr.num _ => True
  | Expr.bin op l r => op ≠ Op.DIVIDE ∧ l.NoDivide ∧ r.NoDivide

/-- The four numbers 1, 2, 3, 9 as the array `nums`. -/
def nums1239 : Fin 4 → Int := ![1, 2, 3, 9]

/-- The operations `PLUS`, `DIVIDE`, `TIMES` as the array `ops`. -/
def opsPlusDivideTimes : Fin 3 → Op := ![Op.PLUS, Op.DIVIDE, Op.TIMES]

/-- The rational `t` is a double: an integer of at most 53 bits times a power of 2. -/
def IsDouble (t : ℚ) : Prop := ∃ m j : Int, |m| < 2 ^ 53 ∧ t = (m : ℚ) * 2 ^ j

/-- What the bounds below use of a rounding function: it is odd, and a value on one side
of a double stays on that side. The identity and `round64` are such functions. -/
def Rounding (rnd : ℚ → ℚ) : Prop :=
  (∀ q, rnd (-q) = -rnd q) ∧
    ∀ t q, IsDouble t → (t ≤ q → t ≤ rnd q) ∧ (q ≤ t → rnd q ≤ t)

/-- Search for the least `k` from `k` on with `d <= 2 ^ k`, for at most `fuel` steps. -/
def lgLoop : Nat → Nat → Nat → Nat
  | 0, _, k => k
  | fuel + 1, d, k => if d ≤ 2 ^ k then k else lgLoop fuel d (k + 1)

/-- A `k` with `d <= 2 ^ k`. -/
def lg (d : Nat) : Nat := lgLoop d d 0

/-- Abstract values: what is recorded of a value computed by an expression.
* `int n`: an integer of absolute value at most `n`;
* `quot u d`: the rounded quotient of two integers, the dividend of absolute value at most
  `u`, the divisor of absolute value at most `d`;
* `gen hi k`: of absolute value at most `hi`, and either 0 or at least `1 / 2 ^ k`;
* `mag hi`: of absolute value at most `hi`;
* `top`: nothing. -/
inductive Abs where
  | int (n : Nat)
  | quot (u d : Nat)
  | gen (hi k : Nat)
  | mag (hi : Nat)
  | top
deriving Repr

/-- The abstract value `a` when `n` is below `2 ^ 53`, and `top` otherwise. -/
def Abs.guard (a : Abs) (n : Nat) : Abs := if n < 2 ^ 53 then a else Abs.top

/-- The bound on the absolute value that an abstract value records. -/
def Abs.hi : Abs → Option Nat
  | Abs.int n => some n
  | Abs.quot u _ => some u
  | Abs.gen hi _ => some hi
  | Abs.mag hi => some hi
  | Abs.top => none

/-- The `k` for which an abstract value records that the value is 0 or at least
`1 / 2 ^ k` in absolute value. -/
def Abs.lo : Abs → Option Nat
  | Abs.int _ => some 0
  | Abs.quot _ d => some (lg d)
  | Abs.gen _ k => some k
  | Abs.mag _ => none
  | Abs.top => none

/-- Abstract sum or difference, from the bounds on the absolute values alone. -/
def absAddGen (a b : Abs) : Abs :=
  match a.hi, b.hi with
  | some h1, some h2 => (Abs.mag (h1 + h2)).guard (h1 + h2)
  | _, _ => Abs.top

/-- Abstract sum or difference. -/
def absAdd (a b : Abs) : Abs :=
  match a, b with
  | Abs.int n1, Abs.int n2 => (Abs.int (n1 + n2)).guard (n1 + n2)
  | Abs.quot u d, Abs.int n => (Abs.gen (u + n) (lg d)).guard ((u + n + 1) * 2 ^ lg d)
  | Abs.int n, Abs.quot u d => (Abs.gen (u + n) (lg d)).guard ((u + n + 1) * 2 ^ lg d)
  | _, _ => absAddGen a b

/-- Abstract product, from the bounds alone. -/
def absMulGen (a b : Abs) : Abs :=
  match a.hi, b.hi with
  | some h1, some h2 =>
    match a.lo, b.lo with
    | some k1, some k2 => (Abs.gen (h1 * h2) (k1 + k2)).guard (h1 * h2)
    | _, _ => (Abs.mag (h1 * h2)).guard (h1 * h2)
  | _, _ => Abs.top

/-- Abstract product. -/
def absMul (a b : Abs) : Abs :=
  match a, b with
  | Abs.int n1, Abs.int n2 => (Abs.int (n1 * n2)).guard (n1 * n2)
  | _, _ => absMulGen a b

/-- Abstract quotient, from the bounds alone. -/
def absDivGen (a b : Abs) : Abs :=
  match a.hi, b.lo with
  | some h1, some k2 =>
    match a.lo, b.hi with
    | some k1, some h2 => (Abs.gen (h1 * 2 ^ k2) (k1 + lg h2)).guard (h1 * 2 ^ k2)
    | _, _ => (Abs.mag (h1 * 2 ^ k2)).guard (h1 * 2 ^ k2)
  | _, _ => Abs.top

/-- Abstract quotient, the divisor not being 0. -/
def absDiv (a b : Abs) : Abs :=
  match a, b with
  | Abs.int n1, Abs.int n2 => (Abs.quot n1 n2).guard n1
  | _, _ => absDivGen a b

/-- The abstract operation for each operation. -/
def absOp (op : Op) (a b : Abs) : Abs :=
  match op with
  | Op.PLUS => absAdd a b
  | Op.MINUS => absAdd a b
  | Op.TIMES => absMul a b
  | Op.DIVIDE => absDiv a b

/-- The abstract value of an expression whose constants are integers of absolute value at
most `n`. -/
def Expr.abs (n : Nat) : Expr → Abs
  | Expr.num _ => Abs.int n
  | Expr.bin op l r => absOp op (l.abs n) (r.abs n)

/-- The constants of the expression are integers of absolute value at most `n`. -/
def Expr.LeavesLe (n : Nat) : Expr → Prop
  | Expr.num x => ∃ z : Int, x = (z : ℚ) ∧ |z| ≤ (n : Int)
  | Expr.bin _ l r => l.LeavesLe n ∧ r.LeavesLe n

/-- A bound on the absolute value of an expression all of whose sub-expressions are
integers, the constants being of absolute value at most `n`. -/
def Expr.magBound (n : Nat) : Expr → Nat
  | Expr.num _ => n
  | Expr.bin _ l r => l.magBound n * r.magBound n + l.magBound n + r.magBound n

/-- The value `v` is as the abstract value records, `rnd` being the rounding in use. -/
def Sat (rnd : ℚ → ℚ) : Abs → ℚ → Prop
  | Abs.int n, v => n < 2 ^ 53 ∧ ∃ z : Int, v = (z : ℚ) ∧ |z| ≤ (n : Int)
  | Abs.quot u d, v => u < 2 ^ 53 ∧
      ∃ P Q : Int, Q ≠ 0 ∧ |P| ≤ (u : Int) ∧ |Q| ≤ (d : Int) ∧ v = rnd ((P : ℚ) / (Q : ℚ))
  | Abs.gen hi k, v => hi < 2 ^ 53 ∧ |v| ≤ (hi : ℚ) ∧ (v = 0 ∨ 1 / 2 ^ k ≤ |v|)
  | Abs.mag hi, v => hi < 2 ^ 53 ∧ |v| ≤ (hi : ℚ)
  | Abs.top, _ => True

/-- The four operations. -/
def allOps : List Op := [Op.PLUS, Op.MINUS, Op.TIMES, Op.DIVIDE]

/-- The five arrangements. -/
def allPrecs : List Prec := [Prec.A, Prec.B, Prec.C, Prec.D, Prec.E]

/-- The abstract value of the expression of the operations `o0`, `o1`, `o2` in the
arrangement `p`, over digits. -/
def absOf (o0 o1 o2 : Op) (p : Prec) : Abs := (exprOf (fun _ => 0) ![o0, o1, o2] p).abs 9

/-- Unless the three operations are multiplications, the abstract value of the expression
over digits records a bound of at most 3022. -/
def absCheck : Bool :=
  allOps.all fun o0 => allOps.all fun o1 => allOps.all fun o2 => allPrecs.all fun p =>
    decide (o0 = Op.TIMES ∧ o1 = Op.TIMES ∧ o2 = Op.TIMES) ||
      match (absOf o0 o1 o2 p).hi with
      | some h => decide (h ≤ 3022)
      | none => false

/-- The product of four distinct digits is at most 3024. -/
def productCheck : Bool :=
  (List.range 10).all fun x0 => (List.range 10).all fun x1 => (List.range 10).all fun x2 =>
    (List.range 10).all fun x3 =>
      (x0 == x1 || x0 == x2 || x0 == x3 || x1 == x2 || x1 == x3 || x2 == x3) ||
        decide (x0 * x1 * x2 * x3 ≤ 3024)

/-- The list `q` holds four distinct digits. -/
def IsArrangement (q : List Int) : Prop :=
  ∃ x0 x1 x2 x3 : Int, q = [x0, x1, x2, x3] ∧
    (0 ≤ x0 ∧ x0 ≤ 9) ∧ (0 ≤ x1 ∧ x1 ≤ 9) ∧ (0 ≤ x2 ∧ x2 ≤ 9) ∧ (0 ≤ x3 ∧ x3 ≤ 9) ∧
    x0 ≠ x1 ∧ x0 ≠ x2 ∧ x0 ≠ x3 ∧ x1 ≠ x2 ∧ x1 ≠ x3 ∧ x2 ≠ x3

/-- Invariant of the table: 3025 entries, and the entry 3023 is false. -/
def TableInv (tbl : List Bool) : Prop := tbl.length = 3025 ∧ tbl[3023]? = some false

end P93

namespace P96

/-! ## The three scans of `getLegalMoves` -/

theorem mem_rowIndices {p r : Nat} : p ∈ rowIndices r ↔ r * 9 ≤ p ∧ p < r * 9 + 9 := by
  unfold rowIndices
  rw [List.mem_range'_1]
  omega

theorem mem_colIndices {p c : Nat} : p ∈ colIndices c ↔ p < 81 ∧ p % 9 = c % 9 := by
  unfold colIndices
  rw [List.mem_range']
  have h9 : (81 - c % 9 + 8) / 9 = 9 := by omega
  rw [h9]
  constructor
  · rintro ⟨k, hk, rfl⟩
    omega
  · rintro ⟨h1, h2⟩
    exact ⟨p / 9, by omega, by omega⟩

theorem mem_boxIndices {p t : Nat} :
    p ∈ boxIndices t ↔ ∃ a, a < 3 ∧ ∃ b, b < 3 ∧ p = t + a * 9 + b := by
  unfold boxIndices
  simp only [List.mem_flatMap, List.mem_range, List.mem_map]
  constructor
  · rintro ⟨a, ha, b, hb, rfl⟩
    exact ⟨a, ha, b, hb, rfl⟩
  · rintro ⟨a, ha, b, hb, rfl⟩
    exact ⟨a, ha, b, hb, rfl⟩

theorem mem_peerIndices {p c : Nat} (hc : c < 81) :
    p ∈ peerIndices c ↔ p < 81 ∧ Peer p c := by
  unfold peerIndices Peer sameRow sameCol sameBox
  simp only [List.mem_append, mem_rowIndices, mem_colIndices, mem_boxIndices]
  constructor
  · rintro ((h | h) | ⟨a, ha, b, hb, rfl⟩)
    · omega
    · omega
    · omega
  · rintro ⟨hp, h | h | h⟩
    · left; left; omega
    · left; right; omega
    · right
      exact ⟨p / 9 % 3, by omega, p % 3, by omega, by omega⟩

theorem peer_symm {p c : Nat} (h : Peer p c) : Peer c p := by
  unfold Peer sameRow sameCol sameBox at *
  omega

theorem peer_self (c : Nat) : Peer c c := Or.inl rfl

theorem scanCells_cons (g : List Int) (i : Nat) (rest : List Nat) (u : List Bool) :
    scanCells g (i :: rest) u =
      (g[i]?).bind (fun v => (markUsed u v).bind (scanCells g rest)) := by
  simp only [scanCells]
  cases hgi : g[i]? with
  | none => rfl
  | some v =>
    cases hm : markUsed u v with
    | none => simp [hm]
    | some u1 => simp [hm]

theorem scanCells_append (g : List Int) (xs ys : List Nat) (u : List Bool) :
    scanCells g (xs ++ ys) u = (scanCells g xs u).bind (scanCells g ys) := by
  induction xs generalizing u with
  | nil => simp [scanCells]
  | cons i rest ih =>
    simp only [List.cons_append, scanCells_cons]
    cases g[i]? with
    | none => simp
    | some v =>
      simp only [Option.some_bind]
      cases markUsed u v with
      | none => simp
      | some u1 => simpa using ih u1

theorem markUsed_spec {u u1 : List Bool} {v : Int} (h : markUsed u v = some u1) :
    0 ≤ v ∧ v < 10 ∧ u1 = u.set v.toNat true := by
  unfold markUsed at h
  split at h
  · rename_i hv
    simp only [Option.some.injEq] at h
    exact ⟨hv.1, hv.2, h.symm⟩
  · simp at h

theorem getD_set_true (u : List Bool) (n k : Nat) :
    (u.set n true).getD k false = true ↔ (u.getD k false = true ∨ (k < u.length ∧ k = n)) := by
  simp only [List.getD_eq_getElem?_getD, List.getElem?_set]
  by_cases hnk : n = k
  · subst hnk
    by_cases hn : n < u.length
    · simp [hn]
    · simp [hn, List.getElem?_eq_none (Nat.le_of_not_lt hn)]
  · simp only [hnk, if_false]
    constructor
    · intro h; exact Or.inl h
    · rintro (h | ⟨_, h⟩)
      · exact h
      · exact absurd h.symm hnk

theorem getD_replicate_false (n k : Nat) : (List.replicate n false).getD k false = false := by
  simp only [List.getD_eq_getElem?_getD, List.getElem?_replicate]
  split <;> rfl

/-- What a scan that runs to its end has read and marked. -/
theorem scanCells_spec {g : List Int} {idxs : List Nat} {u u1 : List Bool}
    (h : scanCells g idxs u = some u1) :
    u1.length = u.length ∧
    (∀ i ∈ idxs, ∃ v, g[i]? = some v ∧ 0 ≤ v ∧ v < 10) ∧
    ∀ k : Nat, u1.getD k false = true ↔
      (u.getD k false = true ∨ (k < u.length ∧ ∃ i ∈ idxs, g[i]? = some (k : Int))) := by
  induction idxs generalizing u with
  | nil =>
    simp only [scanCells, Option.some.injEq] at h
    subst h
    simp
  | cons i rest ih =>
    simp only [scanCells] at h
    cases hgi : g[i]? with
    | none => simp [hgi] at h
    | some v =>
      simp only [hgi] at h
      cases hm : markUsed u v with
      | none => simp [hm] at h
      | some u2 =>
        simp only [hm] at h
        obtain ⟨hv0, hv10, rfl⟩ := markUsed_spec hm
        obtain ⟨hlen, hread, hmark⟩ := ih h
        refine ⟨by simpa using hlen, ?_, ?_⟩
        · intro j hj
          rcases List.mem_cons.1 hj with rfl | hj
          · exact ⟨v, hgi, hv0, hv10⟩
          · exact hread j hj
        · intro k
          rw [hmark k, getD_set_true]
          simp only [List.length_set, List.mem_cons]
          constructor
          · rintro ((h1 | ⟨hk, rfl⟩) | ⟨hk, j, hj, hgj⟩)
            · exact Or.inl h1
            · refine Or.inr ⟨hk, i, Or.inl rfl, ?_⟩
              rw [hgi, Int.toNat_of_nonneg hv0]
            · exact Or.inr ⟨hk, j, Or.inr hj, hgj⟩
          · rintro (h1 | ⟨hk, j, rfl | hj, hgj⟩)
            · exact Or.inl (Or.inl h1)
            · rw [hgi] at hgj
              simp only [Option.some.injEq] at hgj
              subst hgj
              exact Or.inl (Or.inr ⟨hk, by simp⟩)
            · exact Or.inr ⟨hk, j, hj, hgj⟩

/-- A scan over cells that all exist and hold values in `0..9` runs to its end. -/
theorem scanCells_isSome {g : List Int} {idxs : List Nat} (u : List Bool)
    (h : ∀ i ∈ idxs, ∃ v, g[i]? = some v ∧ 0 ≤ v ∧ v < 10) :
    ∃ u1, scanCells g idxs u = some u1 := by
  induction idxs generalizing u with
  | nil => exact ⟨u, rfl⟩
  | cons i rest ih =>
    obtain ⟨v, hgi, hv0, hv10⟩ := h i (List.mem_cons_self _ _)
    have hm : markUsed u v = some (u.set v.toNat true) := by
      unfold markUsed
      rw [if_pos ⟨hv0, hv10⟩]
    obtain ⟨u1, hu1⟩ := ih (u.set v.toNat true) (fun j hj => h j (List.mem_cons_of_mem _ hj))
    exact ⟨u1, by simp only [scanCells, hgi, hm, hu1]⟩

/-- The scan depends only on the cells it reads. -/
theorem scanCells_congr {g g1 : List Int} {idxs : List Nat} (u : List Bool)
    (h : ∀ i ∈ idxs, g1[i]? = g[i]?) : scanCells g1 idxs u = scanCells g idxs u := by
  induction idxs generalizing u with
  | nil => rfl
  | cons i rest ih =>
    simp only [scanCells_cons, h i (List.mem_cons_self _ _)]
    cases g[i]? with
    | none => rfl
    | some v =>
      simp only [Option.some_bind]
      cases markUsed u v with
      | none => rfl
      | some u1 => simpa using ih u1 (fun j hj => h j (List.mem_cons_of_mem _ hj))

/-- The three scans of `getLegalMoves` as one scan over `peerIndices`. -/
theorem getLegalMoves_eq (cell : Nat) (s : Sudoku) :
    getLegalMoves cell s =
      (scanCells s.grid (peerIndices cell) (List.replicate 10 false)).map
        (fun u => (remainingMoves u, s)) := by
  unfold getLegalMoves peerIndices
  simp only [scanCells_append]
  cases scanCells s.grid (rowIndices (cell / 9)) (List.replicate 10 false) with
  | none => rfl
  | some u1 =>
    simp only [Option.some_bind]
    cases scanCells s.grid (colIndices (cell % 9)) u1 with
    | none => rfl
    | some u2 =>
      simp only [Option.some_bind]
      cases scanCells s.grid (boxIndices (cell / 9 / 3 * 27 + cell % 9 / 3 * 3)) u2 with
      | none => rfl
      | some u3 => rfl

theorem mem_remainingMoves {u : List Bool} {d : Int} :
    d ∈ remainingMoves u ↔ ∃ n : Nat, 1 ≤ n ∧ n ≤ 9 ∧ d = (n : Int) ∧ u.getD n false = false := by
  unfold remainingMoves
  simp only [List.mem_map, List.mem_filter, List.mem_range'_1, Bool.not_eq_true']
  constructor
  · rintro ⟨n, ⟨⟨h1, h2⟩, h3⟩, rfl⟩
    exact ⟨n, h1, by omega, rfl, h3⟩
  · rintro ⟨n, h1, h2, rfl, h3⟩
    exact ⟨n, ⟨⟨h1, by omega⟩, h3⟩, rfl⟩

theorem remainingMoves_sorted (u : List Bool) : (remainingMoves u).Pairwise (· < ·) := by
  unfold remainingMoves
  rw [List.pairwise_map]
  refine List.Pairwise.sublist (List.filter_sublist _) ?_
  refine List.Pairwise.imp ?_ (List.pairwise_lt_range' 1 9)
  intro a b hab
  exact Int.ofNat_lt.2 hab

/-- What `getLegalMoves` returns when it returns: the state is untouched, the moves are
ascending, every cell read exists and holds a value in `0..9`, and the moves are the digits
`1..9` that no cell read holds. -/
theorem getLegalMoves_spec {cell : Nat} {s s1 : Sudoku} {moves : List Int}
    (h : getLegalMoves cell s = some (moves, s1)) :
    s1 = s ∧ moves.Pairwise (· < ·) ∧
    (∀ p ∈ peerIndices cell, ∃ v, s.grid[p]? = some v ∧ 0 ≤ v ∧ v < 10) ∧
    ∀ d : Int, d ∈ moves ↔ (1 ≤ d ∧ d ≤ 9 ∧ ∀ p ∈ peerIndices cell, s.grid[p]? ≠ some d) := by
  rw [getLegalMoves_eq] at h
  cases hscan : scanCells s.grid (peerIndices cell) (List.replicate 10 false) with
  | none =>
    rw [hscan] at h
    exact absurd h (by simp)
  | some u =>
    rw [hscan] at h
    simp only [Option.map_some', Option.some.injEq, Prod.mk.injEq] at h
    obtain ⟨rfl, rfl⟩ := h
    obtain ⟨_, hread, hmark⟩ := scanCells_spec hscan
    refine ⟨rfl, remainingMoves_sorted u, hread, ?_⟩
    intro d
    rw [mem_remainingMoves]
    constructor
    · rintro ⟨n, h1, h9, rfl, hn⟩
      refine ⟨by omega, by omega, ?_⟩
      intro p hp hgp
      have := (hmark n).2 (Or.inr ⟨by simp; omega, p, hp, hgp⟩)
      rw [hn] at this
      exact Bool.false_ne_true this
    · rintro ⟨h1, h9, hfree⟩
      refine ⟨d.toNat, by omega, by omega, (Int.toNat_of_nonneg (by omega)).symm, ?_⟩
      by_contra hne
      have htrue : u.getD d.toNat false = true := by simpa using hne
      rcases (hmark d.toNat).1 htrue with h0 | ⟨_, p, hp, hgp⟩
      · rw [getD_replicate_false] at h0
        exact Bool.false_ne_true h0
      · rw [Int.toNat_of_nonneg (by omega)] at hgp
        exact hfree p hp hgp

/-- A call `getLegalMoves cell s` that returns has read `grid[cell]` in its row scan, so
`cell` is an index of the grid. -/
theorem cell_lt_length_of_getLegalMoves {cell : Nat} {s : Sudoku} {r : List Int × Sudoku}
    (h : getLegalMoves cell s = some r) : cell < s.grid.length := by
  obtain ⟨moves, s1⟩ := r
  obtain ⟨-, -, hread, -⟩ := getLegalMoves_spec h
  have hmem : cell ∈ peerIndices cell := by
    unfold peerIndices
    simp only [List.mem_append, mem_rowIndices]
    left; left
    omega
  obtain ⟨v, hv, -⟩ := hread cell hmem
  by_contra hge
  rw [List.getElem?_eq_none (Nat.le_of_not_lt hge)] at hv
  exact absurd hv (by simp)

/-- The call `getLegalMoves cell s` returns as soon as every cell it reads exists and holds
a value in `0..9`. -/
theorem getLegalMoves_isSome {cell : Nat} {s : Sudoku}
    (h : ∀ p ∈ peerIndices cell, ∃ v, s.grid[p]? = some v ∧ 0 ≤ v ∧ v < 10) :
    ∃ moves, getLegalMoves cell s = some (moves, s) := by
  obtain ⟨u, hu⟩ := scanCells_isSome (List.replicate 10 false) h
  exact ⟨remainingMoves u, by rw [getLegalMoves_eq, hu]; rfl⟩

/-- On a grid of 81 values in `0..9` every cell read by `getLegalMoves cell`, `cell < 81`,
exists and holds a value in `0..9`. -/
theorem peers_readable {g : List Int} {cell : Nat} (hlen : g.length = 81)
    (hval : ∀ v ∈ g, 0 ≤ v ∧ v ≤ 9) (hc : cell < 81) :
    ∀ p ∈ peerIndices cell, ∃ v, g[p]? = some v ∧ 0 ≤ v ∧ v < 10 := by
  intro p hp
  have hp81 : p < 81 := ((mem_peerIndices hc).1 hp).1
  have hpl : p < g.length := by omega
  refine ⟨g[p], List.getElem?_eq_getElem hpl, ?_⟩
  have := hval g[p] (List.getElem_mem hpl)
  omega

/-! ## Unfolding `solve` -/

theorem solveFuel_nil (fuel : Nat) (g : List Int) :
    solveFuel (fuel + 1) ⟨g, []⟩ = Outcome.done true ⟨g, []⟩ := rfl

theorem solveFuel_snoc (fuel : Nat) (g : List Int) (cells : List Nat) (c : Nat) :
    solveFuel (fuel + 1) ⟨g, cells ++ [c]⟩ =
      match getLegalMoves c ⟨g, cells⟩ with
      | none => Outcome.undefined
      | some (moves, s2) =>
        match tryMoves (fun t => solveFuel fuel t) c moves s2 with
        | Outcome.done false s3 =>
          Outcome.done false ⟨s3.grid.set c 0, s3.emptyCells ++ [c]⟩
        | r => r := by
  simp only [solveFuel, List.getLast?_concat, List.dropLast_concat]

theorem tryMoves_nil (rec : Sudoku → Outcome) (c : Nat) (t : Sudoku) :
    tryMoves rec c [] t = Outcome.done false t := rfl

theorem tryMoves_cons_false {rec : Sudoku → Outcome} {c : Nat} {m : Int} {rest : List Int}
    {t t1 : Sudoku} (h : rec (setCell t c m) = Outcome.done false t1) :
    tryMoves rec c (m :: rest) t = tryMoves rec c rest t1 := by
  simp only [tryMoves, h]

theorem tryMoves_cons_other {rec : Sudoku → Outcome} {c : Nat} {m : Int} {rest : List Int}
    {t : Sudoku} (h : ∀ t1, rec (setCell t c m) ≠ Outcome.done false t1) :
    tryMoves rec c (m :: rest) t = rec (setCell t c m) := by
  simp only [tryMoves]

/-! ## A failed call restores the state -/

theorem tryMoves_false_frame {rec : Sudoku → Outcome} {c : Nat}
    (hrec : ∀ t t1, rec t = Outcome.done false t1 → Restored t t1) :
    ∀ (ms : List Int) (t t2 : Sudoku), tryMoves rec c ms t = Outcome.done false t2 →
      t2.emptyCells = t.emptyCells ∧ t2.grid.length = t.grid.length ∧
      ∀ i, t2.grid[i]? = t.grid[i]? ∨ i = c ∨ (i ∈ t.emptyCells ∧ t2.grid[i]? = some 0) := by
  intro ms
  induction ms with
  | nil =>
    intro t t2 h
    simp only [tryMoves_nil, Outcome.done.injEq, true_and] at h
    subst h
    exact ⟨rfl, rfl, fun i => Or.inl rfl⟩
  | cons m rest ih =>
    intro t t2 h
    by_cases hf : ∃ t1, rec (setCell t c m) = Outcome.done false t1
    · obtain ⟨t1, ht1⟩ := hf
      rw [tryMoves_cons_false ht1] at h
      obtain ⟨hl, hn, hg⟩ := ih t1 t2 h
      obtain ⟨hl1, hn1, hg1⟩ := hrec _ _ ht1
      have hl1 : t1.emptyCells = t.emptyCells := hl1
      have hn1 : t1.grid.length = t.grid.length := by
        rw [hn1]; simp [setCell]
      refine ⟨hl.trans hl1, hn.trans hn1, fun i => ?_⟩
      by_cases hic : i = c
      · exact Or.inr (Or.inl hic)
      · rcases hg i with h1 | h1 | ⟨h1, h2⟩
        · rcases hg1 i with h3 | ⟨h3, h4⟩
          · left
            rw [h1, h3]
            simp only [setCell]
            exact List.getElem?_set_ne (Ne.symm hic)
          · right; right
            exact ⟨h3, h1.trans h4⟩
        · exact absurd h1 hic
        · right; right
          exact ⟨hl1 ▸ h1, h2⟩
    · rw [tryMoves_cons_other (fun t1 ht1 => hf ⟨t1, ht1⟩)] at h
      exact absurd ⟨t2, h⟩ hf

/-- Whatever the state and the depth bound, a call of `solve` that returns false leaves the
list as it found it and every cell either with its entry value or, if listed, with 0. -/
theorem solveFuel_false_restored :
    ∀ (fuel : Nat) (s t : Sudoku), solveFuel fuel s = Outcome.done false t → Restored s t := by
  intro fuel
  induction fuel with
  | zero =>
    intro s t h
    simp [solveFuel] at h
  | succ fuel ih =>
    intro s t h
    obtain ⟨g, cells⟩ := s
    rcases List.eq_nil_or_concat cells with rfl | ⟨cells0, c, rfl⟩
    · simp [solveFuel_nil] at h
    · rw [List.concat_eq_append, solveFuel_snoc] at h
      cases hm : getLegalMoves c ⟨g, cells0⟩ with
      | none => simp [hm] at h
      | some r =>
        obtain ⟨moves, s2⟩ := r
        obtain ⟨rfl, -, -, -⟩ := getLegalMoves_spec hm
        simp only [hm] at h
        cases hloop : tryMoves (fun t => solveFuel fuel t) c moves ⟨g, cells0⟩ with
        | undefined => simp [hloop] at h
        | outOfFuel => simp [hloop] at h
        | done b s3 =>
          cases b with
          | true => simp [hloop] at h
          | false =>
            simp only [hloop, Outcome.done.injEq, true_and] at h
            subst h
            obtain ⟨hl, hn, hg⟩ := tryMoves_false_frame (fun t t1 => ih t t1) moves _ _ hloop
            simp only at hl hn hg
            refine ⟨by simp [hl], by simp [hn], fun i => ?_⟩
            simp only [List.concat_eq_append, List.mem_append, List.mem_singleton]
            by_cases hic : i = c
            · subst hic
              by_cases hlt : i < g.length
              · right
                exact ⟨Or.inr rfl, List.getElem?_set_self (by omega)⟩
              · left
                rw [List.getElem?_eq_none (Nat.le_of_not_lt hlt)]
                exact List.getElem?_eq_none (by simp; omega)
            · rw [List.getElem?_set_ne (Ne.symm hic)]
              rcases hg i with h1 | h1 | ⟨h1, h2⟩
              · exact Or.inl h1
              · exact absurd h1 hic
              · exact Or.inr ⟨Or.inl h1, h2⟩

/-! ## The depth bound of the model -/

theorem tryMoves_cons_outOfFuel {rec : Sudoku → Outcome} {c : Nat} {m : Int} {rest : List Int}
    {t : Sudoku} (h : rec (setCell t c m) = Outcome.outOfFuel) :
    tryMoves rec c (m :: rest) t = Outcome.outOfFuel := by
  rw [tryMoves_cons_other (by rw [h]; intro t1 h1; simp at h1), h]

/-- The loop does not depend on the recursive call beyond its results that are not
`outOfFuel`. -/
theorem tryMoves_mono (rec rec1 : Sudoku → Outcome) {c : Nat}
    (hrec : ∀ t, rec t ≠ Outcome.outOfFuel → rec1 t = rec t) :
    ∀ (ms : List Int) (t : Sudoku), tryMoves rec c ms t ≠ Outcome.outOfFuel →
      tryMoves rec1 c ms t = tryMoves rec c ms t := by
  intro ms
  induction ms with
  | nil => intro t _; rfl
  | cons m rest ih =>
    intro t h
    have hne : rec (setCell t c m) ≠ Outcome.outOfFuel := by
      intro heq
      exact h (tryMoves_cons_outOfFuel heq)
    have h1 := hrec _ hne
    by_cases hf : ∃ t1, rec (setCell t c m) = Outcome.done false t1
    · obtain ⟨t1, ht1⟩ := hf
      rw [tryMoves_cons_false ht1] at h ⊢
      rw [tryMoves_cons_false (h1.trans ht1)]
      exact ih t1 h
    · rw [tryMoves_cons_other (fun t1 ht1 => hf ⟨t1, ht1⟩),
        tryMoves_cons_other (fun t1 ht1 => hf ⟨t1, h1 ▸ ht1⟩), h1]

/-- A larger depth bound does not change a result. -/
theorem solveFuel_succ :
    ∀ (fuel : Nat) (s : Sudoku), solveFuel fuel s ≠ Outcome.outOfFuel →
      solveFuel (fuel + 1) s = solveFuel fuel s := by
  intro fuel
  induction fuel with
  | zero => intro s h; exact absurd rfl h
  | succ fuel ih =>
    intro s h
    obtain ⟨g, cells⟩ := s
    rcases List.eq_nil_or_concat cells with rfl | ⟨cells0, c, rfl⟩
    · rfl
    · rw [List.concat_eq_append] at h ⊢
      rw [solveFuel_snoc] at h
      rw [solveFuel_snoc (fuel + 1), solveFuel_snoc fuel]
      cases hm : getLegalMoves c ⟨g, cells0⟩ with
      | none => rfl
      | some r =>
        obtain ⟨moves, s2⟩ := r
        rw [hm] at h
        simp only at h ⊢
        have hloop : tryMoves (fun t => solveFuel fuel t) c moves s2 ≠ Outcome.outOfFuel := by
          intro heq
          rw [heq] at h
          exact h rfl
        rw [tryMoves_mono (fun t => solveFuel fuel t)
          (fun t => solveFuel (fuel + 1) t) (fun t ht => ih t ht) moves s2 hloop]

theorem tryMoves_ne_outOfFuel (rec : Sudoku → Outcome) (c : Nat) (n : Nat)
    (hrec : ∀ t, t.emptyCells.length = n → rec t ≠ Outcome.outOfFuel)
    (hres : ∀ t t1, rec t = Outcome.done false t1 → t1.emptyCells = t.emptyCells) :
    ∀ (ms : List Int) (t : Sudoku), t.emptyCells.length = n →
      tryMoves rec c ms t ≠ Outcome.outOfFuel := by
  intro ms
  induction ms with
  | nil => intro t _ h; simp [tryMoves_nil] at h
  | cons m rest ih =>
    intro t ht
    have hne := hrec (setCell t c m) ht
    by_cases hf : ∃ t1, rec (setCell t c m) = Outcome.done false t1
    · obtain ⟨t1, ht1⟩ := hf
      rw [tryMoves_cons_false ht1]
      exact ih t1 (by rw [hres _ _ ht1]; exact ht)
    · rw [tryMoves_cons_other (fun t1 ht1 => hf ⟨t1, ht1⟩)]
      exact hne

/-- Whatever the state, a depth bound above the number of listed cells is never hit. -/
theorem solveFuel_ne_outOfFuel :
    ∀ (fuel : Nat) (s : Sudoku), s.emptyCells.length < fuel →
      solveFuel fuel s ≠ Outcome.outOfFuel := by
  intro fuel
  induction fuel with
  | zero => intro s h; exact absurd h (Nat.not_lt_zero _)
  | succ fuel ih =>
    intro s hlt
    obtain ⟨g, cells⟩ := s
    rcases List.eq_nil_or_concat cells with rfl | ⟨cells0, c, rfl⟩
    · simp [solveFuel_nil]
    · rw [List.concat_eq_append] at hlt ⊢
      rw [solveFuel_snoc]
      simp only [List.length_append, List.length_singleton] at hlt
      cases hm : getLegalMoves c ⟨g, cells0⟩ with
      | none => simp
      | some r =>
        obtain ⟨moves, s2⟩ := r
        obtain ⟨rfl, -, -, -⟩ := getLegalMoves_spec hm
        simp only
        have hloop := tryMoves_ne_outOfFuel (fun t => solveFuel fuel t) c
          cells0.length (fun t ht => ih t (by omega))
          (fun t t1 h => (solveFuel_false_restored fuel t t1 h).1) moves ⟨g, cells0⟩ rfl
        cases hres : tryMoves (fun t => solveFuel fuel t) c moves ⟨g, cells0⟩ with
        | outOfFuel => exact absurd hres hloop
        | undefined => simp
        | done b s3 => cases b <;> simp

/-- Every depth bound above the number of listed cells gives the result of `solve`. -/
theorem solveFuel_eq_solve (fuel : Nat) (s : Sudoku) (h : s.emptyCells.length < fuel) :
    solveFuel fuel s = solve s := by
  unfold solve
  obtain ⟨k, rfl⟩ : ∃ k, fuel = s.emptyCells.length + 1 + k := ⟨fuel - (s.emptyCells.length + 1), by omega⟩
  clear h
  induction k with
  | zero => rfl
  | succ k ih =>
    rw [← ih]
    exact solveFuel_succ (s.emptyCells.length + 1 + k) s
      (solveFuel_ne_outOfFuel _ s (by omega))

/-! ## The search -/

theorem set_eq_self {g : List Int} {c : Nat} {a : Int} (h : g[c]? = some a) : g.set c a = g := by
  apply List.ext_getElem?
  intro i
  by_cases hic : c = i
  · subst hic
    rw [h]
    exact List.getElem?_set_self (by
      by_contra hge
      rw [List.getElem?_eq_none (Nat.le_of_not_lt hge)] at h
      exact absurd h (by simp))
  · exact List.getElem?_set_ne hic

theorem lt_length_of_getElem? {g : List Int} {c : Nat} {a : Int} (h : g[c]? = some a) :
    c < g.length := by
  by_contra hge
  rw [List.getElem?_eq_none (Nat.le_of_not_lt hge)] at h
  exact absurd h (by simp)

theorem inv_setCell {g : List Int} {cells : List Nat} {c : Nat} {m : Int}
    (hinv : Inv ⟨g, cells ++ [c]⟩) (h0 : 0 ≤ m) (h9 : m ≤ 9) : Inv ⟨g.set c m, cells⟩ := by
  obtain ⟨hlen, hvals, hnd, hzero⟩ := hinv
  simp only at hlen hvals hnd hzero
  refine ⟨by simpa using hlen, ?_, (List.nodup_append.1 hnd).1, ?_⟩
  · intro v hv
    rcases List.mem_or_eq_of_mem_set hv with h | h
    · exact hvals v h
    · subst h; exact ⟨h0, h9⟩
  · intro c1 hc1
    have hne : c ≠ c1 := by
      rintro rfl
      exact (List.nodup_append.1 hnd).2.2 hc1 (List.mem_singleton_self _)
    show (g.set c m)[c1]? = some 0
    rw [List.getElem?_set_ne hne]
    exact hzero c1 (List.mem_append_left _ hc1)

/-- The fillings of a state whose list ends in `c` are the fillings of the states reached by
writing a legal move into `c`. -/
theorem fills_snoc {g : List Int} {cells : List Nat} {c : Nat} {moves : List Int} {s2 : Sudoku}
    (hinv : Inv ⟨g, cells ++ [c]⟩) (hm : getLegalMoves c ⟨g, cells⟩ = some (moves, s2))
    (g1 : List Int) :
    Fills ⟨g, cells ++ [c]⟩ g1 ↔
      ∃ m ∈ moves, Fills ⟨g.set c m, cells⟩ g1 ∧ g1[c]? = some m := by
  obtain ⟨hlen, hvals, hnd, hzero⟩ := hinv
  simp only at hlen hvals hnd hzero
  have hc0 : g[c]? = some 0 := hzero c (by simp)
  have hc : c < 81 := hlen ▸ lt_length_of_getElem? hc0
  have hcn : c ∉ cells := fun h =>
    (List.nodup_append.1 hnd).2.2 h (List.mem_singleton_self _)
  obtain ⟨-, -, -, hmoves⟩ := getLegalMoves_spec hm
  simp only at hmoves
  constructor
  · intro hF
    obtain ⟨d, hd, h1, h9⟩ := hF.digit c (by simp)
    refine ⟨d, ?_, ?_, hd⟩
    · rw [hmoves]
      refine ⟨h1, h9, fun p hp hgp => ?_⟩
      obtain ⟨hp81, hpeer⟩ := (mem_peerIndices hc).1 hp
      by_cases hpc : p = c
      · subst hpc
        rw [hc0] at hgp
        simp only [Option.some.injEq] at hgp
        omega
      · by_cases hpl : p ∈ cells
        · rw [hzero p (List.mem_append_left _ hpl)] at hgp
          simp only [Option.some.injEq] at hgp
          omega
        · have hfr := hF.frame p (by simp [hpl, hpc])
          have := hF.distinct c (by simp) p hp81 hpc hpeer
          simp only at hfr
          rw [hfr, hd, hgp] at this
          exact this rfl
    · refine ⟨hF.len, ?_, ?_, ?_⟩
      · intro i hi
        simp only at hi
        show g1[i]? = (g.set c d)[i]?
        by_cases hic : i = c
        · subst hic
          rw [hd, List.getElem?_set_self (by omega)]
        · rw [List.getElem?_set_ne (Ne.symm hic)]
          exact hF.frame i (by simp [hi, hic])
      · intro c1 hc1
        exact hF.digit c1 (List.mem_append_left _ hc1)
      · intro c1 hc1
        exact hF.distinct c1 (List.mem_append_left _ hc1)
  · rintro ⟨m, hmm, hF, hgc⟩
    obtain ⟨h1, h9, hfree⟩ := (hmoves m).1 hmm
    refine ⟨hF.len, ?_, ?_, ?_⟩
    · intro i hi
      simp only [List.mem_append, List.mem_singleton, not_or] at hi
      have := hF.frame i hi.1
      simp only at this
      rw [this]
      exact List.getElem?_set_ne (Ne.symm hi.2)
    · intro c1 hc1
      simp only [List.mem_append, List.mem_singleton] at hc1
      rcases hc1 with hc1 | rfl
      · exact hF.digit c1 hc1
      · exact ⟨m, hgc, h1, h9⟩
    · intro c1 hc1 p hp hpc hpeer
      simp only [List.mem_append, List.mem_singleton] at hc1
      rcases hc1 with hc1 | rfl
      · exact hF.distinct c1 hc1 p hp hpc hpeer
      · by_cases hpl : p ∈ cells
        · exact fun h => hF.distinct p hpl c1 hc (Ne.symm hpc) (peer_symm hpeer) h.symm
        · have hfr := hF.frame p hpl
          simp only at hfr
          rw [hfr, List.getElem?_set_ne (Ne.symm hpc), hgc]
          exact hfree p ((mem_peerIndices hc).2 ⟨hp, hpeer⟩)

theorem searchKey_snoc (cells : List Nat) (c : Nat) (g : List Int) :
    searchKey (cells ++ [c]) g = g.getD c 0 :: searchKey cells g := by
  simp [searchKey]

/-- The loop of `solve` over the ascending moves `ms` for the cell `c`, when the recursive
call behaves as `SearchPost` says: it ends without success in a state that differs from the
entry state in cell `c` at most, and then no move of `ms` has a filling; or it returns true
with the first filling of the least move that has one. -/
theorem tryMoves_search {rec : Sudoku → Outcome} {g : List Int} {cells : List Nat} {c : Nat}
    (hrec : ∀ m : Int, 1 ≤ m → m ≤ 9 → SearchPost ⟨g.set c m, cells⟩ (rec ⟨g.set c m, cells⟩)) :
    ∀ (ms : List Int), (∀ m ∈ ms, 1 ≤ m ∧ m ≤ 9) → ms.Pairwise (· < ·) → ∀ x : Int,
      (∃ y, tryMoves rec c ms ⟨g.set c x, cells⟩ = Outcome.done false ⟨g.set c y, cells⟩ ∧
        ∀ m ∈ ms, ∀ g1, ¬ Fills ⟨g.set c m, cells⟩ g1) ∨
      (∃ m ∈ ms, ∃ gs, tryMoves rec c ms ⟨g.set c x, cells⟩ = Outcome.done true ⟨gs, []⟩ ∧
        Found ⟨g.set c m, cells⟩ gs ∧
        ∀ m1 ∈ ms, ∀ g1, Fills ⟨g.set c m1, cells⟩ g1 → m ≤ m1) := by
  intro ms
  induction ms with
  | nil =>
    intro _ _ x
    exact Or.inl ⟨x, rfl, fun m hm => absurd hm (List.not_mem_nil m)⟩
  | cons m rest ih =>
    intro hrange hsorted x
    have hstep : setCell ⟨g.set c x, cells⟩ c m = ⟨g.set c m, cells⟩ := by
      simp only [setCell, List.set_set]
    obtain ⟨h1, h9⟩ := hrange m (List.mem_cons_self _ _)
    rcases hrec m h1 h9 with ⟨hout, hnone⟩ | ⟨gs, hout, hfound⟩
    · have hcont : tryMoves rec c (m :: rest) ⟨g.set c x, cells⟩
          = tryMoves rec c rest ⟨g.set c m, cells⟩ :=
        tryMoves_cons_false (by rw [hstep]; exact hout)
      rw [hcont]
      rcases ih (fun m1 hm1 => hrange m1 (List.mem_cons_of_mem _ hm1))
          (List.Pairwise.of_cons hsorted) m with ⟨y, hy, hno⟩ | ⟨m0, hm0, gs, hgs, hfound, hleast⟩
      · refine Or.inl ⟨y, hy, fun m1 hm1 => ?_⟩
        rcases List.mem_cons.1 hm1 with rfl | hm1
        · exact hnone
        · exact hno m1 hm1
      · refine Or.inr ⟨m0, List.mem_cons_of_mem _ hm0, gs, hgs, hfound, fun m1 hm1 g1 hg1 => ?_⟩
        rcases List.mem_cons.1 hm1 with rfl | hm1
        · exact absurd hg1 (hnone g1)
        · exact hleast m1 hm1 g1 hg1
    · have hret : tryMoves rec c (m :: rest) ⟨g.set c x, cells⟩ = Outcome.done true ⟨gs, []⟩ := by
        rw [tryMoves_cons_other (by rw [hstep, hout]; intro t1 h; simp at h), hstep, hout]
      refine Or.inr ⟨m, List.mem_cons_self _ _, gs, hret, hfound, fun m1 hm1 g1 _ => ?_⟩
      rcases List.mem_cons.1 hm1 with rfl | hm1
      · exact le_refl _
      · exact le_of_lt (List.rel_of_pairwise_cons hsorted hm1)

/-- The search theorem: entered in a state of 81 values in `0..9` whose listed cells are
distinct and hold 0, with a depth bound above the number of listed cells, `solve` returns
false in the entry state when the state has no filling, and otherwise returns true with the
first filling in the search order. -/
theorem solveFuel_search :
    ∀ (fuel : Nat) (s : Sudoku), Inv s → s.emptyCells.length < fuel →
      SearchPost s (solveFuel fuel s) := by
  intro fuel
  induction fuel with
  | zero => intro s _ h; exact absurd h (Nat.not_lt_zero _)
  | succ fuel ih =>
    intro s hinv hfuel
    obtain ⟨g, cells⟩ := s
    rcases List.eq_nil_or_concat cells with rfl | ⟨cells0, c, rfl⟩
    · refine Or.inr ⟨g, solveFuel_nil fuel g, ⟨hinv.len, fun _ _ => rfl, ?_, ?_⟩, ?_⟩
      · intro c hc; exact absurd hc (List.not_mem_nil c)
      · intro c hc; exact absurd hc (List.not_mem_nil c)
      · intro g1 hg1
        left
        apply List.ext_getElem?
        intro i
        exact hg1.frame i (List.not_mem_nil i)
    · rw [List.concat_eq_append] at hinv hfuel ⊢
      have hc0 : g[c]? = some 0 := hinv.zero c (by simp)
      have hlen : g.length = 81 := hinv.len
      have hc : c < 81 := hlen ▸ lt_length_of_getElem? hc0
      obtain ⟨moves, hm⟩ := getLegalMoves_isSome
        (s := (⟨g, cells0⟩ : Sudoku)) (peers_readable hlen hinv.vals hc)
      obtain ⟨-, hsorted, -, hmoves⟩ := getLegalMoves_spec hm
      have hfuel0 : cells0.length < fuel := by
        simp only [List.length_append, List.length_singleton] at hfuel
        omega
      have hrec : ∀ m : Int, 1 ≤ m → m ≤ 9 →
          SearchPost ⟨g.set c m, cells0⟩ ((fun t => solveFuel fuel t) ⟨g.set c m, cells0⟩) :=
        fun m h1 h9 => ih _ (inv_setCell hinv (by omega) h9) hfuel0
      have hloop := tryMoves_search hrec moves
        (fun m hmm => ⟨((hmoves m).1 hmm).1, ((hmoves m).1 hmm).2.1⟩) hsorted 0
      rw [set_eq_self hc0] at hloop
      rw [solveFuel_snoc, hm]
      rcases hloop with ⟨y, hy, hno⟩ | ⟨m, hmm, gs, hgs, hfound, hleast⟩
      · left
        simp only [hy, List.set_set, set_eq_self hc0, true_and]
        intro g1 hg1
        obtain ⟨m, hmm, hF, -⟩ := (fills_snoc hinv hm g1).1 hg1
        exact hno m hmm g1 hF
      · right
        refine ⟨gs, by simp only [hgs], ?_, ?_⟩
        · exact (fills_snoc hinv hm gs).2 ⟨m, hmm, hfound.1, by
            have hcn : c ∉ cells0 := fun h =>
              (List.nodup_append.1 hinv.nodup).2.2 h (List.mem_singleton_self _)
            have := hfound.1.frame c hcn
            simp only at this
            rw [this, List.getElem?_set_self (by omega)]⟩
        · intro g1 hg1
          obtain ⟨m1, hmm1, hF1, hg1c⟩ := (fills_snoc hinv hm g1).1 hg1
          have hgsc : gs[c]? = some m := by
            have hcn : c ∉ cells0 := fun h =>
              (List.nodup_append.1 hinv.nodup).2.2 h (List.mem_singleton_self _)
            have := hfound.1.frame c hcn
            simp only at this
            rw [this, List.getElem?_set_self (by omega)]
          have hle := hleast m1 hmm1 g1 hF1
          simp only [searchKey_snoc, List.getD_eq_getElem?_getD, hgsc, hg1c, Option.getD_some]
          rcases lt_or_eq_of_le hle with hlt | heq
          · exact Or.inr (List.Lex.rel hlt)
          · subst heq
            rcases hfound.2 g1 hF1 with h | h
            · exact Or.inl h
            · exact Or.inr (List.Lex.cons h)

/-! ## Solved grids -/

/-- Nine pairwise different values in `1..9` are all of `1..9`. -/
theorem pigeon9 (f : Nat → Int) (hinj : ∀ i, i < 9 → ∀ j, j < 9 → i ≠ j → f i ≠ f j)
    (hr : ∀ i, i < 9 → 1 ≤ f i ∧ f i ≤ 9) (d : Int) (h1 : 1 ≤ d) (h9 : d ≤ 9) :
    ∃ i, i < 9 ∧ f i = d := by
  have hnd : ((List.range 9).map f).Nodup := by
    refine List.Nodup.map_on ?_ (List.nodup_range 9)
    intro i hi j hj hij
    by_contra hne
    exact hinj i (List.mem_range.1 hi) j (List.mem_range.1 hj) hne hij
  have hsub : (List.range 9).map f ⊆ ([1, 2, 3, 4, 5, 6, 7, 8, 9] : List Int) := by
    intro v hv
    obtain ⟨i, hi, rfl⟩ := List.mem_map.1 hv
    obtain ⟨ha, hb⟩ := hr i (List.mem_range.1 hi)
    simp only [List.mem_cons, List.mem_singleton, List.not_mem_nil, or_false]
    omega
  have hperm : ((List.range 9).map f).Perm ([1, 2, 3, 4, 5, 6, 7, 8, 9] : List Int) :=
    (List.subperm_of_subset hnd hsub).perm_of_length_le (by simp)
  have hd : d ∈ ([1, 2, 3, 4, 5, 6, 7, 8, 9] : List Int) := by
    simp only [List.mem_cons, List.mem_singleton, List.not_mem_nil, or_false]
    omega
  obtain ⟨i, hi, hfi⟩ := List.mem_map.1 (hperm.symm.subset hd)
  exact ⟨i, List.mem_range.1 hi, hfi⟩

/-- In a grid of digits without two equal peers, a unit of nine cells that are peers of each
other holds each digit exactly once. -/
theorem unit_exactly_once {g : List Int} (hlen : g.length = 81)
    (hdig : ∀ v ∈ g, 1 ≤ v ∧ v ≤ 9) (hdist : AllDistinct g) (U : Nat → Prop) (cell : Nat → Nat)
    (hcell : ∀ i, i < 9 → cell i < 81 ∧ U (cell i))
    (hinj : ∀ i, i < 9 → ∀ j, j < 9 → i ≠ j → cell i ≠ cell j)
    (hpeer : ∀ p q, U p → U q → Peer p q) (d : Int) (h1 : 1 ≤ d) (h9 : d ≤ 9) :
    ∃! p, p < 81 ∧ U p ∧ g[p]? = some d := by
  have hget : ∀ p, p < 81 → g[p]? = some (g.getD p 0) := by
    intro p hp
    rw [List.getD_eq_getElem?_getD, List.getElem?_eq_getElem (by omega)]
    rfl
  obtain ⟨i, hi, hfi⟩ := pigeon9 (fun i => g.getD (cell i) 0)
    (by
      intro i hi j hj hij heq
      have := hdist (cell i) (hcell i hi).1 (cell j) (hcell j hj).1 (hinj i hi j hj hij)
        (hpeer _ _ (hcell i hi).2 (hcell j hj).2)
      rw [hget _ (hcell i hi).1, hget _ (hcell j hj).1] at this
      simp only at heq
      exact this (by rw [heq]))
    (by
      intro i hi
      have hmem : g.getD (cell i) 0 ∈ g := by
        have := hget _ (hcell i hi).1
        exact List.getElem?_mem this
      exact hdig _ hmem)
    d h1 h9
  refine ⟨cell i, ⟨(hcell i hi).1, (hcell i hi).2, by rw [hget _ (hcell i hi).1, hfi]⟩, ?_⟩
  rintro q ⟨hq, hUq, hgq⟩
  by_contra hne
  have := hdist q hq (cell i) (hcell i hi).1 hne (hpeer _ _ hUq (hcell i hi).2)
  rw [hgq, hget _ (hcell i hi).1, hfi] at this
  exact this rfl

theorem solved_of_allDistinct {g : List Int} (hlen : g.length = 81)
    (hdig : ∀ v ∈ g, 1 ≤ v ∧ v ≤ 9) (hdist : AllDistinct g) : Solved g := by
  intro d h1 h9 k hk
  refine ⟨?_, ?_, ?_⟩
  · exact unit_exactly_once hlen hdig hdist (fun p => p / 9 = k) (fun i => 9 * k + i)
      (fun i hi => ⟨by dsimp only; omega, by dsimp only; omega⟩)
      (fun i _ j _ hij => by dsimp only; omega)
      (fun p q hp hq => Or.inl (by unfold sameRow; simp only at hp hq; omega)) d h1 h9
  · exact unit_exactly_once hlen hdig hdist (fun p => p % 9 = k) (fun i => 9 * i + k)
      (fun i hi => ⟨by dsimp only; omega, by dsimp only; omega⟩)
      (fun i _ j _ hij => by dsimp only; omega)
      (fun p q hp hq => Or.inr (Or.inl (by unfold sameCol; simp only at hp hq; omega))) d h1 h9
  · exact unit_exactly_once hlen hdig hdist (fun p => p / 27 = k / 3 ∧ p % 9 / 3 = k % 3)
      (fun i => k / 3 * 27 + k % 3 * 3 + i / 3 * 9 + i % 3)
      (fun i hi => ⟨by dsimp only; omega, by dsimp only; omega⟩)
      (fun i _ j _ hij => by dsimp only; omega)
      (fun p q hp hq => Or.inr (Or.inr (by unfold sameBox; simp only at hp hq; omega))) d h1 h9

theorem allDistinct_of_solved {g : List Int} (hlen : g.length = 81)
    (hdig : ∀ v ∈ g, 1 ≤ v ∧ v ≤ 9) (hs : Solved g) : AllDistinct g := by
  intro p hp q hq hpq hpeer heq
  have hgp : g[p]? = some g[p] := List.getElem?_eq_getElem (by omega)
  have hgq : g[q]? = some g[p] := by rw [← heq, hgp]
  obtain ⟨h1, h9⟩ := hdig g[p] (List.getElem_mem (by omega))
  unfold Peer sameRow sameCol sameBox at hpeer
  rcases hpeer with h | h | h
  · obtain ⟨hrow, -, -⟩ := hs g[p] h1 h9 (p / 9) (by omega)
    exact hpq (hrow.unique ⟨hp, rfl, hgp⟩ ⟨hq, h.symm, hgq⟩)
  · obtain ⟨-, hcol, -⟩ := hs g[p] h1 h9 (p % 9) (by omega)
    exact hpq (hcol.unique ⟨hp, rfl, hgp⟩ ⟨hq, h.symm, hgq⟩)
  · obtain ⟨-, -, hbox⟩ := hs g[p] h1 h9 (p / 27 * 3 + p % 9 / 3) (by omega)
    exact hpq (hbox.unique ⟨hp, ⟨by omega, by omega⟩, hgp⟩ ⟨hq, ⟨by omega, by omega⟩, hgq⟩)

/-! ## Well-formed puzzles and their completions -/

theorem inv_of_wellFormed {s : Sudoku} (hwf : WellFormed s) : Inv s :=
  ⟨hwf.len, hwf.vals, hwf.nodup, fun c hc => (hwf.empties c (hwf.bound c hc)).1 hc⟩

/-- For a well-formed puzzle, the fillings explored by the search are the valid
completions. -/
theorem fills_iff_validCompletion {s : Sudoku} (hwf : WellFormed s) (g : List Int) :
    Fills s g ↔ ValidCompletion s g := by
  have hslen := hwf.len
  constructor
  · intro hF
    have hdig : ∀ v ∈ g, 1 ≤ v ∧ v ≤ 9 := by
      intro v hv
      obtain ⟨i, hi⟩ := List.mem_iff_getElem?.1 hv
      by_cases hil : i ∈ s.emptyCells
      · obtain ⟨d, hd, h1, h9⟩ := hF.digit i hil
        rw [hi] at hd
        simp only [Option.some.injEq] at hd
        subst hd
        exact ⟨h1, h9⟩
      · have hfr := hF.frame i hil
        rw [hi] at hfr
        have hmem : v ∈ s.grid := List.getElem?_mem hfr.symm
        have hi81 : i < 81 := hslen ▸ lt_length_of_getElem? hfr.symm
        have hnz : s.grid[i]? ≠ some 0 := fun h => hil ((hwf.empties i hi81).2 h)
        have := hwf.vals v hmem
        have hv0 : v ≠ 0 := by
          rintro rfl
          exact hnz hfr.symm
        omega
    refine ⟨hF.len, hdig, ?_, ?_⟩
    · intro i hi hnz
      exact hF.frame i (fun hil => hnz ((hwf.empties i hi).1 hil))
    · refine solved_of_allDistinct hF.len hdig ?_
      intro p hp q hq hpq hpeer
      by_cases hql : q ∈ s.emptyCells
      · exact hF.distinct q hql p hp hpq hpeer
      · by_cases hpl : p ∈ s.emptyCells
        · exact fun h => hF.distinct p hpl q hq (Ne.symm hpq) (peer_symm hpeer) h.symm
        · rw [hF.frame p hpl, hF.frame q hql]
          exact hwf.consistent p hp q hq hpq hpeer (fun h => hpl ((hwf.empties p hp).2 h))
  · intro hV
    have hdist := allDistinct_of_solved hV.len hV.digits hV.solved
    refine ⟨hV.len, ?_, ?_, ?_⟩
    · intro i hil
      by_cases hi : i < 81
      · exact hV.givens i hi (fun h => hil ((hwf.empties i hi).2 h))
      · rw [List.getElem?_eq_none (by rw [hV.len]; omega),
          List.getElem?_eq_none (by rw [hslen]; omega)]
    · intro c hc
      have hc81 := hwf.bound c hc
      have hlt : c < g.length := by rw [hV.len]; exact hc81
      exact ⟨g[c], List.getElem?_eq_getElem hlt, hV.digits _ (List.getElem_mem hlt)⟩
    · intro c hc p hp hpc hpeer
      exact hdist p hp c (hwf.bound c hc) hpc hpeer

theorem fills_nil {g g1 : List Int} (hlen : g.length = 81) : Fills ⟨g, []⟩ g1 ↔ g1 = g := by
  constructor
  · intro h
    apply List.ext_getElem?
    intro i
    exact h.frame i (List.not_mem_nil i)
  · rintro rfl
    exact ⟨hlen, fun _ _ => rfl, fun c hc => absurd hc (List.not_mem_nil c),
      fun c hc => absurd hc (List.not_mem_nil c)⟩

/-- The enumeration `fillings` lists exactly the fillings of a state. -/
theorem mem_fillings (g1 : List Int) :
    ∀ (stack : List Nat) (g : List Int), Inv ⟨g, stack.reverse⟩ →
      (Fills ⟨g, stack.reverse⟩ g1 ↔ g1 ∈ fillings stack g) := by
  intro stack
  induction stack with
  | nil =>
    intro g hinv
    simp only [List.reverse_nil, fillings, List.mem_singleton]
    exact fills_nil hinv.len
  | cons c rest ih =>
    intro g hinv
    simp only [List.reverse_cons] at hinv ⊢
    have hc0 : g[c]? = some 0 := hinv.zero c (by simp)
    have hlen : g.length = 81 := hinv.len
    have hc : c < 81 := hlen ▸ lt_length_of_getElem? hc0
    have hcn : c ∉ rest.reverse := fun h =>
      (List.nodup_append.1 hinv.nodup).2.2 h (List.mem_singleton_self _)
    obtain ⟨moves, hm⟩ := getLegalMoves_isSome
      (s := (⟨g, rest.reverse⟩ : Sudoku)) (peers_readable hlen hinv.vals hc)
    obtain ⟨-, -, -, hmoves⟩ := getLegalMoves_spec hm
    rw [fills_snoc hinv hm g1]
    simp only [fillings, hm, List.mem_flatMap]
    constructor
    · rintro ⟨m, hmm, hF, -⟩
      obtain ⟨h1, h9, -⟩ := (hmoves m).1 hmm
      exact ⟨m, hmm, (ih _ (inv_setCell hinv (by omega) h9)).1 hF⟩
    · rintro ⟨m, hmm, hmem⟩
      obtain ⟨h1, h9, -⟩ := (hmoves m).1 hmm
      have hF := (ih _ (inv_setCell hinv (by omega) h9)).2 hmem
      refine ⟨m, hmm, hF, ?_⟩
      have := hF.frame c hcn
      simp only at this
      rw [this, List.getElem?_set_self (by omega)]

/-- The valid completions of a well-formed puzzle, enumerated. -/
theorem validCompletion_iff_mem_fillings {s : Sudoku} (hwf : WellFormed s) (g : List Int) :
    ValidCompletion s g ↔ g ∈ fillings s.emptyCells.reverse s.grid := by
  rw [← fills_iff_validCompletion hwf]
  have := mem_fillings g s.emptyCells.reverse s.grid
    (by rw [List.reverse_reverse]; exact inv_of_wellFormed hwf)
  rw [List.reverse_reverse] at this
  exact this

/-- Blanking cells of a grid without two equal peers leaves no conflict. -/
theorem noConflict_of_blanked {sol g : List Int} (hsol : AllDistinct sol)
    (h : ∀ i, i < 81 → g[i]? = sol[i]? ∨ g[i]? = some 0) : NoConflict g := by
  intro p hp q hq hpq hpeer hnz
  rcases h p hp with h1 | h1
  · rcases h q hq with h2 | h2
    · rw [h1, h2]
      exact hsol p hp q hq hpq hpeer
    · rw [h2]
      exact hnz
  · exact absurd h1 hnz

theorem noConflict_of_check {g : List Int}
    (h : ∀ p, p < 81 → ∀ q, q < 81 →
      (p ≠ q ∧ Peer p q ∧ g[p]? ≠ some 0) → g[p]? ≠ g[q]?) : NoConflict g :=
  fun p hp q hq hpq hpeer hnz => h p hp q hq ⟨hpq, hpeer, hnz⟩

/-- What `solve` does on a well-formed puzzle. -/
theorem solve_wellFormed (s : Sudoku) (hwf : WellFormed s) :
    (solve s = Outcome.done false s ∧ ∀ g, ¬ ValidCompletion s g) ∨
    (∃ g, solve s = Outcome.done true ⟨g, []⟩ ∧ ValidCompletion s g ∧
      ∀ g1, ValidCompletion s g1 →
        g1 = g ∨ List.Lex (· < ·) (searchKey s.emptyCells g) (searchKey s.emptyCells g1)) := by
  rcases solveFuel_search (s.emptyCells.length + 1) s (inv_of_wellFormed hwf)
      (Nat.lt_succ_self _) with ⟨hout, hnone⟩ | ⟨g, hout, hF, hleast⟩
  · exact Or.inl ⟨hout, fun g hg => hnone g ((fills_iff_validCompletion hwf g).2 hg)⟩
  · exact Or.inr ⟨g, hout, (fills_iff_validCompletion hwf g).1 hF,
      fun g1 hg1 => hleast g1 ((fills_iff_validCompletion hwf g1).2 hg1)⟩

theorem wellFormed_perm {s : Sudoku} (hwf : WellFormed s) {cells : List Nat}
    (hperm : cells.Perm s.emptyCells) : WellFormed ⟨s.grid, cells⟩ :=
  ⟨hwf.len, hwf.vals, fun c hc => hwf.bound c (hperm.subset hc),
    fun i hi => (hperm.mem_iff).trans (hwf.empties i hi),
    (hperm.nodup_iff).2 hwf.nodup, hwf.consistent⟩

/-! ## Invariants of `solve` -/

theorem tryMovesTrace_nil (rec : Sudoku → Outcome × List (Nat × Sudoku)) (c : Nat) (t : Sudoku) :
    tryMovesTrace rec c [] t = (Outcome.done false t, []) := rfl

theorem tryMovesTrace_cons_false {rec : Sudoku → Outcome × List (Nat × Sudoku)} {c : Nat}
    {m : Int} {rest : List Int} {t t1 : Sudoku} {tr : List (Nat × Sudoku)}
    (h : rec (setCell t c m) = (Outcome.done false t1, tr)) :
    tryMovesTrace rec c (m :: rest) t =
      ((tryMovesTrace rec c rest t1).1, tr ++ (tryMovesTrace rec c rest t1).2) := by
  simp only [tryMovesTrace, h]

theorem tryMovesTrace_cons_other {rec : Sudoku → Outcome × List (Nat × Sudoku)} {c : Nat}
    {m : Int} {rest : List Int} {t : Sudoku}
    (h : ∀ t1, (rec (setCell t c m)).1 ≠ Outcome.done false t1) :
    tryMovesTrace rec c (m :: rest) t = rec (setCell t c m) := by
  simp only [tryMovesTrace]
  split
  · rename_i t1 tr heq
    exact absurd (by rw [heq]) (h t1)
  · rfl

theorem tryMovesTrace_fst (rec1 : Sudoku → Outcome × List (Nat × Sudoku))
    (rec : Sudoku → Outcome) (hrec : ∀ t, (rec1 t).1 = rec t) (c : Nat) :
    ∀ (ms : List Int) (t : Sudoku), (tryMovesTrace rec1 c ms t).1 = tryMoves rec c ms t := by
  intro ms
  induction ms with
  | nil => intro t; rfl
  | cons m rest ih =>
    intro t
    by_cases hf : ∃ t1, rec (setCell t c m) = Outcome.done false t1
    · obtain ⟨t1, ht1⟩ := hf
      have h1 : rec1 (setCell t c m) = (Outcome.done false t1, (rec1 (setCell t c m)).2) := by
        rw [← ht1, ← hrec]
      rw [tryMovesTrace_cons_false h1, tryMoves_cons_false ht1]
      exact ih t1
    · rw [tryMovesTrace_cons_other (fun t1 ht1 => hf ⟨t1, by rw [← hrec]; exact ht1⟩),
        tryMoves_cons_other (fun t1 ht1 => hf ⟨t1, ht1⟩)]
      exact hrec _

/-- The instrumented function computes the outcome of `solveFuel`. -/
theorem solveTrace_fst : ∀ (fuel depth : Nat) (s : Sudoku),
    (solveTrace fuel depth s).1 = solveFuel fuel s := by
  intro fuel
  induction fuel with
  | zero => intro depth s; rfl
  | succ fuel ih =>
    intro depth s
    simp only [solveTrace, solveFuel]
    cases s.emptyCells.getLast? with
    | none => rfl
    | some cell =>
      simp only
      cases getLegalMoves cell { s with emptyCells := s.emptyCells.dropLast } with
      | none => rfl
      | some r =>
        obtain ⟨moves, s2⟩ := r
        simp only
        have hloop := tryMovesTrace_fst (fun t => solveTrace fuel (depth + 1) t)
          (fun t => solveFuel fuel t) (fun t => ih (depth + 1) t) cell moves s2
        rw [← hloop]
        rcases hres : tryMovesTrace (fun t => solveTrace fuel (depth + 1) t) cell moves s2 with
          ⟨out, tr⟩
        cases out with
        | done b s3 => cases b <;> rfl
        | undefined => rfl
        | outOfFuel => rfl

theorem solveTrace_nil (fuel depth : Nat) (g : List Int) :
    solveTrace (fuel + 1) depth ⟨g, []⟩ = (Outcome.done true ⟨g, []⟩, [(depth, ⟨g, []⟩)]) := rfl

theorem solveTrace_snoc (fuel depth : Nat) (g : List Int) (cells : List Nat) (c : Nat) :
    solveTrace (fuel + 1) depth ⟨g, cells ++ [c]⟩ =
      match getLegalMoves c ⟨g, cells⟩ with
      | none => (Outcome.undefined, [(depth, ⟨g, cells ++ [c]⟩)])
      | some (moves, s2) =>
        match tryMovesTrace (fun t => solveTrace fuel (depth + 1) t) c moves s2 with
        | (Outcome.done false s3, tr) =>
          (Outcome.done false ⟨s3.grid.set c 0, s3.emptyCells ++ [c]⟩,
            (depth, ⟨g, cells ++ [c]⟩) :: tr)
        | (r, tr) => (r, (depth, ⟨g, cells ++ [c]⟩) :: tr) := by
  simp only [solveTrace, List.getLast?_concat, List.dropLast_concat]

theorem loopState_init (g : List Int) (cells : List Nat) (c : Nat) :
    LoopState g cells c ⟨g, cells⟩ :=
  ⟨rfl, rfl, fun _ => Or.inl rfl⟩

theorem loopState_next {g : List Int} {cells : List Nat} {c : Nat} {t t1 : Sudoku} {m : Int}
    (ht : LoopState g cells c t) (hres : Restored (setCell t c m) t1) :
    LoopState g cells c t1 := by
  obtain ⟨hl, hn, hg⟩ := ht
  obtain ⟨hl1, hn1, hg1⟩ := hres
  refine ⟨hl1.trans hl, by rw [hn1]; simpa [setCell] using hn, fun i => ?_⟩
  by_cases hic : i = c
  · exact Or.inr (Or.inl hic)
  · rcases hg1 i with h | ⟨h1, h2⟩
    · have h3 : (setCell t c m).grid[i]? = t.grid[i]? := by
        simp only [setCell]
        exact List.getElem?_set_ne (Ne.symm hic)
      rw [h3] at h
      rcases hg i with h4 | h4 | ⟨h4, h5⟩
      · exact Or.inl (h.trans h4)
      · exact absurd h4 hic
      · exact Or.inr (Or.inr ⟨h4, h.trans h5⟩)
    · have h1 : i ∈ t.emptyCells := h1
      exact Or.inr (Or.inr ⟨hl ▸ h1, h2⟩)

/-- The loop of an activation, for an entry condition `J` of the nested calls and a
condition `K` on the states they return in. -/
theorem tryMovesTrace_invariant (J : Nat → Sudoku → Prop) (K : Sudoku → Prop)
    (rec1 : Sudoku → Outcome × List (Nat × Sudoku)) (k : Nat) (g : List Int)
    (cells : List Nat) (c : Nat)
    (hrec : ∀ t, J (k + 1) t →
      (∀ e ∈ (rec1 t).2, J e.1 e.2) ∧ (∀ b t1, (rec1 t).1 = Outcome.done b t1 → K t1))
    (hres : ∀ t t1, (rec1 t).1 = Outcome.done false t1 → Restored t t1) :
    ∀ (ms : List Int), (∀ m ∈ ms, ∀ t, LoopState g cells c t → J (k + 1) (setCell t c m)) →
      ∀ t, LoopState g cells c t →
        (∀ e ∈ (tryMovesTrace rec1 c ms t).2, J e.1 e.2) ∧
        (∀ t1, (tryMovesTrace rec1 c ms t).1 = Outcome.done true t1 → K t1) ∧
        (∀ t1, (tryMovesTrace rec1 c ms t).1 = Outcome.done false t1 →
          LoopState g cells c t1) := by
  intro ms
  induction ms with
  | nil =>
    intro _ t ht
    refine ⟨fun e he => absurd he (List.not_mem_nil e), fun t1 h => ?_, fun t1 h => ?_⟩
    · simp [tryMovesTrace_nil] at h
    · simp only [tryMovesTrace_nil, Outcome.done.injEq, true_and] at h
      exact h ▸ ht
  | cons m rest ih =>
    intro hms t ht
    have hJ := hms m (List.mem_cons_self _ _) t ht
    obtain ⟨htr, hK⟩ := hrec _ hJ
    by_cases hf : ∃ t1, (rec1 (setCell t c m)).1 = Outcome.done false t1
    · obtain ⟨t1, ht1⟩ := hf
      have h1 : rec1 (setCell t c m) = (Outcome.done false t1, (rec1 (setCell t c m)).2) := by
        rw [← ht1]
      rw [tryMovesTrace_cons_false h1]
      have hnext := loopState_next ht (hres _ _ ht1)
      obtain ⟨ih1, ih2, ih3⟩ := ih (fun m1 hm1 => hms m1 (List.mem_cons_of_mem _ hm1)) t1 hnext
      refine ⟨fun e he => ?_, ih2, ih3⟩
      rcases List.mem_append.1 he with he | he
      · exact htr e he
      · exact ih1 e he
    · rw [tryMovesTrace_cons_other (fun t1 ht1 => hf ⟨t1, ht1⟩)]
      refine ⟨htr, fun t1 h => hK true t1 h, fun t1 h => absurd ⟨t1, h⟩ hf⟩

/-- Invariants of `solve`: when the condition `J` on the entry states passes from an
activation to the calls it makes and gives the condition `K` on the states in which an
activation returns by itself, then `J` holds at the entry of every activation and `K` holds
on return. -/
theorem solveTrace_invariant (J : Nat → Sudoku → Prop) (K : Sudoku → Prop)
    (hbase : ∀ k g, J k ⟨g, []⟩ → K ⟨g, []⟩)
    (hstep : ∀ k g cells c moves s2 t m, J k ⟨g, cells ++ [c]⟩ →
      getLegalMoves c ⟨g, cells⟩ = some (moves, s2) → m ∈ moves → LoopState g cells c t →
      J (k + 1) (setCell t c m))
    (hfail : ∀ k g cells c moves s2 t, J k ⟨g, cells ++ [c]⟩ →
      getLegalMoves c ⟨g, cells⟩ = some (moves, s2) → LoopState g cells c t →
      K ⟨t.grid.set c 0, t.emptyCells ++ [c]⟩) :
    ∀ (fuel k : Nat) (s : Sudoku), J k s →
      (∀ e ∈ (solveTrace fuel k s).2, J e.1 e.2) ∧
      (∀ b t, (solveTrace fuel k s).1 = Outcome.done b t → K t) := by
  intro fuel
  induction fuel with
  | zero =>
    intro k s _
    exact ⟨fun e he => absurd he (List.not_mem_nil e), fun b t h => by simp [solveTrace] at h⟩
  | succ fuel ih =>
    intro k s hJ
    obtain ⟨g, cells⟩ := s
    rcases List.eq_nil_or_concat cells with rfl | ⟨cells0, c, rfl⟩
    · rw [solveTrace_nil]
      refine ⟨fun e he => ?_, fun b t h => ?_⟩
      · rw [List.mem_singleton.1 he]; exact hJ
      · simp only [Outcome.done.injEq] at h
        exact h.2 ▸ hbase k g hJ
    · rw [List.concat_eq_append] at hJ ⊢
      rw [solveTrace_snoc]
      cases hm : getLegalMoves c ⟨g, cells0⟩ with
      | none =>
        refine ⟨fun e he => ?_, fun b t h => by simp at h⟩
        rw [List.mem_singleton.1 he]; exact hJ
      | some r =>
        obtain ⟨moves, s2⟩ := r
        obtain ⟨rfl, -, -, -⟩ := getLegalMoves_spec hm
        simp only
        obtain ⟨h1, h2, h3⟩ := tryMovesTrace_invariant J K
          (fun t => solveTrace fuel (k + 1) t) k g cells0 c
          (fun t ht => ih (k + 1) t ht)
          (fun t t1 h => solveFuel_false_restored fuel t t1 (by rw [← solveTrace_fst fuel (k + 1)]; exact h))
          moves (fun m hmm t ht => hstep k g cells0 c moves _ t m hJ hm hmm ht)
          ⟨g, cells0⟩ (loopState_init g cells0 c)
        rcases hres : tryMovesTrace (fun t => solveTrace fuel (k + 1) t) c moves ⟨g, cells0⟩ with
          ⟨out, tr⟩
        rw [hres] at h1 h2 h3
        simp only at h1 h2 h3
        have hentries : ∀ e ∈ (k, (⟨g, cells0 ++ [c]⟩ : Sudoku)) :: tr, J e.1 e.2 := by
          intro e he
          rcases List.mem_cons.1 he with rfl | he
          · exact hJ
          · exact h1 e he
        cases out with
        | undefined => exact ⟨hentries, fun b t h => by simp at h⟩
        | outOfFuel => exact ⟨hentries, fun b t h => by simp at h⟩
        | done b s3 =>
          cases b with
          | true =>
            refine ⟨hentries, fun b t h => ?_⟩
            simp only [Outcome.done.injEq] at h
            exact h.2 ▸ h2 s3 rfl
          | false =>
            refine ⟨hentries, fun b t h => ?_⟩
            simp only [Outcome.done.injEq] at h
            exact h.2 ▸ hfail k g cells0 c moves _ s3 hJ hm (h3 s3 rfl)

/-! ## Concrete puzzles -/

set_option maxRecDepth 100000 in
theorem exampleSolved_allDistinct : AllDistinct exampleSolved := by
  unfold AllDistinct
  decide

theorem exampleSolved_digits : ∀ v ∈ exampleSolved, 1 ≤ v ∧ v ≤ 9 := by decide

theorem exampleSolved_solved : Solved exampleSolved :=
  solved_of_allDistinct rfl exampleSolved_digits exampleSolved_allDistinct

set_option maxRecDepth 100000 in
theorem scenarioPuzzle_wellFormed : WellFormed scenarioPuzzle :=
  ⟨rfl, by unfold ValuesInRange; decide, by decide, by decide, by decide,
    noConflict_of_blanked exampleSolved_allDistinct (by decide)⟩

set_option maxRecDepth 100000 in
theorem twoSolutionPuzzle_wellFormed : WellFormed twoSolutionPuzzle :=
  ⟨rfl, by unfold ValuesInRange; decide, by decide, by decide, by decide,
    noConflict_of_blanked exampleSolved_allDistinct (by decide)⟩

set_option maxRecDepth 100000 in
theorem twoBlankPuzzle_wellFormed : WellFormed twoBlankPuzzle :=
  ⟨rfl, by unfold ValuesInRange; decide, by decide, by decide, by decide,
    noConflict_of_blanked exampleSolved_allDistinct (by decide)⟩

set_option maxRecDepth 100000 in
theorem stuckPuzzle_wellFormed : WellFormed stuckPuzzle :=
  ⟨rfl, by unfold ValuesInRange; decide, by decide, by decide, by decide,
    noConflict_of_check (by decide)⟩

theorem unique_of_fillings {s : Sudoku} (hwf : WellFormed s) {g : List Int}
    (h : fillings s.emptyCells.reverse s.grid = [g]) : ∃! g1, ValidCompletion s g1 := by
  refine ⟨g, (validCompletion_iff_mem_fillings hwf g).2 (by rw [h]; exact List.mem_singleton_self g), ?_⟩
  intro g1 hg1
  have := (validCompletion_iff_mem_fillings hwf g1).1 hg1
  rw [h] at this
  exact List.mem_singleton.1 this

theorem scenarioPuzzle_unique : ∃! g, ValidCompletion scenarioPuzzle g :=
  unique_of_fillings scenarioPuzzle_wellFormed (g := exampleSolved) (by decide)

theorem twoBlankPuzzle_unique : ∃! g, ValidCompletion twoBlankPuzzle g :=
  unique_of_fillings twoBlankPuzzle_wellFormed (g := exampleSolved) (by decide)

theorem stuckPuzzle_no_completion : ¬ ∃ g, ValidCompletion stuckPuzzle g := by
  rintro ⟨g, hg⟩
  have := (validCompletion_iff_mem_fillings stuckPuzzle_wellFormed g).1 hg
  have hnil : fillings stuckPuzzle.emptyCells.reverse stuckPuzzle.grid = [] := by decide
  rw [hnil] at this
  exact absurd this (List.not_mem_nil g)

theorem twoSolutionPuzzle_completions :
    fillings twoSolutionPuzzle.emptyCells.reverse twoSolutionPuzzle.grid =
      [exampleSolved, (((exampleSolved.set 3 7).set 4 6).set 30 6).set 31 7] := by decide

theorem validCompletion_cells {s : Sudoku} (cells : List Nat) (g : List Int) :
    ValidCompletion ⟨s.grid, cells⟩ g ↔ ValidCompletion s g :=
  ⟨fun h => ⟨h.len, h.digits, h.givens, h.solved⟩, fun h => ⟨h.len, h.digits, h.givens, h.solved⟩⟩

/-- A full grid of digits has no zero-valued cell, so a list that holds exactly the
zero-valued cells is empty. -/
theorem emptyCells_of_duplicateInRow {s : Sudoku} (hdup : DuplicateInRow s.grid)
    (hcells : ListsZeroCells s) : s.emptyCells = [] := by
  obtain ⟨sol, p, q, d, -, hdig, -, -, -, -, -, h1, h9, hg⟩ := hdup
  apply List.eq_nil_iff_forall_not_mem.2
  intro c hc
  have h0 : s.grid[c]? = some 0 := (hcells c).1 hc
  have hmem : (0 : Int) ∈ (sol.set p d).set q d := hg ▸ List.getElem?_mem h0
  rcases List.mem_or_eq_of_mem_set hmem with h | h
  · rcases List.mem_or_eq_of_mem_set h with h | h
    · have := hdig 0 h
      omega
    · omega
  · omega

theorem duplicateRowGrid_duplicateInRow : DuplicateInRow duplicateRowGrid :=
  ⟨exampleSolved, 0, 1, 5, rfl, exampleSolved_digits, exampleSolved_solved,
    by decide, by decide, by decide, by decide, by decide, by decide, by decide⟩

theorem duplicateRowGrid_listsZeroCells : ListsZeroCells ⟨duplicateRowGrid, []⟩ := by
  intro i
  constructor
  · intro h
    exact absurd h (List.not_mem_nil i)
  · intro h
    have hmem : (0 : Int) ∈ duplicateRowGrid := List.getElem?_mem h
    exact absurd hmem (by decide)

/-! ## The contract of `solve` and `getLegalMoves` -/

/-- Claim C1: for every well-formed puzzle that has exactly one valid completion, `solve`
returns true and in the final grid every row, every column and every 3x3 box contains each
digit 1..9 exactly once. -/
theorem solve_unique_completion (s : Sudoku) (hwf : WellFormed s)
    (huniq : ∃! g, ValidCompletion s g) :
    ∃ t, solve s = Outcome.done true t ∧ Solved t.grid := by
  rcases solve_wellFormed s hwf with ⟨-, hnone⟩ | ⟨g, hout, hvalid, -⟩
  · obtain ⟨g, hg, -⟩ := huniq
    exact absurd hg (hnone g)
  · exact ⟨⟨g, []⟩, hout, hvalid.solved⟩

theorem solve_unique_completion_witness :
    WellFormed scenarioPuzzle ∧ (∃! g, ValidCompletion scenarioPuzzle g) ∧
      ∃ t, solve scenarioPuzzle = Outcome.done true t ∧ Solved t.grid :=
  ⟨scenarioPuzzle_wellFormed, scenarioPuzzle_unique,
    solve_unique_completion scenarioPuzzle scenarioPuzzle_wellFormed scenarioPuzzle_unique⟩

/-- Claim C2: for every well-formed puzzle that has no valid completion, `solve` returns
false and the state on return, the grid cell for cell and the list of empty cells, is the
state passed in. -/
theorem solve_no_completion (s : Sudoku) (hwf : WellFormed s)
    (hnone : ¬ ∃ g, ValidCompletion s g) :
    solve s = Outcome.done false s := by
  rcases solve_wellFormed s hwf with ⟨hout, -⟩ | ⟨g, -, hvalid, -⟩
  · exact hout
  · exact absurd ⟨g, hvalid⟩ hnone

theorem solve_no_completion_witness :
    WellFormed stuckPuzzle ∧ (¬ ∃ g, ValidCompletion stuckPuzzle g) ∧
      solve stuckPuzzle = Outcome.done false stuckPuzzle :=
  ⟨stuckPuzzle_wellFormed, stuckPuzzle_no_completion,
    solve_no_completion stuckPuzzle stuckPuzzle_wellFormed stuckPuzzle_no_completion⟩

/-- Claim C3: on a grid of 81 values in 0..9 and for a cell index `cell <= 80`,
`getLegalMoves cell` returns, strictly ascending and without duplicates, exactly the digits
`d` in 1..9 that no cell of the row of `cell`, of its column or of its box (the nine cells
`topLeft + i * 9 + j`, `topLeft = (row / 3) * 27 + (col / 3) * 3`) holds, and it leaves the
grid and the list of empty cells as they were. -/
theorem getLegalMoves_contract (s : Sudoku) (cell : Nat) (hlen : s.grid.length = 81)
    (hvals : ValuesInRange s.grid) (hcell : cell ≤ 80) :
    ∃ moves, getLegalMoves cell s = some (moves, s) ∧
      moves.Pairwise (· < ·) ∧ moves.Nodup ∧
      ∀ d : Int, d ∈ moves ↔
        (1 ≤ d ∧ d ≤ 9 ∧ ∀ p, p < 81 →
          (p / 9 = cell / 9 ∨ p % 9 = cell % 9 ∨
            ∃ i, i < 3 ∧ ∃ j, j < 3 ∧
              p = (cell / 9 / 3) * 27 + (cell % 9 / 3) * 3 + i * 9 + j) →
          s.grid[p]? ≠ some d) := by
  have hc : cell < 81 := by omega
  obtain ⟨moves, hm⟩ := getLegalMoves_isSome (s := s) (peers_readable hlen hvals hc)
  obtain ⟨-, hsorted, -, hmoves⟩ := getLegalMoves_spec hm
  refine ⟨moves, hm, hsorted, hsorted.imp (fun h => ne_of_lt h), fun d => ?_⟩
  rw [hmoves d]
  have hmem : ∀ p, p ∈ peerIndices cell ↔ (p < 81 ∧
      (p / 9 = cell / 9 ∨ p % 9 = cell % 9 ∨
        ∃ i, i < 3 ∧ ∃ j, j < 3 ∧
          p = (cell / 9 / 3) * 27 + (cell % 9 / 3) * 3 + i * 9 + j)) := by
    intro p
    unfold peerIndices
    simp only [List.mem_append, mem_rowIndices, mem_colIndices, mem_boxIndices]
    constructor
    · rintro ((h | h) | ⟨i, hi, j, hj, rfl⟩)
      · exact ⟨by omega, Or.inl (by omega)⟩
      · exact ⟨h.1, Or.inr (Or.inl (by omega))⟩
      · exact ⟨by omega, Or.inr (Or.inr ⟨i, hi, j, hj, rfl⟩)⟩
    · rintro ⟨hp, h | h | h⟩
      · exact Or.inl (Or.inl (by omega))
      · exact Or.inl (Or.inr ⟨hp, by omega⟩)
      · exact Or.inr h
  constructor
  · rintro ⟨h1, h9, hfree⟩
    exact ⟨h1, h9, fun p hp hunit => hfree p ((hmem p).2 ⟨hp, hunit⟩)⟩
  · rintro ⟨h1, h9, hfree⟩
    exact ⟨h1, h9, fun p hp => hfree p ((hmem p).1 hp).1 ((hmem p).1 hp).2⟩

theorem getLegalMoves_contract_witness :
    ∃ moves, getLegalMoves 0 scenarioPuzzle = some (moves, scenarioPuzzle) ∧
      moves.Pairwise (· < ·) ∧ moves.Nodup ∧
      ∀ d : Int, d ∈ moves ↔
        (1 ≤ d ∧ d ≤ 9 ∧ ∀ p, p < 81 →
          (p / 9 = 0 / 9 ∨ p % 9 = 0 % 9 ∨
            ∃ i, i < 3 ∧ ∃ j, j < 3 ∧ p = (0 / 9 / 3) * 27 + (0 % 9 / 3) * 3 + i * 9 + j) →
          scenarioPuzzle.grid[p]? ≠ some d) :=
  getLegalMoves_contract scenarioPuzzle 0 rfl (by unfold ValuesInRange; decide) (by decide)

/-- Claim C4: for every state in which every listed cell holds 0, a call of `solve` that
returns false (under any depth bound) returns in the state of its entry: same grid, same
list of empty cells. -/
theorem solve_false_restores (fuel : Nat) (s t : Sudoku)
    (hzero : ∀ c ∈ s.emptyCells, s.grid[c]? = some 0)
    (hfalse : solveFuel fuel s = Outcome.done false t) : t = s := by
  obtain ⟨hl, -, hg⟩ := solveFuel_false_restored fuel s t hfalse
  obtain ⟨g, cells⟩ := s
  obtain ⟨g1, cells1⟩ := t
  simp only at hl hg hzero
  subst hl
  have : g1 = g := by
    apply List.ext_getElem?
    intro i
    rcases hg i with h | ⟨hi, h⟩
    · exact h
    · rw [h, hzero i hi]
  rw [this]

theorem solve_false_restores_witness :
    (∀ c ∈ blockedPuzzle.emptyCells, blockedPuzzle.grid[c]? = some 0) ∧
      solveFuel 2 blockedPuzzle
        = Outcome.done false ⟨(exampleSolved.set 0 0).set 1 5, [] ++ [0]⟩ ∧
      (⟨(exampleSolved.set 0 0).set 1 5, [] ++ [0]⟩ : Sudoku) = blockedPuzzle :=
  ⟨by decide, by decide,
    solve_false_restores 2 blockedPuzzle ⟨(exampleSolved.set 0 0).set 1 5, [] ++ [0]⟩
      (by decide) (by decide)⟩

/-- Claim C5: whatever the grid holds, when `emptyCells` is empty `solve` returns true and
leaves the grid and `emptyCells` unchanged. -/
theorem solve_no_empty_cells (g : List Int) :
    solve ⟨g, []⟩ = Outcome.done true ⟨g, []⟩ := rfl

/-- Claim C6: on the grid 534678912672195348198342567859761423426853791713924856961537284287419635345286179
with cell 0 set to 0 and `emptyCells = [0]`, `solve` returns true, the final grid has 5 in
cell 0, and the other 80 cells keep their values. -/
theorem solve_scenario :
    ∃ t, solve ⟨exampleSolved.set 0 0, [0]⟩ = Outcome.done true t ∧
      t.grid[0]? = some 5 ∧
      ∀ i, i < 81 → 1 ≤ i → t.grid[i]? = (exampleSolved.set 0 0)[i]? :=
  ⟨⟨exampleSolved, []⟩, by decide, by decide, by decide⟩

/-- Claim C7, refuted as stated: `duplicateRowGrid` is a valid solved grid except that the cells
0 and 1 of row 0 both hold 5, its list of zero-valued cells is empty, and `solve` returns
true on it, not false. -/
theorem solve_duplicate_row_counterexample :
    DuplicateInRow duplicateRowGrid ∧ ListsZeroCells ⟨duplicateRowGrid, []⟩ ∧
      duplicateRowGrid[0]? = some 5 ∧ duplicateRowGrid[1]? = some 5 ∧
      solve ⟨duplicateRowGrid, []⟩ = Outcome.done true ⟨duplicateRowGrid, []⟩ ∧
      ¬ ∃ t, solve ⟨duplicateRowGrid, []⟩ = Outcome.done false t :=
  ⟨duplicateRowGrid_duplicateInRow, duplicateRowGrid_listsZeroCells, by decide, by decide, rfl,
    by
      rintro ⟨t, ht⟩
      have h : solve ⟨duplicateRowGrid, []⟩ = Outcome.done true ⟨duplicateRowGrid, []⟩ := rfl
      rw [h] at ht
      simp at ht⟩

/-- Claim C7 as amended: for every grid that is a valid solved grid except that two cells of
one row hold the same digit 1..9, with `emptyCells` the list of its zero-valued cells (which
is empty, the grid being full), `solve` returns true and leaves the state unchanged. -/
theorem solve_duplicate_row (s : Sudoku) (hdup : DuplicateInRow s.grid)
    (hcells : ListsZeroCells s) : solve s = Outcome.done true s := by
  have hnil := emptyCells_of_duplicateInRow hdup hcells
  obtain ⟨g, cells⟩ := s
  simp only at hnil
  subst hnil
  rfl

theorem solve_duplicate_row_witness :
    DuplicateInRow duplicateRowGrid ∧ ListsZeroCells ⟨duplicateRowGrid, []⟩ ∧
      solve ⟨duplicateRowGrid, []⟩ = Outcome.done true ⟨duplicateRowGrid, []⟩ :=
  ⟨duplicateRowGrid_duplicateInRow, duplicateRowGrid_listsZeroCells,
    solve_duplicate_row ⟨duplicateRowGrid, []⟩ duplicateRowGrid_duplicateInRow
      duplicateRowGrid_listsZeroCells⟩

/-- Claim C8: on a grid of 81 values in 0..9, for cells `c`, `p` in 0..80 with `p` outside the
row, the column and the box of `c`, and a value `v` in 0..9, `getLegalMoves c` returns the
same moves on the grid with `grid[p] := v` as on the original grid. -/
theorem getLegalMoves_unrelated_placement (s : Sudoku) (c p : Nat) (v : Int)
    (hlen : s.grid.length = 81) (hvals : ValuesInRange s.grid) (hc : c ≤ 80) (hp : p ≤ 80)
    (hv : 0 ≤ v ∧ v ≤ 9) (hrow : ¬ sameRow p c) (hcol : ¬ sameCol p c)
    (hbox : ¬ sameBox p c) :
    ∃ moves, getLegalMoves c (setCell s p v) = some (moves, setCell s p v) ∧
      getLegalMoves c s = some (moves, s) := by
  have hc81 : c < 81 := by omega
  obtain ⟨moves, hm⟩ := getLegalMoves_isSome (s := s) (peers_readable hlen hvals hc81)
  refine ⟨moves, ?_, hm⟩
  have hscan : scanCells (setCell s p v).grid (peerIndices c) (List.replicate 10 false)
      = scanCells s.grid (peerIndices c) (List.replicate 10 false) := by
    apply scanCells_congr
    intro i hi
    have hpeer := ((mem_peerIndices hc81).1 hi).2
    have hne : p ≠ i := by
      rintro rfl
      rcases hpeer with h | h | h
      · exact hrow h
      · exact hcol h
      · exact hbox h
    simp only [setCell]
    exact List.getElem?_set_ne hne
  rw [getLegalMoves_eq] at hm ⊢
  rw [hscan]
  cases hsc : scanCells s.grid (peerIndices c) (List.replicate 10 false) with
  | none => rw [hsc] at hm; exact absurd hm (by simp)
  | some u =>
    rw [hsc] at hm
    simp only [Option.map_some', Option.some.injEq, Prod.mk.injEq, and_true] at hm ⊢
    exact hm

theorem getLegalMoves_unrelated_placement_witness :
    ¬ sameRow 40 0 ∧ ¬ sameCol 40 0 ∧ ¬ sameBox 40 0 ∧
      ∃ moves, getLegalMoves 0 (setCell scenarioPuzzle 40 3)
          = some (moves, setCell scenarioPuzzle 40 3) ∧
        getLegalMoves 0 scenarioPuzzle = some (moves, scenarioPuzzle) :=
  ⟨by decide, by decide, by decide,
    getLegalMoves_unrelated_placement scenarioPuzzle 0 40 3 rfl
      (by unfold ValuesInRange; decide) (by decide) (by decide) (by decide)
      (by decide) (by decide) (by decide)⟩

/-- Claim C9: for every well-formed puzzle that has at least one valid completion, `solve`
returns true and the final grid is the first valid completion in the search order: its
values in the empty cells, read from the end of `emptyCells` to its front, are
lexicographically below those of every other valid completion. -/
theorem solve_first_completion (s : Sudoku) (hwf : WellFormed s)
    (hex : ∃ g, ValidCompletion s g) :
    ∃ g, solve s = Outcome.done true ⟨g, []⟩ ∧ ValidCompletion s g ∧
      ∀ g1, ValidCompletion s g1 → g1 ≠ g →
        List.Lex (· < ·) (searchKey s.emptyCells g) (searchKey s.emptyCells g1) := by
  rcases solve_wellFormed s hwf with ⟨-, hnone⟩ | ⟨g, hout, hvalid, hleast⟩
  · obtain ⟨g, hg⟩ := hex
    exact absurd hg (hnone g)
  · refine ⟨g, hout, hvalid, fun g1 hg1 hne => ?_⟩
    rcases hleast g1 hg1 with h | h
    · exact absurd h hne
    · exact h

theorem solve_first_completion_witness :
    WellFormed twoSolutionPuzzle ∧ (∃ g, ValidCompletion twoSolutionPuzzle g) ∧
      ∃ g, solve twoSolutionPuzzle = Outcome.done true ⟨g, []⟩ ∧
        ValidCompletion twoSolutionPuzzle g ∧
        ∀ g1, ValidCompletion twoSolutionPuzzle g1 → g1 ≠ g →
          List.Lex (· < ·) (searchKey twoSolutionPuzzle.emptyCells g)
            (searchKey twoSolutionPuzzle.emptyCells g1) :=
  have hex : ∃ g, ValidCompletion twoSolutionPuzzle g :=
    ⟨exampleSolved, (validCompletion_iff_mem_fillings twoSolutionPuzzle_wellFormed _).2
      (by rw [twoSolutionPuzzle_completions]; exact List.mem_cons_self _ _)⟩
  ⟨twoSolutionPuzzle_wellFormed, hex,
    solve_first_completion twoSolutionPuzzle twoSolutionPuzzle_wellFormed hex⟩

/-- Claim C10: for every well-formed puzzle with exactly one valid completion and every two
orderings of its list of empty cells, `solve` returns true under both orderings and with
the same final grid. -/
theorem solve_order_independent (s : Sudoku) (hwf : WellFormed s)
    (huniq : ∃! g, ValidCompletion s g) (cells1 cells2 : List Nat)
    (h1 : cells1.Perm s.emptyCells) (h2 : cells2.Perm s.emptyCells) :
    ∃ t1 t2, solve ⟨s.grid, cells1⟩ = Outcome.done true t1 ∧
      solve ⟨s.grid, cells2⟩ = Outcome.done true t2 ∧ t1.grid = t2.grid := by
  obtain ⟨g, hg, hunique⟩ := huniq
  have key : ∀ cells : List Nat, cells.Perm s.emptyCells →
      solve ⟨s.grid, cells⟩ = Outcome.done true ⟨g, []⟩ := by
    intro cells hperm
    rcases solve_wellFormed ⟨s.grid, cells⟩ (wellFormed_perm hwf hperm) with
      ⟨-, hnone⟩ | ⟨g1, hout, hvalid, -⟩
    · exact absurd ((validCompletion_cells cells g).2 hg) (hnone g)
    · rw [hout, hunique g1 ((validCompletion_cells cells g1).1 hvalid)]
  exact ⟨⟨g, []⟩, ⟨g, []⟩, key cells1 h1, key cells2 h2, rfl⟩

theorem solve_order_independent_witness :
    WellFormed twoBlankPuzzle ∧ (∃! g, ValidCompletion twoBlankPuzzle g) ∧
      [0, 40].Perm twoBlankPuzzle.emptyCells ∧ [40, 0].Perm twoBlankPuzzle.emptyCells ∧
      ∃ t1 t2, solve ⟨twoBlankPuzzle.grid, [0, 40]⟩ = Outcome.done true t1 ∧
        solve ⟨twoBlankPuzzle.grid, [40, 0]⟩ = Outcome.done true t2 ∧ t1.grid = t2.grid :=
  ⟨twoBlankPuzzle_wellFormed, twoBlankPuzzle_unique, List.Perm.refl _, List.Perm.swap 0 40 [],
    solve_order_independent twoBlankPuzzle twoBlankPuzzle_wellFormed twoBlankPuzzle_unique
      [0, 40] [40, 0] (List.Perm.refl _) (List.Perm.swap 0 40 [])⟩

/-! ## The driver, the invariants and the safety of `solve` -/

theorem mainLoop_eq (puzzles : List Sudoku) :
    ∀ sum : Int, mainLoop puzzles sum = (batchSum puzzles).map (fun total => sum + total) := by
  induction puzzles with
  | nil => intro sum; simp [mainLoop, batchSum]
  | cons s rest ih =>
    intro sum
    simp only [mainLoop, batchSum, leadingNumber]
    cases solve s with
    | undefined => rfl
    | outOfFuel => rfl
    | done b t =>
      simp only
      cases t.grid[0]? with
      | none => rfl
      | some x0 =>
        cases t.grid[1]? with
        | none => rfl
        | some x1 =>
          cases t.grid[2]? with
          | none => rfl
          | some x2 =>
            simp only [ih]
            cases batchSum rest with
            | none => rfl
            | some total =>
              simp only [Option.map_some']
              congr 1
              ring

/-- The driver's answer is one more than the sum of the 3-digit numbers. -/
theorem main_eq (puzzles : List Sudoku) :
    main puzzles = (batchSum puzzles).map (fun total => 1 + total) :=
  mainLoop_eq puzzles 1

/-- Claim C11 fails on the code: on a batch of 50 copies of the scenario puzzle, whose
3-digit number is 534, the sum is 26700 and the driver answers 26701. -/
theorem main_scenarioBatch :
    leadingNumber scenarioPuzzle = some 534 ∧ batchSum scenarioBatch = some 26700 ∧
      main scenarioBatch = some 26701 := by
  have h1 : leadingNumber scenarioPuzzle = some 534 := by decide
  have h2 : ∀ n : Nat, batchSum (List.replicate n scenarioPuzzle) = some (534 * (n : Int)) := by
    intro n
    induction n with
    | zero => rfl
    | succ n ih =>
      simp only [List.replicate_succ, batchSum, h1, ih]
      congr 1
      push_cast
      ring
  refine ⟨h1, h2 50, ?_⟩
  rw [main_eq, scenarioBatch, h2 50]
  rfl

theorem valuesInRange_iff {g : List Int} :
    ValuesInRange g ↔ ∀ (i : Nat) (v : Int), g[i]? = some v → 0 ≤ v ∧ v ≤ 9 := by
  unfold ValuesInRange
  constructor
  · intro h i v hv
    exact h v (List.getElem?_mem hv)
  · intro h v hv
    obtain ⟨i, hi⟩ := List.mem_iff_getElem?.1 hv
    exact h i v hi

/-- Writing a value `0..9` into cell `c` of a loop state keeps the values in `0..9`. -/
theorem valuesInRange_loop {g : List Int} {cells : List Nat} {c : Nat} {t : Sudoku} {x : Int}
    (hg : ValuesInRange g) (ht : LoopState g cells c t) (h0 : 0 ≤ x) (h9 : x ≤ 9) :
    ValuesInRange (t.grid.set c x) := by
  rw [valuesInRange_iff] at hg ⊢
  intro i v hv
  by_cases hic : c = i
  · subst hic
    rw [List.getElem?_set] at hv
    simp only [if_true] at hv
    split at hv
    · simp only [Option.some.injEq] at hv
      subst hv
      exact ⟨h0, h9⟩
    · exact absurd hv (by simp)
  · rw [List.getElem?_set_ne hic] at hv
    rcases ht.2.2 i with h | h | ⟨-, h⟩
    · exact hg i v (h ▸ hv)
    · exact absurd h.symm hic
    · rw [h] at hv
      simp only [Option.some.injEq] at hv
      subst hv
      exact ⟨le_refl _, by decide⟩

/-- Writing into cell `c` of a loop state either 0 or a value that no other cell of the row,
column and box of `c` held at the entry of the activation leaves no conflict. -/
theorem noConflict_loop {g : List Int} {cells : List Nat} {c : Nat} {t : Sudoku} {x : Int}
    (hlen : g.length = 81) (hc : c < 81) (hg : NoConflict g) (ht : LoopState g cells c t)
    (hx : x = 0 ∨ ∀ p, p < 81 → p ≠ c → Peer p c → g[p]? ≠ some x) :
    NoConflict (t.grid.set c x) := by
  have hother : ∀ i, i ≠ c → (t.grid.set c x)[i]? = g[i]? ∨ (t.grid.set c x)[i]? = some 0 := by
    intro i hic
    rw [List.getElem?_set_ne (Ne.symm hic)]
    rcases ht.2.2 i with h | h | ⟨-, h⟩
    · exact Or.inl h
    · exact absurd h hic
    · exact Or.inr h
  have hself : (t.grid.set c x)[c]? = some x :=
    List.getElem?_set_self (by rw [ht.2.1, hlen]; exact hc)
  intro p hp q hq hpq hpeer hnz heq
  by_cases hpc : p = c
  · subst hpc
    rw [hself] at hnz heq
    have hx0 : x ≠ 0 := fun h0 => hnz (by rw [h0])
    rcases hx with hx | hx
    · exact hx0 hx
    · rcases hother q (Ne.symm hpq) with h1 | h1
      · rw [h1] at heq
        exact hx q hq (Ne.symm hpq) (peer_symm hpeer) heq.symm
      · rw [h1] at heq
        simp only [Option.some.injEq] at heq
        exact hx0 heq
  · have hgp : (t.grid.set c x)[p]? = g[p]? := by
      rcases hother p hpc with h | h
      · exact h
      · exact absurd h hnz
    rw [hgp] at hnz heq
    by_cases hqc : q = c
    · subst hqc
      rw [hself] at heq
      rcases hx with hx | hx
      · rw [hx] at heq
        exact hnz heq
      · exact hx p hp hpc hpeer heq
    · rcases hother q hqc with h1 | h1
      · rw [h1] at heq
        exact hg p hp q hq hpq hpeer hnz heq
      · rw [h1] at heq
        exact hnz heq

/-- A move returned by `getLegalMoves c` is a digit `1..9` that no other cell of the row,
column and box of `c` holds. -/
theorem legal_move {g : List Int} {cells : List Nat} {c : Nat} {moves : List Int} {s2 : Sudoku}
    {m : Int} (hlen : g.length = 81) (hm : getLegalMoves c ⟨g, cells⟩ = some (moves, s2))
    (hmm : m ∈ moves) :
    c < 81 ∧ 1 ≤ m ∧ m ≤ 9 ∧ ∀ p, p < 81 → p ≠ c → Peer p c → g[p]? ≠ some m := by
  have hc : c < 81 := by
    have := cell_lt_length_of_getLegalMoves hm
    simp only at this
    omega
  obtain ⟨-, -, -, hmoves⟩ := getLegalMoves_spec hm
  obtain ⟨h1, h9, hfree⟩ := (hmoves m).1 hmm
  exact ⟨hc, h1, h9, fun p hp _ hpeer => hfree p ((mem_peerIndices hc).2 ⟨hp, hpeer⟩)⟩

/-- Claim C14: entered in a state of 81 values in 0..9 whose listed cells hold 0 and in which
no two filled cells of a row, column or box are equal, `solve` keeps that constraint (and
the range of the values): it holds at the entry of every activation of `solve` and in the
state in which `solve` returns, whether true or false, under any depth bound. -/
theorem solve_preserves_noConflict (fuel : Nat) (s : Sudoku) (hlen : s.grid.length = 81)
    (hvals : ValuesInRange s.grid) (hzero : ∀ c ∈ s.emptyCells, s.grid[c]? = some 0)
    (hnc : NoConflict s.grid) :
    (∀ e ∈ (solveTrace fuel 0 s).2, ValuesInRange e.2.grid ∧ NoConflict e.2.grid) ∧
    (∀ b t, solveFuel fuel s = Outcome.done b t →
      ValuesInRange t.grid ∧ NoConflict t.grid) := by
  have key := solveTrace_invariant
    (fun _ t => t.grid.length = 81 ∧ ValuesInRange t.grid ∧ NoConflict t.grid)
    (fun t => ValuesInRange t.grid ∧ NoConflict t.grid)
    (fun _ _ h => ⟨h.2.1, h.2.2⟩)
    (by
      intro k g cells c moves s2 t m hJ hm hmm ht
      obtain ⟨hl, hv, hn⟩ := hJ
      have hl : g.length = 81 := hl
      obtain ⟨hc, h1, h9, hfree⟩ := legal_move hl hm hmm
      exact ⟨by simp only [setCell, List.length_set]; rw [ht.2.1]; exact hl,
        valuesInRange_loop hv ht (by omega) h9, noConflict_loop hl hc hn ht (Or.inr hfree)⟩)
    (by
      intro k g cells c moves s2 t hJ hm ht
      obtain ⟨hl, hv, hn⟩ := hJ
      have hl : g.length = 81 := hl
      have hc : c < 81 := by
        have := cell_lt_length_of_getLegalMoves hm
        simp only at this
        omega
      exact ⟨valuesInRange_loop hv ht (le_refl _) (by decide),
        noConflict_loop hl hc hn ht (Or.inl rfl)⟩)
    fuel 0 s ⟨hlen, hvals, hnc⟩
  refine ⟨fun e he => (key.1 e he).2, fun b t h => key.2 b t ?_⟩
  rw [solveTrace_fst]
  exact h

theorem solve_preserves_noConflict_witness :
    scenarioPuzzle.grid.length = 81 ∧ ValuesInRange scenarioPuzzle.grid ∧
      (∀ c ∈ scenarioPuzzle.emptyCells, scenarioPuzzle.grid[c]? = some 0) ∧
      NoConflict scenarioPuzzle.grid ∧
      (∀ e ∈ (solveTrace 2 0 scenarioPuzzle).2, ValuesInRange e.2.grid ∧ NoConflict e.2.grid) ∧
      (∀ b t, solveFuel 2 scenarioPuzzle = Outcome.done b t →
        ValuesInRange t.grid ∧ NoConflict t.grid) :=
  ⟨rfl, scenarioPuzzle_wellFormed.vals, by decide, scenarioPuzzle_wellFormed.consistent,
    solve_preserves_noConflict 2 scenarioPuzzle rfl scenarioPuzzle_wellFormed.vals (by decide)
      scenarioPuzzle_wellFormed.consistent⟩

theorem tryMoves_true_nil {rec : Sudoku → Outcome}
    (hrec : ∀ t t1, rec t = Outcome.done true t1 → t1.emptyCells = []) (c : Nat) :
    ∀ (ms : List Int) (t t1 : Sudoku), tryMoves rec c ms t = Outcome.done true t1 →
      t1.emptyCells = [] := by
  intro ms
  induction ms with
  | nil => intro t t1 h; simp [tryMoves_nil] at h
  | cons m rest ih =>
    intro t t1 h
    by_cases hf : ∃ t2, rec (setCell t c m) = Outcome.done false t2
    · obtain ⟨t2, ht2⟩ := hf
      rw [tryMoves_cons_false ht2] at h
      exact ih t2 t1 h
    · rw [tryMoves_cons_other (fun t2 ht2 => hf ⟨t2, ht2⟩)] at h
      exact hrec _ _ h

/-- A call of `solve` that returns true returns with an empty list. -/
theorem solveFuel_true_nil : ∀ (fuel : Nat) (s t : Sudoku),
    solveFuel fuel s = Outcome.done true t → t.emptyCells = [] := by
  intro fuel
  induction fuel with
  | zero => intro s t h; simp [solveFuel] at h
  | succ fuel ih =>
    intro s t h
    obtain ⟨g, cells⟩ := s
    rcases List.eq_nil_or_concat cells with rfl | ⟨cells0, c, rfl⟩
    · simp only [solveFuel_nil, Outcome.done.injEq, true_and] at h
      rw [← h]
    · rw [List.concat_eq_append, solveFuel_snoc] at h
      cases hm : getLegalMoves c ⟨g, cells0⟩ with
      | none => simp [hm] at h
      | some r =>
        obtain ⟨moves, s2⟩ := r
        simp only [hm] at h
        cases hloop : tryMoves (fun t => solveFuel fuel t) c moves s2 with
        | undefined => simp [hloop] at h
        | outOfFuel => simp [hloop] at h
        | done b s3 =>
          cases b with
          | false => simp [hloop] at h
          | true =>
            simp only [hloop, Outcome.done.injEq, true_and] at h
            subst h
            exact tryMoves_true_nil (fun t t1 => ih t t1) c moves s2 s3 hloop

/-- The list invariant passes from an activation to the state in which it writes `x` into
the cell `c` it has popped: with `x = 0` the cell is listed again, otherwise it is not. -/
theorem listsZeroCells_loop {g : List Int} {cells : List Nat} {c : Nat} {t : Sudoku} {x : Int}
    (hinv : ListsZeroCells ⟨g, cells ++ [c]⟩) (hnd : (cells ++ [c]).Nodup)
    (ht : LoopState g cells c t) :
    (x ≠ 0 → ListsZeroCells ⟨t.grid.set c x, cells⟩) ∧
    (x = 0 → ListsZeroCells ⟨t.grid.set c x, cells ++ [c]⟩) := by
  have hcn : c ∉ cells := fun h =>
    (List.nodup_append.1 hnd).2.2 h (List.mem_singleton_self _)
  have hc0 : g[c]? = some 0 := (hinv c).1 (by simp)
  have hclt : c < t.grid.length := by rw [ht.2.1]; exact lt_length_of_getElem? hc0
  have hself : (t.grid.set c x)[c]? = some x := List.getElem?_set_self hclt
  have hother : ∀ i, i ≠ c → ((t.grid.set c x)[i]? = some 0 ↔ i ∈ cells) := by
    intro i hic
    rw [List.getElem?_set_ne (Ne.symm hic)]
    have hgi : g[i]? = some 0 ↔ i ∈ cells := by
      rw [← hinv i]
      simp [hic]
    rcases ht.2.2 i with h | h | ⟨h1, h2⟩
    · rw [h]; exact hgi
    · exact absurd h hic
    · exact ⟨fun _ => h1, fun _ => h2⟩
  constructor
  · intro hx i
    show i ∈ cells ↔ (t.grid.set c x)[i]? = some 0
    by_cases hic : i = c
    · subst hic
      rw [hself]
      constructor
      · intro h; exact absurd h hcn
      · intro h
        simp only [Option.some.injEq] at h
        exact absurd h hx
    · exact (hother i hic).symm
  · intro hx i
    show i ∈ cells ++ [c] ↔ (t.grid.set c x)[i]? = some 0
    by_cases hic : i = c
    · subst hic
      rw [hself, hx]
      simp
    · rw [hother i hic]
      simp [hic]

/-- Claim C15, refuted as stated: in `twelvesPuzzle` a cell index is listed if and only if
its cell holds 0 (no cell does, and the list is empty), `solve` returns true, and on return
cell 0 holds 12, not a digit 1..9. -/
theorem solve_list_invariant_counterexample :
    ListsZeroCells twelvesPuzzle ∧ twelvesPuzzle.emptyCells.Nodup ∧
      solve twelvesPuzzle = Outcome.done true twelvesPuzzle ∧
      twelvesPuzzle.grid[0]? = some 12 ∧
      ¬ (∀ v ∈ twelvesPuzzle.grid, 1 ≤ v ∧ v ≤ 9) := by
  refine ⟨fun i => ⟨fun h => absurd h (List.not_mem_nil i), fun h => ?_⟩, List.nodup_nil, rfl,
    rfl, by decide⟩
  have hmem : (0 : Int) ∈ twelvesPuzzle.grid := List.getElem?_mem h
  exact absurd hmem (by decide)

/-- Claim C15 as amended: if on entry the grid values are in 0..9 and a cell index is in
`emptyCells` if and only if its cell holds 0, each such index listed once, then the same
holds at the entry of every activation of `solve` and in the state in which `solve`
returns; on a true return `emptyCells` is empty and every cell holds a digit 1..9. -/
theorem solve_list_invariant (fuel : Nat) (s : Sudoku) (hvals : ValuesInRange s.grid)
    (hinv : ListsZeroCells s) (hnd : s.emptyCells.Nodup) :
    (∀ e ∈ (solveTrace fuel 0 s).2, ListsZeroCells e.2 ∧ e.2.emptyCells.Nodup) ∧
    (∀ b t, solveFuel fuel s = Outcome.done b t →
      ListsZeroCells t ∧ t.emptyCells.Nodup ∧
      (b = true → t.emptyCells = [] ∧ ∀ v ∈ t.grid, 1 ≤ v ∧ v ≤ 9)) := by
  have key := solveTrace_invariant
    (fun _ t => ValuesInRange t.grid ∧ ListsZeroCells t ∧ t.emptyCells.Nodup)
    (fun t => ValuesInRange t.grid ∧ ListsZeroCells t ∧ t.emptyCells.Nodup)
    (fun _ _ h => h)
    (by
      intro k g cells c moves s2 t m hJ hm hmm ht
      obtain ⟨hv, hz, hd⟩ := hJ
      obtain ⟨-, -, -, hmoves⟩ := getLegalMoves_spec hm
      obtain ⟨h1, h9, -⟩ := (hmoves m).1 hmm
      refine ⟨valuesInRange_loop hv ht (by omega) h9, ?_, ?_⟩
      · have := (listsZeroCells_loop (x := m) hz hd ht).1 (by omega)
        simp only [setCell]
        rw [ht.1]
        exact this
      · simp only [setCell]
        rw [ht.1]
        exact (List.nodup_append.1 hd).1)
    (by
      intro k g cells c moves s2 t hJ hm ht
      obtain ⟨hv, hz, hd⟩ := hJ
      refine ⟨valuesInRange_loop hv ht (le_refl _) (by decide), ?_, ?_⟩
      · rw [ht.1]
        exact (listsZeroCells_loop (x := 0) hz hd ht).2 rfl
      · simp only
        rw [ht.1]
        exact hd)
    fuel 0 s ⟨hvals, hinv, hnd⟩
  refine ⟨fun e he => (key.1 e he).2, fun b t h => ?_⟩
  obtain ⟨hv, hz, hd⟩ := key.2 b t (by rw [solveTrace_fst]; exact h)
  refine ⟨hz, hd, fun hb => ?_⟩
  subst hb
  have hnil := solveFuel_true_nil fuel s t h
  refine ⟨hnil, fun v hmem => ?_⟩
  obtain ⟨i, hi⟩ := List.mem_iff_getElem?.1 hmem
  have hne : v ≠ 0 := by
    rintro rfl
    have := (hz i).2 hi
    rw [hnil] at this
    exact absurd this (List.not_mem_nil i)
  have := hv v hmem
  omega

theorem solve_list_invariant_witness :
    ValuesInRange scenarioPuzzle.grid ∧ ListsZeroCells scenarioPuzzle ∧
      scenarioPuzzle.emptyCells.Nodup ∧
      (∀ e ∈ (solveTrace 2 0 scenarioPuzzle).2, ListsZeroCells e.2 ∧ e.2.emptyCells.Nodup) ∧
      (∀ b t, solveFuel 2 scenarioPuzzle = Outcome.done b t →
        ListsZeroCells t ∧ t.emptyCells.Nodup ∧
        (b = true → t.emptyCells = [] ∧ ∀ v ∈ t.grid, 1 ≤ v ∧ v ≤ 9)) :=
  have hz : ListsZeroCells scenarioPuzzle := fun i => by
    by_cases hi : i < 81
    · exact scenarioPuzzle_wellFormed.empties i hi
    · constructor
      · intro h
        exact absurd (scenarioPuzzle_wellFormed.bound i h) hi
      · intro h
        exact absurd (lt_length_of_getElem? h) hi
  ⟨scenarioPuzzle_wellFormed.vals, hz, scenarioPuzzle_wellFormed.nodup,
    solve_list_invariant 2 scenarioPuzzle scenarioPuzzle_wellFormed.vals hz
      scenarioPuzzle_wellFormed.nodup⟩

theorem inRange_setCell {t : Sudoku} {c : Nat} {m : Int} (ht : InRange t) (h0 : 0 ≤ m)
    (h9 : m ≤ 9) : InRange (setCell t c m) := by
  obtain ⟨hl, hv, hc⟩ := ht
  refine ⟨by simpa [setCell] using hl, ?_, hc⟩
  intro v hmem
  rcases List.mem_or_eq_of_mem_set hmem with h | h
  · exact hv v h
  · subst h; exact ⟨h0, h9⟩

theorem inRange_restored {t t1 : Sudoku} (ht : InRange t) (hres : Restored t t1) :
    InRange t1 := by
  obtain ⟨hl, hv, hc⟩ := ht
  obtain ⟨hl1, hn1, hg1⟩ := hres
  refine ⟨hn1.trans hl, ?_, fun c hmem => hc c (hl1 ▸ hmem)⟩
  intro v hmem
  obtain ⟨i, hi⟩ := List.mem_iff_getElem?.1 hmem
  rcases hg1 i with h | ⟨-, h⟩
  · exact hv v (List.getElem?_mem (h ▸ hi))
  · rw [h] at hi
    simp only [Option.some.injEq] at hi
    subst hi
    exact ⟨le_refl _, by decide⟩

theorem tryMoves_ne_undefined (rec : Sudoku → Outcome) (c : Nat)
    (hrec : ∀ t, InRange t → rec t ≠ Outcome.undefined)
    (hres : ∀ t t1, rec t = Outcome.done false t1 → Restored t t1) :
    ∀ (ms : List Int), (∀ m ∈ ms, 0 ≤ m ∧ m ≤ 9) → ∀ t, InRange t →
      tryMoves rec c ms t ≠ Outcome.undefined := by
  intro ms
  induction ms with
  | nil => intro _ t _ h; simp [tryMoves_nil] at h
  | cons m rest ih =>
    intro hms t ht
    obtain ⟨h0, h9⟩ := hms m (List.mem_cons_self _ _)
    have hin := inRange_setCell (c := c) ht h0 h9
    by_cases hf : ∃ t1, rec (setCell t c m) = Outcome.done false t1
    · obtain ⟨t1, ht1⟩ := hf
      rw [tryMoves_cons_false ht1]
      exact ih (fun m1 hm1 => hms m1 (List.mem_cons_of_mem _ hm1)) t1
        (inRange_restored hin (hres _ _ ht1))
    · rw [tryMoves_cons_other (fun t1 ht1 => hf ⟨t1, ht1⟩)]
      exact hrec _ hin

/-- On 81 values in `0..9` and listed indices below 81, `solve` makes no out-of-range
access. -/
theorem solveFuel_ne_undefined : ∀ (fuel : Nat) (s : Sudoku), InRange s →
    solveFuel fuel s ≠ Outcome.undefined := by
  intro fuel
  induction fuel with
  | zero => intro s _ h; simp [solveFuel] at h
  | succ fuel ih =>
    intro s hs
    obtain ⟨g, cells⟩ := s
    rcases List.eq_nil_or_concat cells with rfl | ⟨cells0, c, rfl⟩
    · simp [solveFuel_nil]
    · rw [List.concat_eq_append] at hs ⊢
      obtain ⟨hl, hv, hc⟩ := hs
      have hl : g.length = 81 := hl
      have hc81 : c < 81 := hc c (by simp)
      obtain ⟨moves, hm⟩ := getLegalMoves_isSome
        (s := (⟨g, cells0⟩ : Sudoku)) (peers_readable hl hv hc81)
      obtain ⟨-, -, -, hmoves⟩ := getLegalMoves_spec hm
      rw [solveFuel_snoc, hm]
      simp only
      have hloop := tryMoves_ne_undefined (fun t => solveFuel fuel t) c (fun t ht => ih t ht)
        (fun t t1 h => solveFuel_false_restored fuel t t1 h) moves
        (fun m hmm => ⟨by have := (hmoves m).1 hmm; omega, ((hmoves m).1 hmm).2.1⟩)
        ⟨g, cells0⟩ ⟨hl, hv, fun c1 h1 => hc c1 (List.mem_append_left _ h1)⟩
      cases hres : tryMoves (fun t => solveFuel fuel t) c moves ⟨g, cells0⟩ with
      | undefined => exact absurd hres hloop
      | outOfFuel => simp
      | done b s3 => cases b <;> simp

/-- Claim C16: on a grid of 81 values in 0..9 with the indices of `emptyCells` in 0..80,
`solve` terminates: it returns, without an out-of-range access, under the depth bound
`emptyCells.length + 1` and with the same result under every larger one, so that the nesting
depth of the recursive calls never exceeds the length of `emptyCells`; and every activation,
at nesting depth `k`, is entered with a list that is `k` shorter than the list at entry, also
after a failed sibling call. -/
theorem solve_terminates (s : Sudoku) (hlen : s.grid.length = 81)
    (hvals : ValuesInRange s.grid) (hcells : ∀ c ∈ s.emptyCells, c ≤ 80) :
    (∃ b t, solve s = Outcome.done b t) ∧
    (∀ fuel, s.emptyCells.length < fuel → solveFuel fuel s = solve s) ∧
    (∀ e ∈ (solveTrace (s.emptyCells.length + 1) 0 s).2,
      e.2.emptyCells.length + e.1 = s.emptyCells.length ∧ e.1 ≤ s.emptyCells.length) := by
  refine ⟨?_, fun fuel h => solveFuel_eq_solve fuel s h, ?_⟩
  · have h1 := solveFuel_ne_undefined (s.emptyCells.length + 1) s
      ⟨hlen, hvals, fun c hc => Nat.lt_succ_of_le (hcells c hc)⟩
    have h2 := solveFuel_ne_outOfFuel (s.emptyCells.length + 1) s (Nat.lt_succ_self _)
    unfold solve
    cases hres : solveFuel (s.emptyCells.length + 1) s with
    | undefined => exact absurd hres h1
    | outOfFuel => exact absurd hres h2
    | done b t => exact ⟨b, t, rfl⟩
  · have key := solveTrace_invariant
      (fun k t => t.emptyCells.length + k = s.emptyCells.length) (fun _ => True)
      (fun _ _ _ => trivial)
      (by
        intro k g cells c moves s2 t m hJ _ _ ht
        simp only [setCell]
        rw [ht.1]
        simp only [List.length_append, List.length_singleton] at hJ
        omega)
      (fun _ _ _ _ _ _ _ _ _ _ => trivial)
      (s.emptyCells.length + 1) 0 s rfl
    intro e he
    have := key.1 e he
    exact ⟨this, by omega⟩

theorem solve_terminates_witness :
    twoBlankPuzzle.grid.length = 81 ∧ ValuesInRange twoBlankPuzzle.grid ∧
      (∀ c ∈ twoBlankPuzzle.emptyCells, c ≤ 80) ∧
      (∃ b t, solve twoBlankPuzzle = Outcome.done b t) ∧
      (∀ fuel, twoBlankPuzzle.emptyCells.length < fuel →
        solveFuel fuel twoBlankPuzzle = solve twoBlankPuzzle) ∧
      (∀ e ∈ (solveTrace (twoBlankPuzzle.emptyCells.length + 1) 0 twoBlankPuzzle).2,
        e.2.emptyCells.length + e.1 = twoBlankPuzzle.emptyCells.length ∧
          e.1 ≤ twoBlankPuzzle.emptyCells.length) :=
  ⟨rfl, twoBlankPuzzle_wellFormed.vals, by decide,
    solve_terminates twoBlankPuzzle rfl twoBlankPuzzle_wellFormed.vals (by decide)⟩

/-- Claim C17: for `cell <= 80` and a grid of 81 values in 0..9, every array access of
`getLegalMoves` is in range: every grid index read by the row scan, the column scan and the
box scan is at most 80 and the value read there, the index into `usedMoves`, is in 0..9; the
indices of the final loop over `usedMoves` are in 1..9; and the call returns. -/
theorem getLegalMoves_in_range (s : Sudoku) (cell : Nat) (hcell : cell ≤ 80)
    (hlen : s.grid.length = 81) (hvals : ValuesInRange s.grid) :
    (∀ p ∈ rowIndices (cell / 9) ++ colIndices (cell % 9)
        ++ boxIndices ((cell / 9 / 3) * 27 + (cell % 9 / 3) * 3),
      p ≤ 80 ∧ ∃ v, s.grid[p]? = some v ∧ 0 ≤ v ∧ v ≤ 9) ∧
    (∀ i ∈ List.range' 1 9, i ≤ 9) ∧
    ∃ moves, getLegalMoves cell s = some (moves, s) := by
  have hc : cell < 81 := by omega
  refine ⟨fun p hp => ?_, fun i hi => ?_, getLegalMoves_isSome (peers_readable hlen hvals hc)⟩
  · have hp81 : p < 81 := ((mem_peerIndices hc).1 hp).1
    obtain ⟨v, hv, h0, h10⟩ := peers_readable hlen hvals hc p hp
    exact ⟨by omega, v, hv, h0, by omega⟩
  · have := List.mem_range'_1.1 hi
    omega

theorem getLegalMoves_in_range_witness :
    (∀ p ∈ rowIndices (40 / 9) ++ colIndices (40 % 9)
        ++ boxIndices ((40 / 9 / 3) * 27 + (40 % 9 / 3) * 3),
      p ≤ 80 ∧ ∃ v, scenarioPuzzle.grid[p]? = some v ∧ 0 ≤ v ∧ v ≤ 9) ∧
    (∀ i ∈ List.range' 1 9, i ≤ 9) ∧
    ∃ moves, getLegalMoves 40 scenarioPuzzle = some (moves, scenarioPuzzle) :=
  getLegalMoves_in_range scenarioPuzzle 40 (by decide) rfl scenarioPuzzle_wellFormed.vals

/-- Claim C18: whatever the state and the depth bound, when `solve` returns, true or false,
every cell whose index does not occur in `emptyCells` at entry holds the value it held at
entry. -/
theorem solve_keeps_givens (fuel : Nat) (s t : Sudoku) (b : Bool)
    (hret : solveFuel fuel s = Outcome.done b t) (i : Nat) (hi : i ∉ s.emptyCells) :
    t.grid[i]? = s.grid[i]? := by
  have key := solveTrace_invariant
    (fun _ e => (∀ c ∈ e.emptyCells, c ∈ s.emptyCells) ∧
      ∀ j, j ∉ s.emptyCells → e.grid[j]? = s.grid[j]?)
    (fun e => ∀ j, j ∉ s.emptyCells → e.grid[j]? = s.grid[j]?)
    (fun _ _ h => h.2)
    (by
      intro k g cells c moves s2 e m hJ _ _ he
      obtain ⟨hsub, hfr⟩ := hJ
      refine ⟨fun c1 hc1 => hsub c1 ?_, fun j hj => ?_⟩
      · simp only [setCell] at hc1
        rw [he.1] at hc1
        exact List.mem_append_left _ hc1
      · have hjc : j ≠ c := fun h => hj (hsub j (by simp [h]))
        simp only [setCell]
        rw [List.getElem?_set_ne (Ne.symm hjc)]
        rcases he.2.2 j with h | h | ⟨h, -⟩
        · exact h.trans (hfr j hj)
        · exact absurd h hjc
        · exact absurd (hsub j (List.mem_append_left _ h)) hj)
    (by
      intro k g cells c moves s2 e hJ _ he j hj
      obtain ⟨hsub, hfr⟩ := hJ
      have hjc : j ≠ c := fun h => hj (hsub j (by simp [h]))
      show (e.grid.set c 0)[j]? = s.grid[j]?
      rw [List.getElem?_set_ne (Ne.symm hjc)]
      rcases he.2.2 j with h | h | ⟨h, -⟩
      · exact h.trans (hfr j hj)
      · exact absurd h hjc
      · exact absurd (hsub j (List.mem_append_left _ h)) hj)
    fuel 0 s ⟨fun _ h => h, fun _ _ => rfl⟩
  exact key.2 b t (by rw [solveTrace_fst]; exact hret) i hi

theorem solve_keeps_givens_witness :
    solveFuel 3 twoBlankPuzzle = Outcome.done true ⟨exampleSolved, []⟩ ∧
      7 ∉ twoBlankPuzzle.emptyCells ∧ exampleSolved[7]? = twoBlankPuzzle.grid[7]? :=
  ⟨by decide, by decide,
    solve_keeps_givens 3 twoBlankPuzzle ⟨exampleSolved, []⟩ true (by decide) 7 (by decide)⟩

end P96

/-! ## Problem 92: the contract of `eval` -/

namespace P92

theorem digitSquareSum_zero : digitSquareSum 0 = 0 := by
  simp [digitSquareSum]

theorem digitSquareSum_pos {n : Nat} (h : 0 < n) :
    digitSquareSum n = (n % 10) * (n % 10) + digitSquareSum (n / 10) := by
  unfold digitSquareSum
  rw [Nat.digits_def' (by decide) h]
  simp

theorem digitLoop_eq : ∀ (fuel m next : Nat), m ≤ fuel →
    digitLoop fuel m next = next + digitSquareSum m := by
  intro fuel
  induction fuel with
  | zero =>
    intro m next h
    have : m = 0 := by omega
    subst this
    simp [digitLoop, digitSquareSum_zero]
  | succ fuel ih =>
    intro m next h
    simp only [digitLoop]
    split
    · rename_i hm
      rw [ih (m / 10) _ (by omega), digitSquareSum_pos hm]
      omega
    · have : m = 0 := by omega
      subst this
      simp [digitSquareSum_zero]

theorem nextValue_eq (n : Nat) : nextValue n = digitSquareSum n := by
  unfold nextValue
  rw [digitLoop_eq n n 0 (le_refl _)]
  omega

theorem digitSquareSum_pos_of_pos : ∀ n : Nat, 0 < n → 0 < digitSquareSum n := by
  intro n
  induction n using Nat.strong_induction_on with
  | _ n ih =>
    intro h
    rw [digitSquareSum_pos h]
    by_cases h0 : n % 10 = 0
    · have := ih (n / 10) (by omega) (by omega)
      omega
    · have : 0 < (n % 10) * (n % 10) := Nat.mul_pos (by omega) (by omega)
      omega

theorem digitSquareSum_le : ∀ (k n : Nat), n < 10 ^ k → digitSquareSum n ≤ 81 * k := by
  intro k
  induction k with
  | zero =>
    intro n h
    have : n = 0 := by simpa using h
    subst this
    simp [digitSquareSum_zero]
  | succ k ih =>
    intro n h
    by_cases hn : n = 0
    · subst hn
      simp [digitSquareSum_zero]
    · rw [digitSquareSum_pos (by omega)]
      have h1 : n / 10 < 10 ^ k := by
        rw [Nat.div_lt_iff_lt_mul (by decide)]
        rw [pow_succ] at h
        exact h
      have h2 := ih (n / 10) h1
      have h3 : n % 10 ≤ 9 := by omega
      have h4 : (n % 10) * (n % 10) ≤ 9 * 9 := Nat.mul_le_mul h3 h3
      omega

theorem nextValue_bounds {n : Nat} (h1 : 1 ≤ n) (h : n < logSize) :
    1 ≤ nextValue n ∧ nextValue n ≤ 567 := by
  rw [nextValue_eq]
  refine ⟨digitSquareSum_pos_of_pos n h1, ?_⟩
  have := digitSquareSum_le 7 n (by unfold logSize at h; omega)
  omega

set_option maxRecDepth 100000 in
theorem terminal_small : ∀ m, m < 568 → 1 ≤ m → (terminal 12 m).isSome = true := by
  decide

theorem terminal_isSome {n : Nat} (h1 : 1 ≤ n) (h : n < logSize) :
    (terminal 13 n).isSome = true := by
  unfold terminal
  by_cases h01 : n = 1
  · simp [h01]
  · by_cases h89 : n = 89
    · simp [h89]
    · simp only [h01, h89, if_false]
      obtain ⟨hlo, hhi⟩ := nextValue_bounds h1 h
      exact terminal_small _ (by omega) hlo

theorem firstReached_self {n : Nat} (h : n = 1 ∨ n = 89) : FirstReached n n :=
  ⟨0, rfl, h, fun j hj => absurd hj (Nat.not_lt_zero j)⟩

theorem firstReached_step {n v : Nat} (h1 : n ≠ 1) (h89 : n ≠ 89)
    (h : FirstReached (digitSquareSum n) v) : FirstReached n v := by
  obtain ⟨k, hk, hv, hfirst⟩ := h
  refine ⟨k + 1, by rw [Function.iterate_succ_apply]; exact hk, hv, fun j hj => ?_⟩
  cases j with
  | zero => exact ⟨h1, h89⟩
  | succ j =>
    rw [Function.iterate_succ_apply]
    exact hfirst j (by omega)

theorem cached_init : Cached initLog := by
  refine ⟨rfl, rfl, fun k hk => ?_⟩
  unfold initLog at hk ⊢
  by_cases h1 : k = 1
  · subst h1
    exact ⟨1, rfl, firstReached_self (Or.inl rfl)⟩
  · by_cases h89 : k = 89
    · subst h89
      exact ⟨89, rfl, firstReached_self (Or.inr rfl)⟩
    · simp [h1, h89] at hk

theorem eval_hit {fuel n : Nat} {log : Nat → Int} (hn : n < logSize) (hne : log n ≠ 0) :
    eval (fuel + 1) n log = EvalResult.done (log n) log := by
  simp only [eval, Nat.not_le.2 hn, if_false]
  rw [if_pos hne]

theorem eval_miss {fuel n : Nat} {log : Nat → Int} (hn : n < logSize) (hz : log n = 0) :
    eval (fuel + 1) n log =
      match eval fuel (nextValue n) log with
      | EvalResult.done v log1 =>
        EvalResult.done (Function.update log1 n v n) (Function.update log1 n v)
      | r => r := by
  simp only [eval, Nat.not_le.2 hn, if_false]
  rw [if_neg (by rw [hz]; exact fun h => h rfl)]

theorem not_terminal_of_miss {n : Nat} {log : Nat → Int} (hlog : Cached log) (hz : log n = 0) :
    n ≠ 1 ∧ n ≠ 89 := by
  constructor
  · rintro rfl
    rw [hlog.1] at hz
    exact absurd hz (by decide)
  · rintro rfl
    rw [hlog.2.1] at hz
    exact absurd hz (by decide)

/-- Partial correctness of `eval`: on a table that satisfies the invariant, a call that
returns gives the first of 1 and 89 reached from `n` and leaves a table that satisfies the
invariant. -/
theorem eval_sound : ∀ (fuel n : Nat) (log log1 : Nat → Int) (v : Int),
    Cached log → 1 ≤ n → n < logSize → eval fuel n log = EvalResult.done v log1 →
    Cached log1 ∧ ∃ w : Nat, v = (w : Int) ∧ FirstReached n w := by
  intro fuel
  induction fuel with
  | zero =>
    intro n log log1 v _ _ _ h
    simp [eval] at h
  | succ fuel ih =>
    intro n log log1 v hlog h1 hn h
    by_cases hne : log n ≠ 0
    · rw [eval_hit hn hne] at h
      simp only [EvalResult.done.injEq] at h
      obtain ⟨rfl, rfl⟩ := h
      exact ⟨hlog, hlog.2.2 n hne⟩
    · have hz : log n = 0 := by
        by_contra hcon
        exact hne hcon
      obtain ⟨hn1, hn89⟩ := not_terminal_of_miss hlog hz
      obtain ⟨hlo, hhi⟩ := nextValue_bounds h1 hn
      rw [eval_miss hn hz] at h
      cases hrec : eval fuel (nextValue n) log with
      | undefined => simp [hrec] at h
      | outOfFuel => simp [hrec] at h
      | done v1 log2 =>
        simp only [hrec, Function.update_same, EvalResult.done.injEq] at h
        obtain ⟨rfl, rfl⟩ := h
        obtain ⟨hlog2, w, rfl, hreach⟩ := ih (nextValue n) log log2 v1 hlog hlo
          (by unfold logSize; omega) hrec
        have hreachn : FirstReached n w := by
          rw [nextValue_eq] at hreach
          exact firstReached_step hn1 hn89 hreach
        refine ⟨⟨?_, ?_, fun k hk => ?_⟩, w, rfl, hreachn⟩
        · rw [Function.update_noteq (Ne.symm hn1)]; exact hlog2.1
        · rw [Function.update_noteq (Ne.symm hn89)]; exact hlog2.2.1
        · by_cases hkn : k = n
          · subst hkn
            exact ⟨w, Function.update_same _ _ _, hreachn⟩
          · rw [Function.update_noteq hkn] at hk ⊢
            exact hlog2.2.2 k hk

/-- Termination of `eval`: when the chain from `n` meets 1 or 89 within `f` steps, a call on
a table that satisfies the invariant returns under every depth bound above `f`. -/
theorem eval_total : ∀ (f n : Nat), (terminal f n).isSome = true → 1 ≤ n → n < logSize →
    ∀ (log : Nat → Int), Cached log → ∀ fuel, f < fuel →
      ∃ (v : Int) (log1 : Nat → Int), eval fuel n log = EvalResult.done v log1 := by
  intro f
  induction f with
  | zero =>
    intro n hterm h1 hn log hlog fuel hfuel
    obtain ⟨fuel, rfl⟩ : ∃ k, fuel = k + 1 := ⟨fuel - 1, by omega⟩
    have h189 : n = 1 ∨ n = 89 := by
      unfold terminal at hterm
      by_contra hne
      simp only [not_or] at hne
      simp [hne.1, hne.2] at hterm
    have hne : log n ≠ 0 := by
      rcases h189 with rfl | rfl
      · rw [hlog.1]; decide
      · rw [hlog.2.1]; decide
    exact ⟨log n, log, eval_hit hn hne⟩
  | succ f ih =>
    intro n hterm h1 hn log hlog fuel hfuel
    obtain ⟨fuel, rfl⟩ : ∃ k, fuel = k + 1 := ⟨fuel - 1, by omega⟩
    by_cases hne : log n ≠ 0
    · exact ⟨log n, log, eval_hit hn hne⟩
    · have hz : log n = 0 := by
        by_contra hcon
        exact hne hcon
      obtain ⟨hn1, hn89⟩ := not_terminal_of_miss hlog hz
      have hterm1 : (terminal f (nextValue n)).isSome = true := by
        unfold terminal at hterm
        simpa [hn1, hn89] using hterm
      obtain ⟨hlo, hhi⟩ := nextValue_bounds h1 hn
      obtain ⟨v, log1, hev⟩ := ih (nextValue n) hterm1 hlo
        (by unfold logSize; omega) log hlog fuel (by omega)
      rw [eval_miss hn hz, hev]
      exact ⟨_, _, rfl⟩

theorem cached_of_reachable {log : Nat → Int} (h : Reachable log) : Cached log := by
  induction h with
  | init => exact cached_init
  | step log log1 fuel n v _ h1 hn hev ih => exact (eval_sound fuel n log log1 v ih h1 hn hev).1

/-- Claim C12: for `1 <= n < 10000000` and a table that is the initial one (all 0 except
`log[1] = 1`, `log[89] = 89`) or one left by earlier calls of `eval`, the call `eval(n, log)`
terminates (under every depth bound from 14 on), never uses an index of `log` outside the
table, and returns 1 or 89, namely the first of 1 and 89 reached from `n` by repeatedly
taking the sum of the squares of the decimal digits. -/
theorem eval_contract (n : Nat) (log : Nat → Int) (h1 : 1 ≤ n) (hn : n < 10000000)
    (hlog : Reachable log) (fuel : Nat) (hfuel : 14 ≤ fuel) :
    ∃ (v : Nat) (log1 : Nat → Int), eval fuel n log = EvalResult.done (v : Int) log1 ∧
      (v = 1 ∨ v = 89) ∧ FirstReached n v := by
  have hc := cached_of_reachable hlog
  obtain ⟨v, log1, hev⟩ := eval_total 13 n (terminal_isSome h1 hn) h1 hn log hc fuel (by omega)
  obtain ⟨-, w, rfl, hreach⟩ := eval_sound fuel n log log1 v hc h1 hn hev
  obtain ⟨k, hk, hw, hfirst⟩ := hreach
  exact ⟨w, log1, hev, hw, k, hk, hw, hfirst⟩

theorem eval_contract_witness :
    Reachable initLog ∧
      ∃ (v : Nat) (log1 : Nat → Int), eval 14 44 initLog = EvalResult.done (v : Int) log1 ∧
        (v = 1 ∨ v = 89) ∧ FirstReached 44 v :=
  ⟨Reachable.init, eval_contract 44 initLog (by decide) (by decide) Reachable.init 14 (by decide)⟩

end P92

/-! ## Problem 93: the contract of `compute` and the safety of `trial` -/

namespace P93

theorem floor_le_roundEven (x : ℚ) : ⌊x⌋ ≤ roundEven x := by
  unfold roundEven
  split_ifs <;> omega

theorem roundEven_le_ceil (x : ℚ) : roundEven x ≤ ⌈x⌉ := by
  unfold roundEven
  by_cases hx : x = (⌊x⌋ : ℚ)
  · have h0 : x - ⌊x⌋ < 1 / 2 := by rw [← hx]; norm_num
    rw [if_pos h0]
    exact Int.floor_le_ceil x
  · have hlt : (⌊x⌋ : ℚ) < x := lt_of_le_of_ne (Int.floor_le x) (Ne.symm hx)
    have hc : ⌊x⌋ + 1 ≤ ⌈x⌉ := by
      have h2 : ⌊x⌋ < ⌈x⌉ := Int.lt_ceil.2 hlt
      omega
    split_ifs <;> omega

theorem le_roundEven {x : ℚ} {k : Int} (h : (k : ℚ) ≤ x) : k ≤ roundEven x :=
  le_trans (Int.le_floor.2 h) (floor_le_roundEven x)

theorem roundEven_le {x : ℚ} {k : Int} (h : x ≤ (k : ℚ)) : roundEven x ≤ k :=
  le_trans (roundEven_le_ceil x) (Int.ceil_le.2 h)

theorem roundEven_int (k : Int) : roundEven (k : ℚ) = k :=
  le_antisymm (roundEven_le (le_refl _)) (le_roundEven (le_refl _))

theorem log_spec {q : ℚ} (hq : 0 < q) :
    (2 : ℚ) ^ Int.log 2 q ≤ q ∧ q < (2 : ℚ) ^ (Int.log 2 q + 1) := by
  have h1 := Int.zpow_log_le_self (b := 2) (by norm_num) hq
  have h2 := Int.lt_zpow_succ_log_self (b := 2) (by norm_num) q
  exact ⟨by exact_mod_cast h1, by exact_mod_cast h2⟩

theorem two_zpow_pos (j : Int) : (0 : ℚ) < 2 ^ j := zpow_pos (by norm_num) j

/-- A multiple of `2 ^ j` is an integer multiple of `2 ^ i` for `i ≤ j`. -/
theorem multiple_of_le {i j : Int} (h : i ≤ j) (m : Int) :
    ∃ k : Int, (m : ℚ) * 2 ^ j = (k : ℚ) * 2 ^ i := by
  refine ⟨m * 2 ^ (j - i).toNat, ?_⟩
  have hj : j = ((j - i).toNat : Int) + i := by
    rw [Int.toNat_of_nonneg (by omega)]; ring
  conv_lhs => rw [hj, zpow_add₀ (by norm_num : (2 : ℚ) ≠ 0), zpow_natCast]
  push_cast
  ring

theorem isDouble_lt_zpow {m j : Int} (hm : |m| < 2 ^ 53) : (m : ℚ) * 2 ^ j < 2 ^ (53 + j) := by
  rw [zpow_add₀ (by norm_num : (2 : ℚ) ≠ 0)]
  have h1 : (m : ℚ) < 2 ^ (53 : Int) := by
    have : m < 2 ^ 53 := lt_of_le_of_lt (le_abs_self m) hm
    have h := (Int.cast_lt (R := ℚ)).2 this
    norm_num at h ⊢
    exact h
  exact mul_lt_mul_of_pos_right h1 (two_zpow_pos j)

theorem zpow_split (e : Int) : ((2 ^ 52 : Int) : ℚ) * 2 ^ (e - 52) = 2 ^ e := by
  rw [zpow_sub₀ (by norm_num : (2 : ℚ) ≠ 0)]
  norm_num
  field_simp

theorem roundPos_ge_zpow {q : ℚ} (hq : 0 < q) : (2 : ℚ) ^ Int.log 2 q ≤ roundPos q := by
  obtain ⟨h1, -⟩ := log_spec hq
  unfold roundPos
  have hu := two_zpow_pos (Int.log 2 q - 52)
  have h52 : ((2 ^ 52 : Int) : ℚ) ≤ q / 2 ^ (Int.log 2 q - 52) := by
    rw [le_div_iff₀ hu]
    rw [zpow_split]
    exact h1
  have h3 := le_roundEven h52
  have h4 : ((2 ^ 52 : Int) : ℚ) ≤ (roundEven (q / 2 ^ (Int.log 2 q - 52)) : ℚ) :=
    Int.cast_le.2 h3
  calc (2 : ℚ) ^ Int.log 2 q = ((2 ^ 52 : Int) : ℚ) * 2 ^ (Int.log 2 q - 52) :=
        (zpow_split _).symm
    _ ≤ _ := mul_le_mul_of_nonneg_right h4 hu.le

theorem roundPos_pos {q : ℚ} (hq : 0 < q) : 0 < roundPos q :=
  lt_of_lt_of_le (two_zpow_pos _) (roundPos_ge_zpow hq)

theorem roundPos_ge {q t : ℚ} (hq : 0 < q) (ht : IsDouble t) (h : t ≤ q) : t ≤ roundPos q := by
  obtain ⟨m, j, hm, rfl⟩ := ht
  by_cases hj : Int.log 2 q - 52 ≤ j
  · obtain ⟨k, hk⟩ := multiple_of_le hj m
    rw [hk] at h ⊢
    unfold roundPos
    have hu := two_zpow_pos (Int.log 2 q - 52)
    have h1 : (k : ℚ) ≤ q / 2 ^ (Int.log 2 q - 52) := (le_div_iff₀ hu).2 h
    exact mul_le_mul_of_nonneg_right (Int.cast_le.2 (le_roundEven h1)) hu.le
  · have h1 := isDouble_lt_zpow (j := j) hm
    have h2 : (2 : ℚ) ^ (53 + j) ≤ 2 ^ Int.log 2 q :=
      zpow_le_zpow_right₀ (by norm_num) (by omega)
    exact le_trans (le_trans h1.le h2) (roundPos_ge_zpow hq)

theorem roundPos_le {q t : ℚ} (hq : 0 < q) (ht : IsDouble t) (h : q ≤ t) : roundPos q ≤ t := by
  obtain ⟨m, j, hm, rfl⟩ := ht
  by_cases hj : Int.log 2 q - 52 ≤ j
  · obtain ⟨k, hk⟩ := multiple_of_le hj m
    rw [hk] at h ⊢
    unfold roundPos
    have hu := two_zpow_pos (Int.log 2 q - 52)
    have h1 : q / 2 ^ (Int.log 2 q - 52) ≤ (k : ℚ) := (div_le_iff₀ hu).2 h
    exact mul_le_mul_of_nonneg_right (Int.cast_le.2 (roundEven_le h1)) hu.le
  · exfalso
    have h1 := isDouble_lt_zpow (j := j) hm
    have h2 : (2 : ℚ) ^ (53 + j) ≤ 2 ^ Int.log 2 q :=
      zpow_le_zpow_right₀ (by norm_num) (by omega)
    have h3 := (log_spec hq).1
    linarith

theorem isDouble_neg {t : ℚ} (ht : IsDouble t) : IsDouble (-t) := by
  obtain ⟨m, j, hm, rfl⟩ := ht
  exact ⟨-m, j, by rwa [abs_neg], by push_cast; ring⟩

theorem isDouble_zero : IsDouble 0 := ⟨0, 0, by norm_num, by norm_num⟩

theorem round64_ge {q t : ℚ} (ht : IsDouble t) (h : t ≤ q) : t ≤ round64 q := by
  unfold round64
  split_ifs with h0 hpos
  · rw [h0] at h; exact h
  · exact roundPos_ge hpos ht h
  · have hneg : 0 < -q := by
      have : q < 0 := lt_of_le_of_ne (not_lt.1 hpos) h0
      linarith
    have := roundPos_le hneg (isDouble_neg ht) (by linarith)
    linarith

theorem round64_le {q t : ℚ} (ht : IsDouble t) (h : q ≤ t) : round64 q ≤ t := by
  unfold round64
  split_ifs with h0 hpos
  · rw [h0] at h; exact h
  · exact roundPos_le hpos ht h
  · have hneg : 0 < -q := by
      have : q < 0 := lt_of_le_of_ne (not_lt.1 hpos) h0
      linarith
    have := roundPos_ge hneg (isDouble_neg ht) (by linarith)
    linarith

theorem round64_double {t : ℚ} (ht : IsDouble t) : round64 t = t :=
  le_antisymm (round64_le ht (le_refl t)) (round64_ge ht (le_refl t))

theorem round64_neg (q : ℚ) : round64 (-q) = -round64 q := by
  unfold round64
  rcases lt_trichotomy q 0 with h | h | h
  · have h1 : ¬ q = 0 := ne_of_lt h
    have h2 : ¬ 0 < q := not_lt.2 h.le
    have h3 : ¬ -q = 0 := by intro h0; apply h1; linarith
    have h4 : 0 < -q := by linarith
    rw [if_neg h1, if_neg h2, if_neg h3, if_pos h4, neg_neg]
  · subst h
    simp
  · have h1 : ¬ q = 0 := ne_of_gt h
    have h3 : ¬ -q = 0 := by intro h0; apply h1; linarith
    have h4 : ¬ 0 < -q := by linarith
    rw [if_neg h1, if_pos h, if_neg h3, if_neg h4, neg_neg]

theorem rounding_round64 : Rounding round64 :=
  ⟨round64_neg, fun _ _ ht => ⟨round64_ge ht, round64_le ht⟩⟩

theorem rounding_id : Rounding id :=
  ⟨fun _ => rfl, fun _ _ _ => ⟨fun h => h, fun h => h⟩⟩

theorem isDouble_int {z : Int} (h : |z| < 2 ^ 53) : IsDouble (z : ℚ) :=
  ⟨z, 0, h, by simp⟩

theorem isDouble_nat {n : Nat} (h : n < 2 ^ 53) : IsDouble (n : ℚ) := by
  have := isDouble_int (z := (n : Int)) (by rw [abs_of_nonneg (by positivity)]; exact_mod_cast h)
  simpa using this

theorem isDouble_dyadic {z : Int} (k : Nat) (h : |z| < 2 ^ 53) :
    IsDouble ((z : ℚ) / 2 ^ k) :=
  ⟨z, -(k : Int), h, by rw [zpow_neg, zpow_natCast, div_eq_mul_inv]⟩

theorem rnd_double {rnd : ℚ → ℚ} (hR : Rounding rnd) {t : ℚ} (ht : IsDouble t) :
    rnd t = t :=
  le_antisymm ((hR.2 t t ht).2 (le_refl t)) ((hR.2 t t ht).1 (le_refl t))

theorem rnd_zero {rnd : ℚ → ℚ} (hR : Rounding rnd) : rnd 0 = 0 :=
  rnd_double hR isDouble_zero

theorem rnd_int {rnd : ℚ → ℚ} (hR : Rounding rnd) {z : Int} (h : |z| < 2 ^ 53) :
    rnd (z : ℚ) = z :=
  rnd_double hR (isDouble_int h)

theorem rnd_abs_le {rnd : ℚ → ℚ} (hR : Rounding rnd) {q t : ℚ} (ht : IsDouble t)
    (h : |q| ≤ t) : |rnd q| ≤ t := by
  rw [abs_le] at h ⊢
  exact ⟨(hR.2 (-t) q (isDouble_neg ht)).1 h.1, (hR.2 t q ht).2 h.2⟩

theorem rnd_abs_ge {rnd : ℚ → ℚ} (hR : Rounding rnd) {q t : ℚ} (ht : IsDouble t)
    (h : t ≤ |q|) : t ≤ |rnd q| := by
  rcases le_abs.1 h with h1 | h1
  · exact le_trans ((hR.2 t q ht).1 h1) (le_abs_self _)
  · have h2 : q ≤ -t := by linarith
    have h3 := (hR.2 (-t) q (isDouble_neg ht)).2 h2
    exact le_trans (by linarith) (neg_le_abs _)

theorem isDouble_inv_pow (k : Nat) : IsDouble ((1 : ℚ) / 2 ^ k) := by
  have := isDouble_dyadic (z := 1) k (by norm_num)
  simpa using this

theorem lgLoop_spec : ∀ (fuel d k : Nat), d ≤ fuel + k → d ≤ 2 ^ lgLoop fuel d k := by
  intro fuel
  induction fuel with
  | zero =>
    intro d k h
    simp only [lgLoop]
    exact le_trans (by omega) (Nat.lt_two_pow k).le
  | succ fuel ih =>
    intro d k h
    simp only [lgLoop]
    split_ifs with hd
    · exact hd
    · exact ih d (k + 1) (by omega)

theorem lg_spec (d : Nat) : d ≤ 2 ^ lg d := lgLoop_spec d d 0 (by omega)

theorem sat_guard {rnd : ℚ → ℚ} {a : Abs} {v : ℚ} {n : Nat}
    (h : n < 2 ^ 53 → Sat rnd a v) : Sat rnd (a.guard n) v := by
  unfold Abs.guard
  split_ifs with hn
  · exact h hn
  · exact trivial

theorem abs_div_int_le (P Q : Int) (hQ : Q ≠ 0) : |(P : ℚ) / (Q : ℚ)| ≤ |(P : ℚ)| := by
  rw [abs_div]
  have h1 : (1 : ℚ) ≤ |(Q : ℚ)| := by
    have : (1 : Int) ≤ |Q| := Int.one_le_abs hQ
    exact_mod_cast this
  exact div_le_self (abs_nonneg _) h1

theorem natCast_lt_pow {n : Nat} (h : n < 2 ^ 53) : ((n : Int) : Int) < 2 ^ 53 := by
  exact_mod_cast h

theorem sat_hi {rnd : ℚ → ℚ} (hR : Rounding rnd) {a : Abs} {v : ℚ} {h : Nat}
    (hs : Sat rnd a v) (ha : a.hi = some h) : h < 2 ^ 53 ∧ |v| ≤ (h : ℚ) := by
  cases a with
  | int n =>
    simp only [Abs.hi, Option.some.injEq] at ha
    subst ha
    obtain ⟨hn, z, rfl, hz⟩ := hs
    exact ⟨hn, by exact_mod_cast hz⟩
  | quot u d =>
    simp only [Abs.hi, Option.some.injEq] at ha
    subst ha
    obtain ⟨hn, P, Q, hQ, hP, -, rfl⟩ := hs
    refine ⟨hn, rnd_abs_le hR (isDouble_nat hn) ?_⟩
    refine le_trans (abs_div_int_le P Q hQ) ?_
    exact_mod_cast hP
  | gen hi k =>
    simp only [Abs.hi, Option.some.injEq] at ha
    subst ha
    exact ⟨hs.1, hs.2.1⟩
  | mag hi =>
    simp only [Abs.hi, Option.some.injEq] at ha
    subst ha
    exact ⟨hs.1, hs.2⟩
  | top => simp [Abs.hi] at ha

theorem one_div_pow_pos (k : Nat) : (0 : ℚ) < 1 / 2 ^ k := by positivity

theorem sat_lo {rnd : ℚ → ℚ} (hR : Rounding rnd) {a : Abs} {v : ℚ} {k : Nat}
    (hs : Sat rnd a v) (ha : a.lo = some k) : v = 0 ∨ 1 / 2 ^ k ≤ |v| := by
  cases a with
  | int n =>
    simp only [Abs.lo, Option.some.injEq] at ha
    subst ha
    obtain ⟨-, z, rfl, -⟩ := hs
    by_cases hz : z = 0
    · left; simp [hz]
    · right
      have : (1 : Int) ≤ |z| := Int.one_le_abs hz
      have h2 : (1 : ℚ) ≤ |(z : ℚ)| := by exact_mod_cast this
      simpa using h2
  | quot u d =>
    simp only [Abs.lo, Option.some.injEq] at ha
    subst ha
    obtain ⟨-, P, Q, hQ, -, hQd, rfl⟩ := hs
    by_cases hP : P = 0
    · left
      rw [hP]
      simp [rnd_zero hR]
    · right
      apply rnd_abs_ge hR (isDouble_inv_pow _)
      rw [abs_div]
      have h1 : (1 : ℚ) ≤ |(P : ℚ)| := by
        have : (1 : Int) ≤ |P| := Int.one_le_abs hP
        exact_mod_cast this
      have h2 : (0 : ℚ) < |(Q : ℚ)| := abs_pos.2 (by exact_mod_cast hQ)
      have h3 : |(Q : ℚ)| ≤ 2 ^ lg d := by
        have h4 : |(Q : ℚ)| ≤ (d : ℚ) := by exact_mod_cast hQd
        have h5 : ((d : Nat) : ℚ) ≤ 2 ^ lg d := by exact_mod_cast lg_spec d
        exact le_trans h4 h5
      calc (1 : ℚ) / 2 ^ lg d ≤ 1 / |(Q : ℚ)| := one_div_le_one_div_of_le h2 h3
        _ ≤ |(P : ℚ)| / |(Q : ℚ)| := div_le_div_of_nonneg_right h1 h2.le
  | gen hi k0 =>
    simp only [Abs.lo, Option.some.injEq] at ha
    subst ha
    exact hs.2.2
  | mag hi => simp [Abs.lo] at ha
  | top => simp [Abs.lo] at ha

theorem sat_neg {rnd : ℚ → ℚ} (hR : Rounding rnd) {a : Abs} {v : ℚ} (hs : Sat rnd a v) :
    Sat rnd a (-v) := by
  cases a with
  | int n =>
    obtain ⟨hn, z, rfl, hz⟩ := hs
    exact ⟨hn, -z, by push_cast; ring, by rwa [abs_neg]⟩
  | quot u d =>
    obtain ⟨hn, P, Q, hQ, hP, hQd, rfl⟩ := hs
    refine ⟨hn, -P, Q, hQ, by rwa [abs_neg], hQd, ?_⟩
    rw [← hR.1]
    congr 1
    push_cast
    ring
  | gen hi k =>
    obtain ⟨hn, h1, h2⟩ := hs
    refine ⟨hn, by rwa [abs_neg], ?_⟩
    rcases h2 with h2 | h2
    · left; rw [h2]; simp
    · right; rwa [abs_neg]
  | mag hi => exact ⟨hs.1, by rw [abs_neg]; exact hs.2⟩
  | top => exact trivial

theorem sat_addGen {rnd : ℚ → ℚ} (hR : Rounding rnd) {a b : Abs} {l r : ℚ}
    (hl : Sat rnd a l) (hr : Sat rnd b r) : Sat rnd (absAddGen a b) (rnd (l + r)) := by
  unfold absAddGen
  cases ha : a.hi with
  | none => exact trivial
  | some h1 =>
    cases hb : b.hi with
    | none => exact trivial
    | some h2 =>
      apply sat_guard
      intro hn
      refine ⟨hn, ?_⟩
      have h := rnd_abs_le hR (isDouble_nat hn) (q := l + r) ?_
      · exact h
      · push_cast
        exact le_trans (abs_add l r) (add_le_add (sat_hi hR hl ha).2 (sat_hi hR hr hb).2)

/-- Adding an integer to a rounded quotient of integers gives 0 or a number that is not
small: the cancellation is exact. -/
theorem quot_add_int {rnd : ℚ → ℚ} (hR : Rounding rnd) {u d n : Nat} {P Q s : Int}
    (hQ : Q ≠ 0) (hP : |P| ≤ (u : Int)) (hQd : |Q| ≤ (d : Int)) (hs : |s| ≤ (n : Int))
    (hg : (u + n + 1) * 2 ^ lg d < 2 ^ 53) :
    |rnd ((P : ℚ) / (Q : ℚ)) + (s : ℚ)| ≤ ((u + n : Nat) : ℚ) ∧
      (rnd ((P : ℚ) / (Q : ℚ)) + (s : ℚ) = 0 ∨
        1 / 2 ^ lg d ≤ |rnd ((P : ℚ) / (Q : ℚ)) + (s : ℚ)|) := by
  have hpow : 1 ≤ 2 ^ lg d := Nat.one_le_two_pow
  have hu : u < 2 ^ 53 := by nlinarith
  have hn : n < 2 ^ 53 := by nlinarith
  have hq : |rnd ((P : ℚ) / (Q : ℚ))| ≤ (u : ℚ) := by
    refine rnd_abs_le hR (isDouble_nat hu) (le_trans (abs_div_int_le P Q hQ) ?_)
    exact_mod_cast hP
  have hsq : |(s : ℚ)| ≤ (n : ℚ) := by exact_mod_cast hs
  have hQ0 : (Q : ℚ) ≠ 0 := by exact_mod_cast hQ
  have hK : (0 : ℚ) < 2 ^ lg d := by positivity
  constructor
  · push_cast
    exact le_trans (abs_add _ _) (add_le_add hq hsq)
  · by_cases h0 : P + s * Q = 0
    · left
      have hx : (P : ℚ) / (Q : ℚ) = ((-s : Int) : ℚ) := by
        rw [div_eq_iff hQ0]
        have : P = -s * Q := by linarith
        rw [this]
        push_cast
        ring
      rw [hx, rnd_int hR (by rw [abs_neg]; exact lt_of_le_of_lt hs (natCast_lt_pow hn))]
      push_cast
      ring
    · right
      have hsum : (P : ℚ) / (Q : ℚ) + (s : ℚ) = ((P + s * Q : Int) : ℚ) / (Q : ℚ) := by
        push_cast
        field_simp
      have habs : 1 / 2 ^ lg d ≤ |(P : ℚ) / (Q : ℚ) + (s : ℚ)| := by
        rw [hsum, abs_div]
        have h1 : (1 : ℚ) ≤ |((P + s * Q : Int) : ℚ)| := by
          have : (1 : Int) ≤ |P + s * Q| := Int.one_le_abs h0
          exact_mod_cast this
        have h2 : (0 : ℚ) < |(Q : ℚ)| := abs_pos.2 hQ0
        have h3 : |(Q : ℚ)| ≤ 2 ^ lg d := by
          have h4 : |(Q : ℚ)| ≤ (d : ℚ) := by exact_mod_cast hQd
          have h5 : ((d : Nat) : ℚ) ≤ 2 ^ lg d := by exact_mod_cast lg_spec d
          exact le_trans h4 h5
        calc (1 : ℚ) / 2 ^ lg d ≤ 1 / |(Q : ℚ)| := one_div_le_one_div_of_le h2 h3
          _ ≤ _ := div_le_div_of_nonneg_right h1 h2.le
      have hsK : |s * 2 ^ lg d| ≤ (n : Int) * 2 ^ lg d := by
        rw [abs_mul, abs_of_nonneg (show (0 : Int) ≤ 2 ^ lg d by positivity)]
        exact mul_le_mul_of_nonneg_right hs (by positivity)
      have hgz : ((u : Int) + n + 1) * 2 ^ lg d < 2 ^ 53 := by exact_mod_cast hg
      have hpowz : (1 : Int) ≤ 2 ^ lg d := by exact_mod_cast hpow
      rcases le_abs.1 habs with h1 | h1
      · have ht : IsDouble (((1 - s * 2 ^ lg d : Int) : ℚ) / 2 ^ lg d) := by
          apply isDouble_dyadic
          have := abs_sub (1 : Int) (s * 2 ^ lg d)
          rw [abs_one] at this
          nlinarith [abs_nonneg P, abs_nonneg s]
        have h3 : ((1 - s * 2 ^ lg d : Int) : ℚ) / 2 ^ lg d = 1 / 2 ^ lg d - (s : ℚ) := by
          push_cast
          field_simp
          ring
        have hle : ((1 - s * 2 ^ lg d : Int) : ℚ) / 2 ^ lg d ≤ (P : ℚ) / (Q : ℚ) := by
          rw [h3]
          linarith
        have h2 := (hR.2 _ _ ht).1 hle
        rw [h3] at h2
        exact le_trans (by linarith) (le_abs_self _)
      · have ht : IsDouble (((-1 - s * 2 ^ lg d : Int) : ℚ) / 2 ^ lg d) := by
          apply isDouble_dyadic
          have := abs_sub (-1 : Int) (s * 2 ^ lg d)
          rw [abs_neg, abs_one] at this
          nlinarith [abs_nonneg P, abs_nonneg s]
        have h3 : ((-1 - s * 2 ^ lg d : Int) : ℚ) / 2 ^ lg d = -(1 / 2 ^ lg d) - (s : ℚ) := by
          push_cast
          field_simp
          ring
        have hle : (P : ℚ) / (Q : ℚ) ≤ ((-1 - s * 2 ^ lg d : Int) : ℚ) / 2 ^ lg d := by
          rw [h3]
          linarith
        have h2 := (hR.2 _ _ ht).2 hle
        rw [h3] at h2
        exact le_trans (by linarith) (neg_le_abs _)

theorem sat_quot_add_int {rnd : ℚ → ℚ} (hR : Rounding rnd) {u d n : Nat} {l r : ℚ}
    (hl : Sat rnd (Abs.quot u d) l) (hr : Sat rnd (Abs.int n) r) :
    Sat rnd ((Abs.gen (u + n) (lg d)).guard ((u + n + 1) * 2 ^ lg d)) (rnd (l + r)) := by
  apply sat_guard
  intro hg
  obtain ⟨-, P, Q, hQ, hP, hQd, rfl⟩ := hl
  obtain ⟨-, s, rfl, hs⟩ := hr
  have hn : u + n < 2 ^ 53 := by
    have hpow : 1 ≤ 2 ^ lg d := Nat.one_le_two_pow
    nlinarith
  obtain ⟨h1, h2⟩ := quot_add_int hR hQ hP hQd hs hg
  refine ⟨hn, rnd_abs_le hR (isDouble_nat hn) h1, ?_⟩
  rcases h2 with h2 | h2
  · left; rw [h2, rnd_zero hR]
  · right; exact rnd_abs_ge hR (isDouble_inv_pow _) h2

theorem sat_add {rnd : ℚ → ℚ} (hR : Rounding rnd) {a b : Abs} {l r : ℚ}
    (hl : Sat rnd a l) (hr : Sat rnd b r) : Sat rnd (absAdd a b) (rnd (l + r)) := by
  cases a with
  | int n1 =>
    cases b with
    | int n2 =>
      apply sat_guard
      intro hn
      obtain ⟨-, z1, rfl, hz1⟩ := hl
      obtain ⟨-, z2, rfl, hz2⟩ := hr
      have hz : |z1 + z2| ≤ ((n1 + n2 : Nat) : Int) := by
        push_cast
        exact le_trans (abs_add z1 z2) (add_le_add hz1 hz2)
      refine ⟨hn, z1 + z2, ?_, hz⟩
      have h := rnd_int hR (lt_of_le_of_lt hz (natCast_lt_pow hn))
      rw [← h]
      push_cast
      rfl
    | quot u d =>
      rw [add_comm l r]
      exact sat_quot_add_int hR hr hl
    | gen hi k => exact sat_addGen hR hl hr
    | mag hi => exact sat_addGen hR hl hr
    | top => exact sat_addGen hR hl hr
  | quot u d =>
    cases b with
    | int n => exact sat_quot_add_int hR hl hr
    | quot u2 d2 => exact sat_addGen hR hl hr
    | gen hi k => exact sat_addGen hR hl hr
    | mag hi => exact sat_addGen hR hl hr
    | top => exact sat_addGen hR hl hr
  | gen hi k => cases b <;> exact sat_addGen hR hl hr
  | mag hi => cases b <;> exact sat_addGen hR hl hr
  | top => cases b <;> exact sat_addGen hR hl hr

theorem sat_mulGen {rnd : ℚ → ℚ} (hR : Rounding rnd) {a b : Abs} {l r : ℚ}
    (hl : Sat rnd a l) (hr : Sat rnd b r) : Sat rnd (absMulGen a b) (rnd (l * r)) := by
  unfold absMulGen
  cases ha : a.hi with
  | none => exact trivial
  | some h1 =>
    cases hb : b.hi with
    | none => exact trivial
    | some h2 =>
      have hhi : ∀ hn : h1 * h2 < 2 ^ 53, |rnd (l * r)| ≤ ((h1 * h2 : Nat) : ℚ) := by
        intro hn
        refine rnd_abs_le hR (isDouble_nat hn) ?_
        rw [abs_mul]
        push_cast
        exact mul_le_mul (sat_hi hR hl ha).2 (sat_hi hR hr hb).2 (abs_nonneg _)
          (by positivity)
      cases hla : a.lo with
      | none => exact sat_guard fun hn => ⟨hn, hhi hn⟩
      | some k1 =>
        cases hlb : b.lo with
        | none => exact sat_guard fun hn => ⟨hn, hhi hn⟩
        | some k2 =>
          refine sat_guard fun hn => ⟨hn, hhi hn, ?_⟩
          rcases sat_lo hR hl hla with h0 | h1l
          · left; rw [h0, zero_mul, rnd_zero hR]
          · rcases sat_lo hR hr hlb with h0 | h1r
            · left; rw [h0, mul_zero, rnd_zero hR]
            · right
              have ht : IsDouble ((1 : ℚ) / 2 ^ (k1 + k2)) := isDouble_inv_pow _
              refine rnd_abs_ge hR ht ?_
              rw [abs_mul, pow_add]
              have : (1 : ℚ) / (2 ^ k1 * 2 ^ k2) = 1 / 2 ^ k1 * (1 / 2 ^ k2) := by
                field_simp
              rw [this]
              exact mul_le_mul h1l h1r (one_div_pow_pos k2).le (abs_nonneg _)

theorem sat_mul {rnd : ℚ → ℚ} (hR : Rounding rnd) {a b : Abs} {l r : ℚ}
    (hl : Sat rnd a l) (hr : Sat rnd b r) : Sat rnd (absMul a b) (rnd (l * r)) := by
  cases a with
  | int n1 =>
    cases b with
    | int n2 =>
      apply sat_guard
      intro hn
      obtain ⟨-, z1, rfl, hz1⟩ := hl
      obtain ⟨-, z2, rfl, hz2⟩ := hr
      have hz : |z1 * z2| ≤ ((n1 * n2 : Nat) : Int) := by
        push_cast
        rw [abs_mul]
        exact mul_le_mul hz1 hz2 (abs_nonneg _) (by positivity)
      refine ⟨hn, z1 * z2, ?_, hz⟩
      have h := rnd_int hR (lt_of_le_of_lt hz (natCast_lt_pow hn))
      rw [← h]
      push_cast
      rfl
    | quot u d => exact sat_mulGen hR hl hr
    | gen hi k => exact sat_mulGen hR hl hr
    | mag hi => exact sat_mulGen hR hl hr
    | top => exact sat_mulGen hR hl hr
  | quot u d => cases b <;> exact sat_mulGen hR hl hr
  | gen hi k => cases b <;> exact sat_mulGen hR hl hr
  | mag hi => cases b <;> exact sat_mulGen hR hl hr
  | top => cases b <;> exact sat_mulGen hR hl hr

theorem sat_divGen {rnd : ℚ → ℚ} (hR : Rounding rnd) {a b : Abs} {l r : ℚ}
    (hl : Sat rnd a l) (hr : Sat rnd b r) (hr0 : r ≠ 0) :
    Sat rnd (absDivGen a b) (rnd (l / r)) := by
  unfold absDivGen
  cases ha : a.hi with
  | none => exact trivial
  | some h1 =>
    cases hlb : b.lo with
    | none => exact trivial
    | some k2 =>
      have hrlo : 1 / 2 ^ k2 ≤ |r| := by
        rcases sat_lo hR hr hlb with h0 | h
        · exact absurd h0 hr0
        · exact h
      have hrpos : 0 < |r| := abs_pos.2 hr0
      have hhi : ∀ hn : h1 * 2 ^ k2 < 2 ^ 53, |rnd (l / r)| ≤ ((h1 * 2 ^ k2 : Nat) : ℚ) := by
        intro hn
        refine rnd_abs_le hR (isDouble_nat hn) ?_
        rw [abs_div, div_le_iff₀ hrpos]
        push_cast
        have h2 : (1 : ℚ) ≤ 2 ^ k2 * |r| := by
          have := (div_le_iff₀ (by positivity : (0 : ℚ) < 2 ^ k2)).1 hrlo
          linarith
        have h3 := (sat_hi hR hl ha).2
        have h4 : (0 : ℚ) ≤ (h1 : ℚ) := by positivity
        nlinarith [abs_nonneg l]
      cases hla : a.lo with
      | none => exact sat_guard fun hn => ⟨hn, hhi hn⟩
      | some k1 =>
        cases hb : b.hi with
        | none => exact sat_guard fun hn => ⟨hn, hhi hn⟩
        | some h2 =>
          refine sat_guard fun hn => ⟨hn, hhi hn, ?_⟩
          rcases sat_lo hR hl hla with h0 | h1l
          · left; rw [h0, zero_div, rnd_zero hR]
          · right
            refine rnd_abs_ge hR (isDouble_inv_pow _) ?_
            rw [abs_div, le_div_iff₀ hrpos, pow_add]
            have hr2 : |r| ≤ 2 ^ lg h2 := by
              have h5 : ((h2 : Nat) : ℚ) ≤ 2 ^ lg h2 := by exact_mod_cast lg_spec h2
              exact le_trans (sat_hi hR hr hb).2 h5
            have hp1 : (0 : ℚ) < 2 ^ k1 := by positivity
            have hp2 : (0 : ℚ) < 2 ^ lg h2 := by positivity
            calc 1 / (2 ^ k1 * 2 ^ lg h2) * |r| ≤ 1 / (2 ^ k1 * 2 ^ lg h2) * 2 ^ lg h2 :=
                  mul_le_mul_of_nonneg_left hr2 (by positivity)
              _ = 1 / 2 ^ k1 := by field_simp; ring
              _ ≤ |l| := h1l

theorem sat_div {rnd : ℚ → ℚ} (hR : Rounding rnd) {a b : Abs} {l r : ℚ}
    (hl : Sat rnd a l) (hr : Sat rnd b r) (hr0 : r ≠ 0) :
    Sat rnd (absDiv a b) (rnd (l / r)) := by
  cases a with
  | int n1 =>
    cases b with
    | int n2 =>
      apply sat_guard
      intro hn
      obtain ⟨-, z1, rfl, hz1⟩ := hl
      obtain ⟨-, z2, rfl, hz2⟩ := hr
      exact ⟨hn, z1, z2, by exact_mod_cast hr0, hz1, hz2, rfl⟩
    | quot u d => exact sat_divGen hR hl hr hr0
    | gen hi k => exact sat_divGen hR hl hr hr0
    | mag hi => exact sat_divGen hR hl hr hr0
    | top => exact sat_divGen hR hl hr hr0
  | quot u d => cases b <;> exact sat_divGen hR hl hr hr0
  | gen hi k => cases b <;> exact sat_divGen hR hl hr hr0
  | mag hi => cases b <;> exact sat_divGen hR hl hr hr0
  | top => cases b <;> exact sat_divGen hR hl hr hr0

theorem sat_applyOp {rnd : ℚ → ℚ} (hR : Rounding rnd) {a b : Abs} {l r v : ℚ} {op : Op}
    (hl : Sat rnd a l) (hr : Sat rnd b r) (hv : applyOp rnd op l r = some v) :
    Sat rnd (absOp op a b) v := by
  cases op with
  | PLUS =>
    simp only [applyOp, Option.some.injEq] at hv
    subst hv
    exact sat_add hR hl hr
  | MINUS =>
    simp only [applyOp, Option.some.injEq] at hv
    subst hv
    rw [sub_eq_add_neg]
    exact sat_add hR hl (sat_neg hR hr)
  | TIMES =>
    simp only [applyOp, Option.some.injEq] at hv
    subst hv
    exact sat_mul hR hl hr
  | DIVIDE =>
    simp only [applyOp] at hv
    split_ifs at hv with h0
    simp only [Option.some.injEq] at hv
    subst hv
    exact sat_div hR hl hr h0

/-- The abstract value of an expression is right about every value of the expression. -/
theorem sat_eval {rnd : ℚ → ℚ} (hR : Rounding rnd) {n : Nat} (hn : n < 2 ^ 53) :
    ∀ (e : Expr), e.LeavesLe n → ∀ v, e.eval rnd = some v → Sat rnd (e.abs n) v := by
  intro e
  induction e with
  | num x =>
    intro hle v hv
    simp only [Expr.eval, Option.some.injEq] at hv
    subst hv
    obtain ⟨z, hz, hzn⟩ := hle
    exact ⟨hn, z, hz, hzn⟩
  | bin op l r ihl ihr =>
    intro hle v hv
    simp only [Expr.eval] at hv
    cases hl : l.eval rnd with
    | none => rw [hl] at hv; simp at hv
    | some x =>
      cases hr : r.eval rnd with
      | none => rw [hl, hr] at hv; simp at hv
      | some y =>
        rw [hl, hr] at hv
        exact sat_applyOp hR (ihl hle.1 x hl) (ihr hle.2 y hr) hv

theorem eval_bin (rnd : ℚ → ℚ) (op : Op) (l r : Expr) :
    (Expr.bin op l r).eval rnd =
      (l.eval rnd).bind fun x => (r.eval rnd).bind fun y => applyOp rnd op x y := by
  simp only [Expr.eval]
  cases l.eval rnd with
  | none => rfl
  | some x =>
    cases r.eval rnd with
    | none => rfl
    | some y => rfl

theorem eval_num (rnd : ℚ → ℚ) (x : ℚ) : (Expr.num x).eval rnd = some x := rfl

theorem operate_eq (l r : ℚ) (op : Op) : operate l r op = applyOp round64 op l r := by
  cases op with
  | PLUS => rfl
  | MINUS => rfl
  | TIMES => rfl
  | DIVIDE =>
    simp only [operate, applyOp]
    by_cases hr : r = 0
    · simp [hr]
    · simp [hr]

/-- The `try` block of `compute` computes the value of the parenthesised expression in
`double` arithmetic. -/
theorem tryBlock_eq_rounded (nums : Fin 4 → Int) (ops : Fin 3 → Op) (p : Prec) :
    tryBlock nums ops p = (exprOf nums ops p).rounded := by
  cases p <;>
    simp only [tryBlock, exprOf, Expr.rounded, eval_bin, eval_num, operate_eq,
      Option.some_bind, Option.bind_assoc]

/-- The test `val == (int)val && val > 0` of `compute` holds exactly for the positive
integers, and then `(int)val` is `val`. -/
theorem truncate_test (val : ℚ) :
    (val = (truncate val : ℚ) ∧ val > 0) ↔ (IsIntegral val ∧ 0 < val) := by
  constructor
  · rintro ⟨h, hpos⟩
    exact ⟨⟨truncate val, h⟩, hpos⟩
  · rintro ⟨⟨z, rfl⟩, hpos⟩
    refine ⟨?_, hpos⟩
    unfold truncate
    rw [if_pos (le_of_lt hpos), Int.floor_intCast]

/-- What `compute` returns, in terms of the value of the expression in `double`
arithmetic. -/
theorem compute_spec (nums : Fin 4 → Int) (ops : Fin 3 → Op) (p : Prec) :
    ((exprOf nums ops p).rounded = none ∧ compute nums ops p = 0) ∨
    (∃ v, (exprOf nums ops p).rounded = some v ∧ IsIntegral v ∧ 0 < v ∧
      (compute nums ops p : ℚ) = v ∧ 0 < compute nums ops p) ∨
    (∃ v, (exprOf nums ops p).rounded = some v ∧ (¬ IsIntegral v ∨ v ≤ 0) ∧
      compute nums ops p = 0) := by
  unfold compute
  rw [tryBlock_eq_rounded]
  cases hv : (exprOf nums ops p).rounded with
  | none => exact Or.inl ⟨rfl, rfl⟩
  | some v =>
    right
    simp only
    by_cases htest : v = (truncate v : ℚ) ∧ v > 0
    · left
      rw [if_pos htest]
      have h2 := (truncate_test v).1 htest
      refine ⟨v, rfl, h2.1, h2.2, htest.1.symm, ?_⟩
      have : (0 : ℚ) < (truncate v : ℚ) := htest.1 ▸ htest.2
      exact_mod_cast this
    · right
      rw [if_neg htest]
      refine ⟨v, rfl, ?_, rfl⟩
      by_contra hcon
      simp only [not_or, not_not, not_le] at hcon
      exact htest ((truncate_test v).2 hcon)

theorem leavesLe_exprOf (nums : Fin 4 → Int) (ops : Fin 3 → Op) (p : Prec)
    (hdig : ∀ i, 0 ≤ nums i ∧ nums i ≤ 9) : (exprOf nums ops p).LeavesLe 9 := by
  have leaf : ∀ i, ∃ z : Int, ((nums i : Int) : ℚ) = (z : ℚ) ∧ |z| ≤ ((9 : Nat) : Int) :=
    fun i => ⟨nums i, rfl, by
      have := hdig i
      rw [abs_le]
      constructor <;> push_cast <;> omega⟩
  cases p <;> simp only [exprOf, Expr.LeavesLe, and_assoc] <;>
    exact ⟨leaf _, leaf _, leaf _, leaf _⟩

theorem abs_exprOf (nums : Fin 4 → Int) (ops : Fin 3 → Op) (p : Prec) :
    (exprOf nums ops p).abs 9 = absOf (ops 0) (ops 1) (ops 2) p := by
  cases p <;> rfl

set_option maxRecDepth 100000 in
theorem absCheck_true : absCheck = true := by decide

theorem mem_allOps (o : Op) : o ∈ allOps := by
  cases o <;> simp [allOps]

theorem mem_allPrecs (p : Prec) : p ∈ allPrecs := by
  cases p <;> simp [allPrecs]

theorem absCheck_spec (o0 o1 o2 : Op) (p : Prec)
    (hnp : ¬ (o0 = Op.TIMES ∧ o1 = Op.TIMES ∧ o2 = Op.TIMES)) :
    ∃ h, (absOf o0 o1 o2 p).hi = some h ∧ h ≤ 3022 := by
  have h := absCheck_true
  simp only [absCheck, List.all_eq_true, Bool.or_eq_true, decide_eq_true_eq] at h
  rcases h o0 (mem_allOps o0) o1 (mem_allOps o1) o2 (mem_allOps o2) p (mem_allPrecs p)
    with h | h
  · exact absurd h hnp
  · cases hh : (absOf o0 o1 o2 p).hi with
    | none => rw [hh] at h; simp at h
    | some b =>
      rw [hh] at h
      exact ⟨b, rfl, by simpa using h⟩

/-- Unless the three operations are multiplications, every value of an expression over
digits is at most 3022 in absolute value, whatever the rounding. -/
theorem eval_nonpure_le {rnd : ℚ → ℚ} (hR : Rounding rnd) (nums : Fin 4 → Int)
    (ops : Fin 3 → Op) (p : Prec) (hdig : ∀ i, 0 ≤ nums i ∧ nums i ≤ 9)
    (hnp : ¬ (ops 0 = Op.TIMES ∧ ops 1 = Op.TIMES ∧ ops 2 = Op.TIMES)) {v : ℚ}
    (hv : (exprOf nums ops p).eval rnd = some v) : |v| ≤ 3022 := by
  have hs := sat_eval hR (by norm_num : 9 < 2 ^ 53) _ (leavesLe_exprOf nums ops p hdig) v hv
  rw [abs_exprOf] at hs
  obtain ⟨h, hh, hle⟩ := absCheck_spec (ops 0) (ops 1) (ops 2) p hnp
  have h2 := (sat_hi hR hs hh).2
  have h3 : (h : ℚ) ≤ 3022 := by exact_mod_cast hle
  exact le_trans h2 h3

theorem applyOp_exact {rnd : ℚ → ℚ} (hR : Rounding rnd) {op : Op} {zx zy : Int} {A B : Nat}
    (hx : |zx| ≤ (A : Int)) (hy : |zy| ≤ (B : Int)) (hb : A * B + A + B < 2 ^ 53)
    (hint : ∀ v, applyOp id op (zx : ℚ) (zy : ℚ) = some v → IsIntegral v) :
    applyOp rnd op (zx : ℚ) (zy : ℚ) = applyOp id op (zx : ℚ) (zy : ℚ) ∧
      ∀ v, applyOp id op (zx : ℚ) (zy : ℚ) = some v →
        ∃ z : Int, v = (z : ℚ) ∧ |z| ≤ ((A * B + A + B : Nat) : Int) := by
  have hbz : ((A * B + A + B : Nat) : Int) < 2 ^ 53 := by exact_mod_cast hb
  have key : ∀ w : Int, |w| ≤ ((A * B + A + B : Nat) : Int) → ∀ q : ℚ, q = (w : ℚ) →
      (some (rnd q) = some (id q)) ∧
        ∀ v, some (id q) = some v → ∃ z : Int, v = (z : ℚ) ∧
          |z| ≤ ((A * B + A + B : Nat) : Int) := by
    intro w hw q hq
    subst hq
    refine ⟨by rw [rnd_int hR (lt_of_le_of_lt hw hbz)]; rfl, ?_⟩
    intro v hv
    simp only [id, Option.some.injEq] at hv
    exact ⟨w, hv.symm, hw⟩
  have hA := abs_nonneg zx
  have hB := abs_nonneg zy
  cases op with
  | PLUS =>
    simp only [applyOp]
    refine key (zx + zy) ?_ _ (by push_cast; rfl)
    have := abs_add zx zy
    push_cast
    nlinarith
  | MINUS =>
    simp only [applyOp]
    refine key (zx - zy) ?_ _ (by push_cast; rfl)
    have := abs_sub zx zy
    push_cast
    nlinarith
  | TIMES =>
    simp only [applyOp]
    refine key (zx * zy) ?_ _ (by push_cast; rfl)
    rw [abs_mul]
    push_cast
    nlinarith
  | DIVIDE =>
    by_cases hy0 : (zy : ℚ) = 0
    · simp [applyOp, hy0]
    · simp only [applyOp, if_neg hy0]
      obtain ⟨w, hw⟩ := hint ((zx : ℚ) / (zy : ℚ)) (by simp [applyOp, hy0])
      refine key w ?_ _ hw
      have hzy : zy ≠ 0 := by exact_mod_cast hy0
      have h1 : zx = w * zy := by
        have : (zx : ℚ) = (w : ℚ) * (zy : ℚ) := by
          rw [← hw]
          field_simp
        exact_mod_cast this
      have h2 : (1 : Int) ≤ |zy| := Int.one_le_abs hzy
      have h3 : |zx| = |w| * |zy| := by rw [h1, abs_mul]
      have hw0 := abs_nonneg w
      push_cast
      nlinarith

/-- When the exact value of every sub-expression is an integer, rounding changes nothing:
the expression has its exact value under every rounding. -/
theorem eval_exact {rnd : ℚ → ℚ} (hR : Rounding rnd) {n : Nat} :
    ∀ (e : Expr), e.LeavesLe n → e.IntegralSteps → e.magBound n < 2 ^ 53 →
      e.eval rnd = e.value ∧
        ∀ v, e.value = some v → ∃ z : Int, v = (z : ℚ) ∧ |z| ≤ (e.magBound n : Int) := by
  intro e
  induction e with
  | num x =>
    intro hle _ _
    refine ⟨rfl, ?_⟩
    intro v hv
    simp only [Expr.value, Expr.eval, Option.some.injEq] at hv
    subst hv
    exact hle
  | bin op l r ihl ihr =>
    intro hle hint hb
    simp only [Expr.magBound] at hb
    have hbl : l.magBound n < 2 ^ 53 := by nlinarith
    have hbr : r.magBound n < 2 ^ 53 := by nlinarith
    obtain ⟨hl1, hl2⟩ := ihl hle.1 hint.1 hbl
    obtain ⟨hr1, hr2⟩ := ihr hle.2 hint.2.1 hbr
    have hval := hint.2.2
    simp only [Expr.value] at hl1 hl2 hr1 hr2 hval ⊢
    rw [eval_bin, eval_bin, hl1, hr1] at *
    cases hx : l.eval id with
    | none => simp
    | some x =>
      cases hy : r.eval id with
      | none => simp
      | some y =>
        obtain ⟨zx, rfl, hzx⟩ := hl2 x hx
        obtain ⟨zy, rfl, hzy⟩ := hr2 y hy
        simp only [Option.some_bind, Expr.magBound]
        rw [hx, hy] at hval
        simp only [Option.some_bind] at hval
        exact applyOp_exact hR hzx hzy hb hval

theorem integralSteps_of_noDivide {n : Nat} : ∀ (e : Expr), e.LeavesLe n → e.NoDivide →
    e.IntegralSteps ∧ ∀ v, e.value = some v → IsIntegral v := by
  intro e
  induction e with
  | num x =>
    intro hle _
    obtain ⟨z, hz, -⟩ := hle
    refine ⟨⟨z, hz⟩, ?_⟩
    intro v hv
    simp only [Expr.value, Expr.eval, Option.some.injEq] at hv
    exact ⟨z, by rw [← hv, hz]⟩
  | bin op l r ihl ihr =>
    intro hle hnd
    obtain ⟨hl1, hl2⟩ := ihl hle.1 hnd.2.1
    obtain ⟨hr1, hr2⟩ := ihr hle.2 hnd.2.2
    have hv : ∀ v, (Expr.bin op l r).value = some v → IsIntegral v := by
      intro v hv
      simp only [Expr.value] at hv hl2 hr2
      rw [eval_bin] at hv
      cases hx : l.eval id with
      | none => rw [hx] at hv; simp at hv
      | some x =>
        cases hy : r.eval id with
        | none => rw [hx, hy] at hv; simp at hv
        | some y =>
          rw [hx, hy] at hv
          simp only [Option.some_bind] at hv
          obtain ⟨zx, rfl⟩ := hl2 x hx
          obtain ⟨zy, rfl⟩ := hr2 y hy
          cases op with
          | PLUS =>
            simp only [applyOp, id, Option.some.injEq] at hv
            exact ⟨zx + zy, by rw [← hv]; push_cast; rfl⟩
          | MINUS =>
            simp only [applyOp, id, Option.some.injEq] at hv
            exact ⟨zx - zy, by rw [← hv]; push_cast; rfl⟩
          | TIMES =>
            simp only [applyOp, id, Option.some.injEq] at hv
            exact ⟨zx * zy, by rw [← hv]; push_cast; rfl⟩
          | DIVIDE => exact absurd rfl hnd.1
    exact ⟨⟨hl1, hr1, hv⟩, hv⟩

theorem magBound_exprOf (nums : Fin 4 → Int) (ops : Fin 3 → Op) (p : Prec) :
    (exprOf nums ops p).magBound 9 = 9999 := by
  cases p <;> simp only [exprOf, Expr.magBound]

/-- With three multiplications every arrangement computes the product of the digits,
whatever the rounding. -/
theorem eval_times {rnd : ℚ → ℚ} (hR : Rounding rnd) (nums : Fin 4 → Int)
    (ops : Fin 3 → Op) (p : Prec) (hdig : ∀ i, 0 ≤ nums i ∧ nums i ≤ 9)
    (h0 : ops 0 = Op.TIMES) (h1 : ops 1 = Op.TIMES) (h2 : ops 2 = Op.TIMES) :
    (exprOf nums ops p).eval rnd = some ((nums 0 * nums 1 * nums 2 * nums 3 : Int) : ℚ) := by
  have hle := leavesLe_exprOf nums ops p hdig
  have hnd : (exprOf nums ops p).NoDivide := by
    cases p <;> simp [exprOf, Expr.NoDivide, h0, h1, h2]
  have hex := (eval_exact hR _ hle (integralSteps_of_noDivide _ hle hnd).1
    (by rw [magBound_exprOf]; norm_num)).1
  rw [hex]
  cases p <;>
    simp only [Expr.value, exprOf, eval_bin, eval_num, h0, h1, h2, applyOp, id,
      Option.some_bind, Option.some.injEq] <;>
    push_cast <;> ring

set_option maxRecDepth 100000 in
theorem productCheck_true : productCheck = true := by decide

theorem product_le (x0 x1 x2 x3 : Nat) (h0 : x0 ≤ 9) (h1 : x1 ≤ 9) (h2 : x2 ≤ 9)
    (h3 : x3 ≤ 9) (h01 : x0 ≠ x1) (h02 : x0 ≠ x2) (h03 : x0 ≠ x3) (h12 : x1 ≠ x2)
    (h13 : x1 ≠ x3) (h23 : x2 ≠ x3) : x0 * x1 * x2 * x3 ≤ 3024 := by
  have h := productCheck_true
  simp only [productCheck, List.all_eq_true, List.mem_range, Bool.or_eq_true, beq_iff_eq,
    decide_eq_true_eq] at h
  have := h x0 (by omega) x1 (by omega) x2 (by omega) x3 (by omega)
  tauto

theorem digits_product_ne (x0 x1 x2 x3 : Nat) (h0 : x0 ≤ 9) (h1 : x1 ≤ 9) (h2 : x2 ≤ 9)
    (h3 : x3 ≤ 9) : x0 * x1 * x2 * x3 ≠ 3023 := by
  intro h
  have hp : Nat.Prime 3023 := by norm_num
  have d3 : x3 ∣ 3023 := ⟨x0 * x1 * x2, by rw [← h]; ring⟩
  have d2 : x2 ∣ 3023 := ⟨x0 * x1 * x3, by rw [← h]; ring⟩
  have d1 : x1 ∣ 3023 := ⟨x0 * x2 * x3, by rw [← h]; ring⟩
  have d0 : x0 ∣ 3023 := ⟨x1 * x2 * x3, by rw [← h]; ring⟩
  have e0 : x0 = 1 := by
    rcases (Nat.dvd_prime hp).1 d0 with h | h <;> omega
  have e1 : x1 = 1 := by
    rcases (Nat.dvd_prime hp).1 d1 with h | h <;> omega
  have e2 : x2 = 1 := by
    rcases (Nat.dvd_prime hp).1 d2 with h | h <;> omega
  have e3 : x3 = 1 := by
    rcases (Nat.dvd_prime hp).1 d3 with h | h <;> omega
  subst e0 e1 e2 e3
  omega

/-- The values of the expressions over four distinct digits, whatever the rounding: at most
3024 in absolute value, and never 3023. -/
theorem eval_range {rnd : ℚ → ℚ} (hR : Rounding rnd) (nums : Fin 4 → Int)
    (ops : Fin 3 → Op) (p : Prec) (hdig : ∀ i, 0 ≤ nums i ∧ nums i ≤ 9)
    (hinj : Function.Injective nums) {v : ℚ} (hv : (exprOf nums ops p).eval rnd = some v) :
    |v| ≤ 3024 ∧ v ≠ 3023 := by
  by_cases hpure : ops 0 = Op.TIMES ∧ ops 1 = Op.TIMES ∧ ops 2 = Op.TIMES
  · rw [eval_times hR nums ops p hdig hpure.1 hpure.2.1 hpure.2.2] at hv
    simp only [Option.some.injEq] at hv
    have hx : ∀ i, (nums i).natAbs ≤ 9 ∧ ((nums i).natAbs : Int) = nums i := fun i =>
      ⟨by have := hdig i; omega, Int.natAbs_of_nonneg (hdig i).1⟩
    have hne : ∀ i j, i ≠ j → (nums i).natAbs ≠ (nums j).natAbs := by
      intro i j hij h
      apply hij
      apply hinj
      rw [← (hx i).2, ← (hx j).2, h]
    have hprod : nums 0 * nums 1 * nums 2 * nums 3 =
        (((nums 0).natAbs * (nums 1).natAbs * (nums 2).natAbs * (nums 3).natAbs : Nat) :
          Int) := by
      simp only [Nat.cast_mul, (hx 0).2, (hx 1).2, (hx 2).2, (hx 3).2]
    have hle := product_le _ _ _ _ (hx 0).1 (hx 1).1 (hx 2).1 (hx 3).1 (hne 0 1 (by decide))
      (hne 0 2 (by decide)) (hne 0 3 (by decide)) (hne 1 2 (by decide)) (hne 1 3 (by decide))
      (hne 2 3 (by decide))
    have hn3 := digits_product_ne _ _ _ _ (hx 0).1 (hx 1).1 (hx 2).1 (hx 3).1
    rw [hprod] at hv
    rw [← hv]
    constructor
    · rw [abs_of_nonneg (by positivity)]
      exact_mod_cast hle
    · exact_mod_cast hn3
  · have h := eval_nonpure_le hR nums ops p hdig hpure hv
    refine ⟨le_trans h (by norm_num), ?_⟩
    intro h3
    rw [h3] at h
    norm_num at h

/-- The range of `compute` on four distinct digits: the value is in `0..3024` and is not
3023. -/
theorem compute_range (nums : Fin 4 → Int) (ops : Fin 3 → Op) (p : Prec)
    (hdig : ∀ i, 0 ≤ nums i ∧ nums i ≤ 9) (hinj : Function.Injective nums) :
    0 ≤ compute nums ops p ∧ compute nums ops p ≤ 3024 ∧ compute nums ops p ≠ 3023 := by
  rcases compute_spec nums ops p with h | ⟨v, hv, -, -, hc, hpos⟩ | ⟨v, -, -, h⟩
  · rw [h.2]; decide
  · obtain ⟨h1, h2⟩ := eval_range rounding_round64 nums ops p hdig hinj hv
    rw [← hc] at h1 h2
    refine ⟨hpos.le, ?_, ?_⟩
    · have h3 : (compute nums ops p : ℚ) ≤ 3024 := le_trans (le_abs_self _) h1
      exact_mod_cast h3
    · intro h3
      apply h2
      rw [h3]
      norm_num
  · rw [h]; decide

theorem roundEven_near {x : ℚ} {k : Int} (h1 : (k : ℚ) - 1 / 2 < x) (h2 : x < (k : ℚ) + 1 / 2) :
    roundEven x = k := by
  unfold roundEven
  by_cases hk : (k : ℚ) ≤ x
  · have hf : ⌊x⌋ = k := Int.floor_eq_iff.2 ⟨hk, by linarith⟩
    rw [hf, if_pos (by linarith)]
  · have hf : ⌊x⌋ = k - 1 := Int.floor_eq_iff.2 ⟨by push_cast; linarith, by
      push_cast; linarith⟩
    rw [hf]
    push_cast
    rw [if_neg (by linarith), if_pos (by linarith)]
    ring

theorem roundEven_tie {x : ℚ} {k : Int} (hx : x = (k : ℚ) + 1 / 2) (hk : k % 2 = 0) :
    roundEven x = k := by
  unfold roundEven
  have hf : ⌊x⌋ = k := Int.floor_eq_iff.2 ⟨by linarith, by linarith⟩
  rw [hf, if_neg (by linarith), if_neg (by linarith), if_pos hk]

theorem round64_eq {q : ℚ} (e m : Int) (h1 : (2 : ℚ) ^ e ≤ q) (h2 : q < (2 : ℚ) ^ (e + 1))
    (hm : roundEven (q / 2 ^ (e - 52)) = m) : round64 q = (m : ℚ) * 2 ^ (e - 52) := by
  have hq : 0 < q := lt_of_lt_of_le (two_zpow_pos e) h1
  have hlog : Int.log 2 q = e := by
    have ha : e ≤ Int.log 2 q := (Int.zpow_le_iff_le_log (b := 2) (by norm_num) hq).1 (by
      exact_mod_cast h1)
    have hb : Int.log 2 q < e + 1 := (Int.lt_zpow_iff_log_lt (b := 2) (by norm_num) hq).1 (by
      exact_mod_cast h2)
    omega
  unfold round64
  rw [if_neg (ne_of_gt hq), if_pos hq]
  unfold roundPos
  rw [hlog, hm]

/-- The rounding of the model at work: `(1 + 2 / 3) * 9` is 15, but in `double` arithmetic
`2 / 3` is `6004799503160661 / 2 ^ 53`, adding 1 gives `7505999378950826 / 2 ^ 52` and 9
times that gives `8444249301319679 / 2 ^ 49`, the double below 15; so `compute` returns 0
for the numbers 1, 2, 3, 9, the operations `PLUS`, `DIVIDE`, `TIMES` and the arrangement
`C`. -/
theorem compute_rounding_example :
    (exprOf nums1239 opsPlusDivideTimes Prec.C).value = some 15 ∧
      (exprOf nums1239 opsPlusDivideTimes Prec.C).rounded =
        some (8444249301319679 / 2 ^ 49) ∧
      compute nums1239 opsPlusDivideTimes Prec.C = 0 := by
  have hval : (exprOf nums1239 opsPlusDivideTimes Prec.C).value = some 15 := by
    simp only [Expr.value, exprOf, eval_bin, eval_num, Option.some_bind, opsPlusDivideTimes,
      applyOp, id, nums1239]
    norm_num
  have r1 : round64 ((2 : ℚ) / 3) = 6004799503160661 / 2 ^ 53 := by
    have h := round64_eq (q := (2 : ℚ) / 3) (-1) 6004799503160661 (by norm_num) (by norm_num)
      (roundEven_near (by norm_num) (by norm_num))
    rw [h]
    norm_num
  have r2 : round64 ((1 : ℚ) + 6004799503160661 / 2 ^ 53) = 7505999378950826 / 2 ^ 52 := by
    have h := round64_eq (q := (1 : ℚ) + 6004799503160661 / 2 ^ 53) 0 7505999378950826
      (by norm_num) (by norm_num) (roundEven_tie (by norm_num) (by decide))
    rw [h]
    norm_num
  have r3 : round64 ((7505999378950826 : ℚ) / 2 ^ 52 * 9) = 8444249301319679 / 2 ^ 49 := by
    have h := round64_eq (q := (7505999378950826 : ℚ) / 2 ^ 52 * 9) 3 8444249301319679
      (by norm_num) (by norm_num) (roundEven_near (by norm_num) (by norm_num))
    rw [h]
    norm_num
  have hrnd : (exprOf nums1239 opsPlusDivideTimes Prec.C).rounded =
      some (8444249301319679 / 2 ^ 49) := by
    simp only [Expr.rounded, exprOf, eval_bin, eval_num, Option.some_bind,
      opsPlusDivideTimes, applyOp, nums1239]
    norm_num
    rw [r1, r2, r3]
    norm_num
  refine ⟨hval, hrnd, ?_⟩
  rcases compute_spec nums1239 opsPlusDivideTimes Prec.C with h | ⟨v, hv, ⟨z, hz⟩, -⟩ |
    ⟨v, -, -, h⟩
  · exact h.2
  · exfalso
    rw [hrnd] at hv
    simp only [Option.some.injEq] at hv
    rw [hz] at hv
    have h2 : (8444249301319679 : ℚ) = (z : ℚ) * 562949953421312 := by
      rw [← hv]
      norm_num
    have h3 : (8444249301319679 : Int) = z * 562949953421312 := by exact_mod_cast h2
    omega
  · exact h

/-- From `a < b < c < d` the loop over the permutations visits the 24 arrangements in
lexicographic order and ends after the last one. -/
theorem permSeq_sorted (a b c d : Int) (hab : a < b) (hbc : b < c) (hcd : c < d) :
    permSeq 24 [a, b, c, d] = some
      [[a, b, c, d], [a, b, d, c], [a, c, b, d], [a, c, d, b], [a, d, b, c], [a, d, c, b],
        [b, a, c, d], [b, a, d, c], [b, c, a, d], [b, c, d, a], [b, d, a, c], [b, d, c, a],
        [c, a, b, d], [c, a, d, b], [c, b, a, d], [c, b, d, a], [c, d, a, b], [c, d, b, a],
        [d, a, b, c], [d, a, c, b], [d, b, a, c], [d, b, c, a], [d, c, a, b], [d, c, b, a]] := by
  have hac : a < c := lt_trans hab hbc
  have had : a < d := lt_trans hac hcd
  have hbd : b < d := lt_trans hbc hcd
  have nba : ¬ b < a := not_lt.2 (le_of_lt hab)
  have nca : ¬ c < a := not_lt.2 (le_of_lt hac)
  have nda : ¬ d < a := not_lt.2 (le_of_lt had)
  have ncb : ¬ c < b := not_lt.2 (le_of_lt hbc)
  have ndb : ¬ d < b := not_lt.2 (le_of_lt hbd)
  have ndc : ¬ d < c := not_lt.2 (le_of_lt hcd)
  simp [permSeq, nextPermutation, List.range, List.range.loop, List.find?, hab, hbc, hcd, hac,
    had, hbd, nba, nca, nda, ncb, ndb, ndc]

theorem arrangement_array {q : List Int} (h : IsArrangement q) :
    (∀ i, 0 ≤ toArray q i ∧ toArray q i ≤ 9) ∧ Function.Injective (toArray q) := by
  obtain ⟨x0, x1, x2, x3, rfl, h0, h1, h2, h3, h01, h02, h03, h12, h13, h23⟩ := h
  constructor
  · intro i
    fin_cases i
    · exact h0
    · exact h1
    · exact h2
    · exact h3
  · intro i j hij
    fin_cases i <;> fin_cases j <;> simp [toArray] at hij ⊢ <;>
      first
        | exact absurd hij h01 | exact absurd hij h02 | exact absurd hij h03
        | exact absurd hij h12 | exact absurd hij h13 | exact absurd hij h23
        | exact absurd hij.symm h01 | exact absurd hij.symm h02 | exact absurd hij.symm h03
        | exact absurd hij.symm h12 | exact absurd hij.symm h13 | exact absurd hij.symm h23

theorem markValue_inv {tbl : List Bool} {val : Int} (htbl : TableInv tbl) (h0 : 0 ≤ val)
    (h1 : val ≤ 3024) (h2 : val ≠ 3023) :
    ∃ tbl1, markValue tbl val = some tbl1 ∧ TableInv tbl1 := by
  refine ⟨tbl.set val.toNat true, ?_, ?_, ?_⟩
  · unfold markValue
    rw [if_pos ⟨h0, by omega⟩]
  · simpa using htbl.1
  · rw [List.getElem?_set_ne (by omega)]
    exact htbl.2

theorem forEach_inv {body : Nat → List Bool → Option (List Bool)}
    (hbody : ∀ i tbl, TableInv tbl → ∃ tbl1, body i tbl = some tbl1 ∧ TableInv tbl1) :
    ∀ (idxs : List Nat) (tbl : List Bool), TableInv tbl →
      ∃ tbl1, forEach body idxs tbl = some tbl1 ∧ TableInv tbl1 := by
  intro idxs
  induction idxs with
  | nil => intro tbl h; exact ⟨tbl, rfl, h⟩
  | cons i rest ih =>
    intro tbl h
    obtain ⟨tbl1, h1, hinv1⟩ := hbody i tbl h
    obtain ⟨tbl2, h2, hinv2⟩ := ih tbl1 hinv1
    exact ⟨tbl2, by simp only [forEach, h1, Option.some_bind, h2], hinv2⟩

theorem trialBody_inv {q : List Int} (hq : IsArrangement q) {tbl : List Bool}
    (htbl : TableInv tbl) : ∃ tbl1, trialBody q tbl = some tbl1 ∧ TableInv tbl1 := by
  obtain ⟨hdig, hinj⟩ := arrangement_array hq
  unfold trialBody
  refine forEach_inv (fun i => forEach_inv (fun j => forEach_inv (fun k =>
    forEach_inv (fun t tbl0 h0 => ?_) _) _) _) _ tbl htbl
  obtain ⟨h1, h2, h3⟩ := compute_range (toArray q) (opsArray i j k) (precOfInt t) hdig hinj
  exact markValue_inv h0 h1 h2 h3

theorem permLoop_inv : ∀ (fuel : Nat) (q : List Int) (seq : List (List Int)) (tbl : List Bool),
    permSeq fuel q = some seq → (∀ r ∈ seq, IsArrangement r) → TableInv tbl →
    ∃ tbl1, permLoop fuel q tbl = Run.done tbl1 ∧ TableInv tbl1 := by
  intro fuel
  induction fuel with
  | zero => intro q seq tbl h; simp [permSeq] at h
  | succ fuel ih =>
    intro q seq tbl hseq harr htbl
    simp only [permSeq] at hseq
    simp only [permLoop]
    rcases hnext : nextPermutation q with ⟨more, q1⟩
    rw [hnext] at hseq
    cases more with
    | false =>
      simp only [Option.some.injEq] at hseq
      subst hseq
      obtain ⟨tbl1, h1, hinv1⟩ := trialBody_inv (harr q (List.mem_singleton_self q)) htbl
      exact ⟨tbl1, by simp only [h1], hinv1⟩
    | true =>
      simp only [Option.map_eq_some'] at hseq
      obtain ⟨seq1, hseq1, rfl⟩ := hseq
      obtain ⟨tbl1, h1, hinv1⟩ := trialBody_inv (harr q (List.mem_cons_self _ _)) htbl
      obtain ⟨tbl2, h2, hinv2⟩ := ih q1 seq1 tbl1 hseq1
        (fun r hr => harr r (List.mem_cons_of_mem _ hr)) hinv1
      exact ⟨tbl2, by simp only [h1, h2], hinv2⟩

theorem scanLoop_stops {tbl : List Bool} (htbl : TableInv tbl) :
    ∀ (fuel n : Nat), n < 3023 → 3023 ≤ n + fuel →
      ∃ m, scanLoop fuel tbl n = Run.done m ∧ n < m ∧ m ≤ 3023 := by
  intro fuel
  induction fuel with
  | zero => intro n h1 h2; omega
  | succ fuel ih =>
    intro n h1 h2
    have hlt : n + 1 < tbl.length := by rw [htbl.1]; omega
    simp only [scanLoop, List.getElem?_eq_getElem hlt]
    cases hb : tbl[n + 1] with
    | false => exact ⟨n + 1, rfl, by omega, by omega⟩
    | true =>
      have hne : n + 1 ≠ 3023 := by
        rintro h
        have := htbl.2
        rw [← h, List.getElem?_eq_getElem hlt, hb] at this
        exact absurd this (by simp)
      obtain ⟨m, hm, hm1, hm2⟩ := ih (n + 1) (by omega) (by omega)
      exact ⟨m, hm, by omega, hm2⟩

theorem tableInv_init : TableInv (List.replicate 3025 false) := by
  refine ⟨List.length_replicate _ _, ?_⟩
  rw [List.getElem?_replicate]
  simp

/-- Claim C19: for `0 <= a < b < c < d <= 9`, every arrangement `nums` of the four numbers,
every three operations and every parenthesisation, the value returned by `compute` lies in
0..3024, in the `double` arithmetic of the program; so in `trial` every write
`canExpress[val] = true` is inside the table of 3025 entries, and `trial` returns a value
`n` after its final scan has stopped at the index `n + 1`, which is below 3025. Over exact
rational arithmetic as well the value of every such expression is at most 3024. -/
theorem compute_in_table (a b c d : Int) (ha : 0 ≤ a) (hab : a < b) (hbc : b < c)
    (hcd : c < d) (hd : d ≤ 9) :
    (∀ (nums : Fin 4 → Int) (ops : Fin 3 → Op) (p : Prec),
      (List.ofFn nums).Perm [a, b, c, d] →
      0 ≤ compute nums ops p ∧ compute nums ops p ≤ 3024) ∧
    (∃ n : Int, trial a b c d = Run.done n ∧ 0 ≤ n ∧ n + 1 < 3025) ∧
    (∀ (nums : Fin 4 → Int) (ops : Fin 3 → Op) (p : Prec) (v : ℚ),
      (List.ofFn nums).Perm [a, b, c, d] → (exprOf nums ops p).value = some v →
      |v| ≤ 3024) := by
  have hperm : ∀ nums : Fin 4 → Int, (List.ofFn nums).Perm [a, b, c, d] →
      (∀ i, 0 ≤ nums i ∧ nums i ≤ 9) ∧ Function.Injective nums := by
    intro nums hperm
    have hnd : ([a, b, c, d] : List Int).Nodup := by
      simp only [List.nodup_cons, List.mem_cons, List.mem_singleton, List.not_mem_nil,
        or_false, not_or, List.nodup_nil, and_true, not_false_eq_true]
      omega
    refine ⟨?_, List.nodup_ofFn.1 ((hperm.nodup_iff).2 hnd)⟩
    intro i
    have hmem : nums i ∈ [a, b, c, d] := hperm.subset ((List.mem_ofFn nums (nums i)).2 ⟨i, rfl⟩)
    simp only [List.mem_cons, List.mem_singleton, List.not_mem_nil, or_false] at hmem
    omega
  refine ⟨?_, ?_, ?_⟩
  · intro nums ops p hp
    obtain ⟨hdig, hinj⟩ := hperm nums hp
    obtain ⟨h1, h2, -⟩ := compute_range nums ops p hdig hinj
    exact ⟨h1, h2⟩
  · have harr : ∀ x0 x1 x2 x3 : Int, x0 ∈ [a, b, c, d] → x1 ∈ [a, b, c, d] →
        x2 ∈ [a, b, c, d] → x3 ∈ [a, b, c, d] → x0 ≠ x1 → x0 ≠ x2 → x0 ≠ x3 → x1 ≠ x2 →
        x1 ≠ x3 → x2 ≠ x3 → IsArrangement [x0, x1, x2, x3] := by
      intro x0 x1 x2 x3 m0 m1 m2 m3 h01 h02 h03 h12 h13 h23
      simp only [List.mem_cons, List.mem_singleton, List.not_mem_nil, or_false] at m0 m1 m2 m3
      exact ⟨x0, x1, x2, x3, rfl, by omega, by omega, by omega, by omega, h01, h02, h03, h12,
        h13, h23⟩
    have hall : ∀ r ∈ (
      [[a, b, c, d], [a, b, d, c], [a, c, b, d], [a, c, d, b], [a, d, b, c], [a, d, c, b],
        [b, a, c, d], [b, a, d, c], [b, c, a, d], [b, c, d, a], [b, d, a, c], [b, d, c, a],
        [c, a, b, d], [c, a, d, b], [c, b, a, d], [c, b, d, a], [c, d, a, b], [c, d, b, a],
        [d, a, b, c], [d, a, c, b], [d, b, a, c], [d, b, c, a], [d, c, a, b], [d, c, b, a]] :
        List (List Int)), IsArrangement r := by
      intro r hr
      simp only [List.mem_cons, List.mem_singleton, List.not_mem_nil, or_false] at hr
      rcases hr with rfl | rfl | rfl | rfl | rfl | rfl | rfl | rfl | rfl | rfl | rfl | rfl |
        rfl | rfl | rfl | rfl | rfl | rfl | rfl | rfl | rfl | rfl | rfl | rfl <;>
      exact harr _ _ _ _ (by simp) (by simp) (by simp) (by simp) (by omega) (by omega)
        (by omega) (by omega) (by omega) (by omega)
    obtain ⟨tbl, hloop, hinv⟩ := permLoop_inv 24 [a, b, c, d] _ _
      (permSeq_sorted a b c d hab hbc hcd) hall tableInv_init
    obtain ⟨m, hscan, hm1, hm2⟩ := scanLoop_stops hinv 3025 0 (by decide) (by decide)
    refine ⟨(m : Int) - 1, ?_, by omega, by omega⟩
    unfold trial
    rw [hloop]
    dsimp only
    rw [hscan]
  · intro nums ops p v hp hv
    obtain ⟨hdig, hinj⟩ := hperm nums hp
    exact (eval_range rounding_id nums ops p hdig hinj hv).1

theorem compute_in_table_witness :
    (∀ (nums : Fin 4 → Int) (ops : Fin 3 → Op) (p : Prec),
      (List.ofFn nums).Perm [1, 2, 5, 8] →
      0 ≤ compute nums ops p ∧ compute nums ops p ≤ 3024) ∧
    (∃ n : Int, trial 1 2 5 8 = Run.done n ∧ 0 ≤ n ∧ n + 1 < 3025) ∧
    (∀ (nums : Fin 4 → Int) (ops : Fin 3 → Op) (p : Prec) (v : ℚ),
      (List.ofFn nums).Perm [1, 2, 5, 8] → (exprOf nums ops p).value = some v →
      |v| ≤ 3024) :=
  compute_in_table 1 2 5 8 (by decide) (by decide) (by decide) (by decide) (by decide)

end P93
